import Mathlib

/-!
Extended Hamming encoder and decoder

A shallow embedding of `source.c` (the matrix codec, the bit buffer and the two
session loops) together with theorems about it.

Conventions of the embedding.

* `struct Matrix` is a pair of its constant field `dimension`, passed to every
  function as the argument `d`, and its cell store `int **matrix`, a function
  from row and column to the stored `int`.
* `struct Buffer` keeps its three fields; the `int *buffer` array is a list.
* `FILE *` streams are the list of items still unread plus the end-of-file
  indicator tested by `feof`.  `fgetc` sets the indicator when it finds no item
  left.  `fscanf` with `%1d` reads one character beyond the digit or sign it
  consumes and puts it back, so it sets the indicator also when it consumes the
  last character of the stream.
* `char` is the signed 8-bit type and `int` has 32 bits (`sizeof(int) == 4`)
  in two's complement; `+=` on an `int` wraps modulo `2^32`.
* Loop counters are natural numbers.  The test `(j & (j-1)) == 0` at `j = 0`
  reads `0 & -1` in C and `0 &&& 0` here; both are `0`.
* The counter `*errors` is an `int` and `*correctable` a Boolean.
* The two session loops take fuel; `encode` and `decode` supply enough of it
  for every run that ends.
-/

namespace ExtendedHamming

/-- The constant `CHARBITS`. -/
def CHARBITS : Nat := 8

/-- The value `-1` stored in a cell that holds no bit. -/
def PADDING : Int := -1

/-- The value `EOF` of `stdio.h`. -/
def EOF : Int := -1

/-- The cell store `int **matrix` of `struct Matrix`. -/
abbrev Matrix := Nat → Nat → Int

/-- The assignment `matrix[i][j] = v`. -/
def Matrix.set (m : Matrix) (i j : Nat) (v : Int) : Matrix :=
  fun a b => if a = i ∧ b = j then v else m a b

/-- The matrix returned by `matrix_initialize`: `calloc` clears every cell. -/
def matrix_initialize : Matrix := fun _ _ => 0

/-- The record `struct Buffer`. -/
structure Buffer where
  buffer : List Int
  size : Nat
  capacity : Nat

/-- The buffer returned by `buffer_initialize(n)`. -/
def buffer_initialize (n : Nat) : Buffer :=
  { buffer := List.replicate n 0, size := 0, capacity := n }

/-- A stream opened for reading: the unread items and the end-of-file indicator. -/
structure File (α : Type) where
  data : List α
  eof : Bool

/-- A freshly opened stream. -/
def File.open {α : Type} (l : List α) : File α := { data := l, eof := false }

/-- The call `fgetc(input_file)` on a stream of bytes. -/
def fgetc (f : File Nat) : Int × File Nat :=
  match f.data with
  | [] => (EOF, { f with eof := true })
  | b :: rest => (((b % 256 : Nat) : Int), { f with data := rest })

/-- Conversion of an `int` to the signed 8-bit `char`. -/
def toChar (v : Int) : Int := (v + 128) % 256 - 128

/-- The byte written by `fprintf(output_file, "%c", c)`. -/
def charByte (c : Int) : Nat := (c % 256).toNat

/-- The characters written by `fprintf(output_file, "%d", v)`. -/
def fprintf_d (v : Int) : List Char := (toString v).toList

/-- The function `charToBinary`; `c >> k` is the arithmetic shift `Int.shiftRight`. -/
def charToBinary (c : Int) (buffer : Buffer) : Buffer :=
  (List.range CHARBITS).foldl
    (fun b i =>
      { b with
        buffer := b.buffer.set b.size (Int.land (Int.shiftRight c (CHARBITS - 1 - i)) 1)
        size := b.size + 1 })
    buffer

/-- The function `binaryToChar`; `x << k` is `x * 2 ^ k`. -/
def binaryToChar (binary : Buffer) : Int :=
  (List.range CHARBITS).foldl
    (fun c i => toChar (Int.lor c (binary.buffer.getD i 0 * 2 ^ (CHARBITS - 1 - i))))
    0

/-- The function `buffer_enqueue`. -/
def buffer_enqueue (buffer : Buffer) (v : Int) : Buffer :=
  { buffer with buffer := buffer.buffer.set buffer.size v, size := buffer.size + 1 }

/-- The function `buffer_dequeue`, with the input stream made explicit. -/
def buffer_dequeue (buffer : Buffer) (f : File Nat) : Int × Buffer × File Nat :=
  if buffer.size = buffer.capacity then
    let r := fgetc f
    let c := toChar r.1
    if c = EOF then
      (-1, buffer, r.2)
    else
      let b1 := charToBinary c { buffer with size := 0 }
      let b2 := { b1 with size := 0 }
      (b2.buffer.getD b2.size 0, { b2 with size := b2.size + 1 }, r.2)
  else
    (buffer.buffer.getD buffer.size 0, { buffer with size := buffer.size + 1 }, f)

/-- The two tests that make `encode_matrix_fill`, `encode_matrix_write`,
`decode_matrix_fill` and `decode_matrix_write` skip a cell. -/
def isSkipped (i j : Nat) : Bool :=
  (i == 0 && (j &&& (j - 1)) == 0) || (j == 0 && (i &&& (i - 1)) == 0)

/-- The nested loops `for (i = 0; i < d; i++) for (j = 0; j < d; j++)`. -/
def forCells {σ : Type} (d : Nat) (body : σ → Nat → Nat → σ) (s : σ) : σ :=
  (List.range d).foldl (fun s i => (List.range d).foldl (fun s j => body s i j) s) s

/-- The state threaded through the encoder: matrix, bit buffer, input stream. -/
structure EncState where
  matrix : Matrix
  buffer : Buffer
  input : File Nat

/-- The body of the loops of `encode_matrix_fill`. -/
def encode_fill_step (s : EncState) (i j : Nat) : EncState :=
  if isSkipped i j then
    { s with matrix := s.matrix.set i j 0 }
  else
    let r := buffer_dequeue s.buffer s.input
    { matrix := s.matrix.set i j r.1, buffer := r.2.1, input := r.2.2 }

/-- The function `encode_matrix_fill`. -/
def encode_matrix_fill (d : Nat) (s : EncState) : EncState :=
  forCells d encode_fill_step s

/-- The first loops of `encode_matrix_parity`: `parity` and `metaParity`. -/
def encode_parity_scan (d : Nat) (m : Matrix) : Nat × Nat :=
  forCells d
    (fun s i j => if m i j = 1 then (s.1 ^^^ (i * d + j), s.2 ^^^ 1) else s)
    (0, 0)

/-- The function `encode_matrix_parity`. -/
def encode_matrix_parity (d : Nat) (m : Matrix) : Matrix :=
  let pm := encode_parity_scan d m
  let intBits := 4 * 4
  let r : Matrix × Nat :=
    (List.range intBits).foldl
      (fun s i =>
        if (pm.1 >>> i) &&& 1 = 1 then
          let position := 1 <<< i
          (s.1.set (position / d) (position % d) 1, s.2 ^^^ 1)
        else s)
      (m, pm.2)
  if r.2 = 1 then r.1.set 0 0 1 else r.1

/-- The third loop nest of `encode_matrix_write`; the flag records the `return`. -/
def encode_write_step (m : Matrix) (s : List Char × Bool) (i j : Nat) : List Char × Bool :=
  if s.2 then s
  else if isSkipped i j then s
  else if m i j = -1 then (s.1, true)
  else (s.1 ++ fprintf_d (m i j), false)

/-- The function `encode_matrix_write`; the result is the text written. -/
def encode_matrix_write (d : Nat) (m : Matrix) : List Char :=
  let o1 := (List.range d).foldl
    (fun out j => if (j &&& (j - 1)) = 0 then out ++ fprintf_d (m 0 j) else out) []
  let o2 := (List.range' 1 (d - 1)).foldl
    (fun out i => if (i &&& (i - 1)) = 0 then out ++ fprintf_d (m i 0) else out) o1
  (forCells d (encode_write_step m) (o2, false)).1

/-- The loop of `encode`: one entry of the result per iteration, the text that
`encode_matrix_write` wrote in it.  `none` when the fuel runs out. -/
def encode_loop (d : Nat) : Nat → EncState → Option (List (List Char))
  | fuel, s =>
    if !s.input.eof || s.buffer.size != s.buffer.capacity then
      match fuel with
      | 0 => none
      | fuel + 1 =>
        let s1 := encode_matrix_fill d s
        let m2 := encode_matrix_parity d s1.matrix
        let out := encode_matrix_write d m2
        (encode_loop d fuel { s1 with matrix := m2 }).map (fun rest => out :: rest)
    else some []

/-- The state in which `encode` enters its loop. -/
def encode_init (input : List Nat) : EncState :=
  { matrix := matrix_initialize
    buffer := { buffer_initialize 8 with size := 8 }
    input := File.open input }

/-- The blocks written by `encode`, in order. -/
def encode_blocks (d : Nat) (input : List Nat) : Option (List (List Char)) :=
  encode_loop d (8 * input.length + 1) (encode_init input)

/-- The function `encode`: the text written to the output file. -/
def encode (d : Nat) (input : List Nat) : Option (List Char) :=
  (encode_blocks d input).map List.flatten

/-- The characters that `isspace` accepts. -/
def isspace (c : Char) : Bool :=
  c.toNat == 32 || (9 ≤ c.toNat && c.toNat ≤ 13)

/-- The call `fscanf(input_file, "%1d", &x)`: the value stored in `x`, if any,
and the stream afterwards.  White space is skipped; a decimal digit is
consumed and stored; a sign is consumed and nothing is stored; any other
character stays unread and nothing is stored; at the end of the stream nothing
is stored and the end-of-file indicator is set.  After a digit or a sign the
call reads one character ahead, so the indicator is set as well when the
consumed character was the last one of the stream. -/
def fscanf_1d (f : File Char) : Option Int × File Char :=
  match f.data.dropWhile isspace with
  | [] => (none, { data := [], eof := true })
  | c :: rest =>
    if c.isDigit then
      (some ((c.toNat - 48 : Nat) : Int), { data := rest, eof := f.eof || rest.isEmpty })
    else if c = '+' ∨ c = '-' then (none, { data := rest, eof := f.eof || rest.isEmpty })
    else (none, { f with data := c :: rest })

/-- The statement `fscanf(input_file, "%1d", &matrix[i][j])`. -/
def scan_cell (s : Matrix × File Char) (i j : Nat) : Matrix × File Char :=
  let r := fscanf_1d s.2
  match r.1 with
  | some v => (s.1.set i j v, r.2)
  | none => (s.1, r.2)

/-- The body of the third loop nest of `decode_matrix_fill`. -/
def decode_fill_step (s : Matrix × File Char) (i j : Nat) : Matrix × File Char :=
  if isSkipped i j then s
  else
    let s1 := scan_cell s i j
    if s1.2.eof then (s1.1.set i j (-1), s1.2) else s1

/-- The function `decode_matrix_fill`, with the input stream made explicit. -/
def decode_matrix_fill (d : Nat) (s : Matrix × File Char) : Matrix × File Char :=
  let s1 := (List.range d).foldl
    (fun s j => if (j &&& (j - 1)) = 0 then scan_cell s 0 j else s) s
  let s2 := (List.range' 1 (d - 1)).foldl
    (fun s i => if (i &&& (i - 1)) = 0 then scan_cell s i 0 else s) s1
  forCells d decode_fill_step s2

/-- The loops of `decode_matrix_parity`: `parity` and `metaParity`. -/
def decode_parity_scan (d : Nat) (m : Matrix) : Nat × Nat :=
  forCells d
    (fun s i j =>
      if i = 0 ∧ j = 0 then s
      else if m i j = 1 then (s.1 ^^^ (i * d + j), s.2 ^^^ 1) else s)
    (0, 0)

/-- The largest value of an `int`. -/
def INT_MAX : Int := 2147483647

/-- The `int` that holds the result `x` of an `int` operation: `x` reduced
modulo `2^32` into the range from `-2^31` to `2^31 - 1`. -/
def toInt32 (x : Int) : Int := (x + 2 ^ 31) % 2 ^ 32 - 2 ^ 31

/-- The function `decode_matrix_parity`: the matrix, `*errors` and
`*correctable` afterwards. -/
def decode_matrix_parity (d : Nat) (m : Matrix) (errors : Int) (correctable : Bool) :
    Matrix × Int × Bool :=
  let pm := decode_parity_scan d m
  if pm.1 ≠ 0 then
    if (pm.2 : Int) = m 0 0 then
      (m, toInt32 (errors + 2), false)
    else
      let x := pm.1 / d
      let y := pm.1 % d
      (m.set x y (Int.xor (m x y) 1), toInt32 (errors + 1), correctable)
  else (m, errors, correctable)

/-- The body of the loops of `decode_matrix_write`: the buffer and the bytes
written so far. -/
def decode_write_step (m : Matrix) (s : Buffer × List Nat) (i j : Nat) : Buffer × List Nat :=
  if isSkipped i j then s
  else
    let b1 := if m i j ≠ -1 then buffer_enqueue s.1 (m i j) else s.1
    if b1.size = b1.capacity then
      let c := binaryToChar b1
      ({ b1 with size := 0 }, s.2 ++ [charByte c])
    else (b1, s.2)

/-- The function `decode_matrix_write`, with the output made explicit. -/
def decode_matrix_write (d : Nat) (m : Matrix) (s : Buffer × List Nat) : Buffer × List Nat :=
  forCells d (decode_write_step m) s

/-- The state threaded through the decoder. -/
structure DecState where
  matrix : Matrix
  buffer : Buffer
  input : File Char
  errors : Int
  correctable : Bool
  output : List Nat

/-- One iteration of the loop of `decode`. -/
def decode_block (d : Nat) (s : DecState) : DecState :=
  let r1 := decode_matrix_fill d (s.matrix, s.input)
  let r2 := decode_matrix_parity d r1.1 s.errors s.correctable
  let r3 := decode_matrix_write d r2.1 (s.buffer, s.output)
  { matrix := r2.1, buffer := r3.1, input := r1.2,
    errors := r2.2.1, correctable := r2.2.2, output := r3.2 }

/-- The loop of `decode`; `none` when the fuel runs out. -/
def decode_loop (d : Nat) : Nat → DecState → Option DecState
  | fuel, s =>
    if !s.input.eof then
      match fuel with
      | 0 => none
      | fuel + 1 => decode_loop d fuel (decode_block d s)
    else some s

/-- The state in which `decode` enters its loop. -/
def decode_init (text : List Char) : DecState :=
  { matrix := matrix_initialize, buffer := buffer_initialize 8, input := File.open text,
    errors := 0, correctable := true, output := [] }

/-- The function `decode`: the bytes written, `errors` and `correctable`.  An
iteration that reads no character and does not reach the end of the stream
repeats forever; the fuel `text.length + 1` is enough in every other case. -/
def decode (d : Nat) (text : List Char) : Option (List Nat × Int × Bool) :=
  (decode_loop d (text.length + 1) (decode_init text)).map
    (fun s => (s.output, s.errors, s.correctable))

/-- The checks of `main` on `settings->matrix_size`. -/
def validDimension (d : Nat) : Bool :=
  !(!(decide (d ≥ 2)) || !(decide (d ≤ 256))) && (d &&& (d - 1)) == 0

/-! ## Definitions used to state the properties -/

/-- The cells of a `d × d` matrix in row-major order. -/
def cells (d : Nat) : List (Nat × Nat) :=
  (List.range d).flatMap (fun i => (List.range d).map (fun j => (i, j)))

/-- The cells that the fill and write loops do not skip, in row-major order. -/
def dataCells (d : Nat) : List (Nat × Nat) :=
  (cells d).filter (fun c => !isSkipped c.1 c.2)

/-- The value of the cell with linear index `n`. -/
def Matrix.at (m : Matrix) (d n : Nat) : Int := m (n / d) (n % d)

/-- XOR of the indices `n < N` selected by `g`. -/
def xorIdx (g : Nat → Bool) : Nat → Nat
  | 0 => 0
  | N + 1 => if g N then xorIdx g N ^^^ N else xorIdx g N

/-- Parity (0 or 1) of the number of indices `n < N` selected by `g`. -/
def xorCnt (g : Nat → Bool) : Nat → Nat
  | 0 => 0
  | N + 1 => if g N then xorCnt g N ^^^ 1 else xorCnt g N


/-- Selects the linear indices whose cell holds 1. -/
def ones (d : Nat) (m : Matrix) : Nat → Bool := fun n => decide (m.at d n = 1)

/-- Selects the linear indices other than 0 whose cell holds 1. -/
def onesD (d : Nat) (m : Matrix) : Nat → Bool :=
  fun n => decide (n ≠ 0) && decide (m.at d n = 1)

/-- The contents that `encode_matrix_fill` leaves in the matrix: 0 in every
skipped cell, a bit or `PADDING` in every other cell. -/
def Filled (d : Nat) (m : Matrix) : Prop :=
  ∀ a b, a < d → b < d →
    if isSkipped a b = true then m a b = 0 else (m a b = 0 ∨ m a b = 1 ∨ m a b = -1)

/-- The eight bits of a byte, most significant first. -/
def bitsOfByte (b : Nat) : List Int :=
  (List.range 8).map (fun i => ((b / 2 ^ (7 - i) % 2 : Nat) : Int))

/-- The eight values that `charToBinary` stores for the `char` value `c`. -/
def charBits (c : Int) : List Int :=
  (List.range 8).map (fun i => Int.land (Int.shiftRight c (7 - i)) 1)

/-- The bit buffers that occur in `encode`: eight slots, each holding a bit,
and a read position within them. -/
def WellFormed (b : Buffer) : Prop :=
  b.capacity = 8 ∧ b.buffer.length = 8 ∧ b.size ≤ 8 ∧ ∀ v ∈ b.buffer, v = 0 ∨ v = 1

instance (b : Buffer) : Decidable (WellFormed b) := by
  unfold WellFormed
  infer_instance

/-- The block that one iteration of the loop of `encode` builds from the state
`s`: `encode_matrix_fill` followed by `encode_matrix_parity`. -/
def encodeBlock (d : Nat) (s : EncState) : Matrix :=
  encode_matrix_parity d (encode_matrix_fill d s).matrix

/-- The matrix `m` with the bit in cell `(i, j)` flipped. -/
def flipCell (m : Matrix) (i j : Nat) : Matrix := m.set i j (1 - m i j)

/-- The three kinds of cell. -/
inductive CellKind where
  | metaParity
  | parity
  | data
  deriving DecidableEq

/-- The classification of the cell `(i, j)` that the code uses: `(0,0)` is the
meta-parity cell, the other cells that the fill loop skips are parity cells,
and every cell that it fills from the bit source is a data cell. -/
def classify (i j : Nat) : CellKind :=
  if i = 0 ∧ j = 0 then CellKind.metaParity
  else if isSkipped i j then CellKind.parity
  else CellKind.data

/-- The number of cells of kind `k` met by the loops over a `d × d` matrix. -/
def countKind (d : Nat) (k : CellKind) : Nat :=
  forCells d (fun c i j => if classify i j = k then c + 1 else c) 0

/-- The number of iterations of the loops of `encode_matrix_fill` that reach
the call of `buffer_dequeue`, that is, the number of cells filled from the bit
source. -/
def fillCount (d : Nat) : Nat :=
  forCells d (fun c i j => if isSkipped i j then c else c + 1) 0

/-- The value `numParity` that `encode` computes for its report. -/
def numParity (d : Nat) : Nat :=
  ((List.range d).foldl (fun n i => if (i &&& (i - 1)) = 0 then n + 1 else n) 0) * 2 - 1

/-- The character `'0'` or `'1'` that stands for a bit on the wire. -/
def bitChar (v : Int) : Char := if v = 1 then '1' else '0'

/-- The parity section of a block on the wire: `(0,0), (0,1), (0,2), (0,4), …,
(0,d/2)` and then `(1,0), (2,0), (4,0), …, (d/2,0)`. -/
def wireCells (d : Nat) : List (Nat × Nat) :=
  ((0, 0) :: (List.range (Nat.log2 d)).map (fun k => (0, 2 ^ k)))
    ++ (List.range (Nat.log2 d)).map (fun k => (2 ^ k, 0))

/-- The values of the data cells of `m`, in row-major order. -/
def dataValues (d : Nat) (m : Matrix) : List Int :=
  (dataCells d).map (fun c => m c.1 c.2)

/-- The matrices that `encode_matrix_write` is given: a bit in every cell that
the loops skip, a bit or `PADDING` in every other cell. -/
def BlockCells (d : Nat) (m : Matrix) : Prop :=
  ∀ a b, a < d → b < d →
    if isSkipped a b = true then (m a b = 0 ∨ m a b = 1)
    else (m a b = 0 ∨ m a b = 1 ∨ m a b = -1)

/-- The calls of `decode_matrix_write` of one decode session, on the matrices
`ms` of its blocks (after `decode_matrix_parity`), in order. -/
def decode_session_write (d : Nat) (ms : List Matrix) (s : Buffer × List Nat) :
    Buffer × List Nat :=
  ms.foldl (fun s m => decode_matrix_write d m s) s

/-- The values of the data cells of `m` that are not `PADDING`, in row-major order. -/
def payload (d : Nat) (m : Matrix) : List Int :=
  (dataValues d m).filter (fun v => decide (v ≠ PADDING))

/-- The payload of a session: the payloads of its blocks, block by block. -/
def sessionPayload (d : Nat) (ms : List Matrix) : List Int :=
  ms.flatMap (payload d)

/-- The `k`-th group of eight values of `p`: `p[8k], …, p[8k+7]`. -/
def group (p : List Int) (k : Nat) : List Int := (p.drop (8 * k)).take 8

/-- The number whose binary digits are the given bits, the first bit being the
most significant. -/
def packByte (bits : List Int) : Nat := bits.foldl (fun acc b => 2 * acc + b.toNat) 0

/-- The byte that `decode_matrix_write` writes when the buffer holds the values `g`. -/
def byteOfGroup (g : List Int) : Nat :=
  charByte (binaryToChar { buffer := g, size := 8, capacity := 8 })

/-- Byte reassembly on the values that are enqueued: the pending partial group
and the bytes written so far. -/
def feedBit (s : List Int × List Nat) (v : Int) : List Int × List Nat :=
  if s.1.length + 1 = 8 then ([], s.2 ++ [byteOfGroup (s.1 ++ [v])]) else (s.1 ++ [v], s.2)

/-- The bits that the encoder has not yet placed in a matrix: the unread slots
of the buffer, then the bits of the bytes not yet read. -/
def pending (b : Buffer) (f : File Nat) : List Int :=
  b.buffer.drop b.size ++ f.data.flatMap (fun x => bitsOfByte (x % 256))

/-- No unread byte of the stream is 0xFF. -/
def NoFF (f : File Nat) : Prop := ∀ x ∈ f.data, x % 256 ≠ 255

/-- The body of the loops of `encode_matrix_fill` run on the cells `cs` in order. -/
def fillCells (cs : List (Nat × Nat)) (s : EncState) : EncState :=
  cs.foldl (fun s c => encode_fill_step s c.1 c.2) s

/-- The cells of `cs` that the fill loop does not skip. -/
def unskipped (cs : List (Nat × Nat)) : List (Nat × Nat) :=
  cs.filter (fun c => !isSkipped c.1 c.2)

/-- The state of the encoder after one iteration of the loop of `encode`. -/
def nextEncState (d : Nat) (s : EncState) : EncState :=
  { encode_matrix_fill d s with matrix := encodeBlock d s }

/-- The states in which the loop of `encode` starts its first `k + 1` iterations. -/
def encStates (d : Nat) : Nat → EncState → List EncState
  | 0, s => [s]
  | k + 1, s => s :: encStates d k (nextEncState d s)

/-- The text that the iteration of the loop of `encode` started in state `s` writes. -/
def blockText (d : Nat) (s : EncState) : List Char :=
  encode_matrix_write d (encodeBlock d s)

/-- The matrices that the iterations of the loop of `decode` hand to
`decode_matrix_write`, in order. -/
def decode_matrices (d : Nat) : Nat → DecState → List Matrix
  | fuel, s =>
    if !s.input.eof then
      match fuel with
      | 0 => []
      | fuel + 1 => (decode_block d s).matrix :: decode_matrices d fuel (decode_block d s)
    else []

/-- The cells other than `(0,0)` that hold 1, in row-major order. -/
def oneCells (d : Nat) (m : Matrix) : List (Nat × Nat) :=
  (cells d).filter (fun c => decide (¬ (c.1 = 0 ∧ c.2 = 0)) && decide (m c.1 c.2 = 1))

/-- XOR of the numbers of a list. -/
def xorList (l : List Nat) : Nat := l.foldl (fun x n => x ^^^ n) 0

/-- The syndrome of a matrix as the words define it: the XOR of the linear
indices `i*d + j` of the cells other than `(0,0)` that hold 1. -/
def syndrome (d : Nat) (m : Matrix) : Nat :=
  xorList ((oneCells d m).map (fun c => c.1 * d + c.2))

/-- The parity (0 or 1) of the number of cells other than `(0,0)` that hold 1. -/
def onesParity (d : Nat) (m : Matrix) : Nat := (oneCells d m).length % 2

/-- The calls of `decode_matrix_parity` of one decode session on the matrices
`ms`, in order: `errors` and `correctable` afterwards. -/
def decode_parity_session (d : Nat) (ms : List Matrix) (s : Int × Bool) : Int × Bool :=
  ms.foldl (fun s m => (decode_matrix_parity d m s.1 s.2).2) s

/-- XOR of the linear indices of all the cells that hold 1, as the words
define the parity that `encode_matrix_parity` accumulates. -/
def xorOfOnes (d : Nat) (m : Matrix) : Nat :=
  xorList (((cells d).filter (fun c => decide (m c.1 c.2 = 1))).map (fun c => c.1 * d + c.2))

/-! ## Loops over the cells -/

theorem foldl_flatMap_eq {α β σ : Type} (f : σ → β → σ) (g : α → List β) (l : List α) (s : σ) :
    (l.flatMap g).foldl f s = l.foldl (fun s a => (g a).foldl f s) s := by
  induction l generalizing s with
  | nil => rfl
  | cons a l ih => simp [List.flatMap_cons, List.foldl_append, ih]

theorem forCells_eq_foldl_cells {σ : Type} (d : Nat) (body : σ → Nat → Nat → σ) (s : σ) :
    forCells d body s = (cells d).foldl (fun s c => body s c.1 c.2) s := by
  unfold forCells cells
  rw [foldl_flatMap_eq]
  simp [List.foldl_map]

theorem cells_rows (d r : Nat) :
    (List.range r).flatMap (fun i => (List.range d).map (fun j => (i, j)))
      = (List.range (r * d)).map (fun n => (n / d, n % d)) := by
  induction r with
  | zero => simp
  | succ r ih =>
    rw [List.range_succ, List.flatMap_append, ih, Nat.succ_mul, List.range_add, List.map_append]
    congr 1
    simp only [List.flatMap_cons, List.flatMap_nil, List.append_nil, List.map_map]
    apply List.map_congr_left
    intro j hj
    have hj2 : j < d := List.mem_range.mp hj
    have hd : 0 < d := by omega
    simp only [Function.comp]
    rw [Nat.mul_comm r d, Nat.mul_add_div hd, Nat.mul_add_mod, Nat.div_eq_of_lt hj2,
      Nat.mod_eq_of_lt hj2]
    simp

theorem cells_eq_range (d : Nat) :
    cells d = (List.range (d * d)).map (fun n => (n / d, n % d)) :=
  cells_rows d d

theorem forCells_eq_foldl_range {σ : Type} (d : Nat) (body : σ → Nat → Nat → σ) (s : σ) :
    forCells d body s = (List.range (d * d)).foldl (fun s n => body s (n / d) (n % d)) s := by
  rw [forCells_eq_foldl_cells, cells_eq_range, List.foldl_map]

theorem mem_cells {d : Nat} {c : Nat × Nat} : c ∈ cells d ↔ c.1 < d ∧ c.2 < d := by
  unfold cells
  simp only [List.mem_flatMap, List.mem_range, List.mem_map]
  constructor
  · rintro ⟨i, hi, j, hj, rfl⟩
    exact ⟨hi, hj⟩
  · rintro ⟨h1, h2⟩
    exact ⟨c.1, h1, c.2, h2, rfl⟩

theorem cells_nodup (d : Nat) : (cells d).Nodup := by
  rw [cells_eq_range]
  apply List.Nodup.map_on _ (List.nodup_range _)
  intro a ha b hb hab
  simp only [Prod.mk.injEq] at hab
  rw [← Nat.div_add_mod a d, ← Nat.div_add_mod b d, hab.1, hab.2]

/-! ## XOR of selected indices -/

theorem foldl_range_scan (g : Nat → Bool) (N : Nat) :
    (List.range N).foldl
        (fun (s : Nat × Nat) n => if g n then (s.1 ^^^ n, s.2 ^^^ 1) else s) (0, 0)
      = (xorIdx g N, xorCnt g N) := by
  induction N with
  | zero => rfl
  | succ N ih =>
    rw [List.range_succ, List.foldl_append, ih]
    simp only [List.foldl_cons, List.foldl_nil, xorIdx, xorCnt]
    split <;> rfl

theorem xorIdx_congr {g h : Nat → Bool} {N : Nat} (H : ∀ n < N, g n = h n) :
    xorIdx g N = xorIdx h N := by
  induction N with
  | zero => rfl
  | succ N ih =>
    have h1 := ih (fun n hn => H n (Nat.lt_succ_of_lt hn))
    simp only [xorIdx, h1, H N (Nat.lt_succ_self N)]

theorem xorCnt_congr {g h : Nat → Bool} {N : Nat} (H : ∀ n < N, g n = h n) :
    xorCnt g N = xorCnt h N := by
  induction N with
  | zero => rfl
  | succ N ih =>
    have h1 := ih (fun n hn => H n (Nat.lt_succ_of_lt hn))
    simp only [xorCnt, h1, H N (Nat.lt_succ_self N)]

theorem xorCnt_cases (g : Nat → Bool) (N : Nat) : xorCnt g N = 0 ∨ xorCnt g N = 1 := by
  induction N with
  | zero => left; rfl
  | succ N ih =>
    simp only [xorCnt]
    split
    · rcases ih with h | h <;> simp [h]
    · exact ih

theorem xor_one_xor_one (x : Nat) : x ^^^ 1 ^^^ 1 = x := by
  rw [Nat.xor_assoc, Nat.xor_self, Nat.xor_zero]

theorem xorIdx_flip (g : Nat → Bool) (n0 N : Nat) (h : n0 < N) :
    xorIdx (fun n => if n = n0 then !g n0 else g n) N = xorIdx g N ^^^ n0 := by
  induction N with
  | zero => omega
  | succ N ih =>
    rcases Nat.lt_succ_iff_lt_or_eq.mp h with h1 | h1
    · have hne : N ≠ n0 := by omega
      simp only [xorIdx, hne, if_false, ih h1]
      split
      · rw [Nat.xor_assoc, Nat.xor_comm n0 N, ← Nat.xor_assoc]
      · rfl
    · subst h1
      have hc : xorIdx (fun n => if n = n0 then !g n0 else g n) n0 = xorIdx g n0 :=
        xorIdx_congr (fun n hn => by simp [Nat.ne_of_lt hn])
      simp only [xorIdx, hc, if_true]
      cases hg : g n0
      · simp
      · simp [Nat.xor_assoc]

theorem xorCnt_flip (g : Nat → Bool) (n0 N : Nat) (h : n0 < N) :
    xorCnt (fun n => if n = n0 then !g n0 else g n) N = xorCnt g N ^^^ 1 := by
  induction N with
  | zero => omega
  | succ N ih =>
    rcases Nat.lt_succ_iff_lt_or_eq.mp h with h1 | h1
    · have hne : N ≠ n0 := by omega
      simp only [xorCnt, hne, if_false, ih h1]
      split <;> rfl
    · subst h1
      have hc : xorCnt (fun n => if n = n0 then !g n0 else g n) n0 = xorCnt g n0 :=
        xorCnt_congr (fun n hn => by simp [Nat.ne_of_lt hn])
      simp only [xorCnt, hc, if_true]
      cases hg : g n0
      · simp
      · simp [xor_one_xor_one]

theorem xorIdx_lt (g : Nat → Bool) (N k : Nat) (h : N ≤ 2 ^ k) (hN : 0 < N) :
    xorIdx g N < 2 ^ k := by
  induction N with
  | zero => omega
  | succ N ih =>
    simp only [xorIdx]
    rcases Nat.eq_zero_or_pos N with h0 | h0
    · subst h0
      simp only [xorIdx]
      split
      · simp
      · exact Nat.pow_pos (by decide)
    · have h1 := ih (by omega) h0
      split
      · exact Nat.xor_lt_two_pow h1 (by omega)
      · exact h1

theorem xorIdx_skip_zero (g : Nat → Bool) (N : Nat) :
    xorIdx (fun n => decide (n ≠ 0) && g n) N = xorIdx g N := by
  induction N with
  | zero => rfl
  | succ N ih =>
    simp only [xorIdx, ih]
    rcases Nat.eq_zero_or_pos N with h0 | h0
    · subst h0
      simp [xorIdx]
    · have : N ≠ 0 := by omega
      simp [this]

theorem xorCnt_skip_zero (g : Nat → Bool) (N : Nat) (hN : 0 < N) :
    xorCnt (fun n => decide (n ≠ 0) && g n) N
      = xorCnt g N ^^^ (if g 0 then 1 else 0) := by
  induction N with
  | zero => omega
  | succ N ih =>
    rcases Nat.eq_zero_or_pos N with h0 | h0
    · subst h0
      cases hg : g 0 <;> simp [xorCnt, hg]
    · have hne : N ≠ 0 := by omega
      simp only [xorCnt, ih h0, hne, ne_eq, not_false_eq_true, decide_True, Bool.true_and]
      split
      · rw [Nat.xor_assoc, Nat.xor_comm _ 1, ← Nat.xor_assoc]
      · rfl

/-! ## The parity scans as XORs over linear indices -/

theorem div_mod_eq_iff {d n p : Nat} :
    (n / d = p / d ∧ n % d = p % d) ↔ n = p := by
  constructor
  · rintro ⟨h1, h2⟩
    rw [← Nat.div_add_mod n d, ← Nat.div_add_mod p d, h1, h2]
  · rintro rfl
    exact ⟨rfl, rfl⟩

theorem div_mod_zero_iff {d n : Nat} : (n / d = 0 ∧ n % d = 0) ↔ n = 0 := by
  have h := @div_mod_eq_iff d n 0
  simpa using h

theorem at_set (m : Matrix) (d p n : Nat) (v : Int) :
    (m.set (p / d) (p % d) v).at d n = if n = p then v else m.at d n := by
  unfold Matrix.at Matrix.set
  by_cases h : n = p
  · subst h; simp
  · have : ¬ (n / d = p / d ∧ n % d = p % d) := fun hh => h (div_mod_eq_iff.mp hh)
    simp [this, h]

theorem at_set_cell (m : Matrix) (d i j n : Nat) (v : Int) (hj : j < d) :
    (m.set i j v).at d n = if n = i * d + j then v else m.at d n := by
  have hd : 0 < d := by omega
  have h := at_set m d (i * d + j) n v
  have h1 : (i * d + j) / d = i := by
    rw [Nat.mul_comm, Nat.mul_add_div hd, Nat.div_eq_of_lt hj, Nat.add_zero]
  have h2 : (i * d + j) % d = j := by
    rw [Nat.mul_comm, Nat.mul_add_mod, Nat.mod_eq_of_lt hj]
  rw [h1, h2] at h
  exact h

theorem at_cell (m : Matrix) (d i j : Nat) (hj : j < d) : m.at d (i * d + j) = m i j := by
  have hd : 0 < d := by omega
  unfold Matrix.at
  have h1 : (i * d + j) / d = i := by
    rw [Nat.mul_comm, Nat.mul_add_div hd, Nat.div_eq_of_lt hj, Nat.add_zero]
  have h2 : (i * d + j) % d = j := by
    rw [Nat.mul_comm, Nat.mul_add_mod, Nat.mod_eq_of_lt hj]
  rw [h1, h2]

theorem cell_index_lt {d i j : Nat} (hi : i < d) (hj : j < d) : i * d + j < d * d := by
  have : (i + 1) * d ≤ d * d := Nat.mul_le_mul_right d hi
  rw [Nat.succ_mul] at this
  omega

theorem encode_parity_scan_eq (d : Nat) (m : Matrix) :
    encode_parity_scan d m = (xorIdx (ones d m) (d * d), xorCnt (ones d m) (d * d)) := by
  unfold encode_parity_scan
  rw [forCells_eq_foldl_range, ← foldl_range_scan]
  congr 1
  funext s n
  simp only [ones, Matrix.at, Nat.div_add_mod', decide_eq_true_eq]

theorem decode_parity_scan_eq (d : Nat) (m : Matrix) :
    decode_parity_scan d m = (xorIdx (onesD d m) (d * d), xorCnt (onesD d m) (d * d)) := by
  unfold decode_parity_scan
  rw [forCells_eq_foldl_range, ← foldl_range_scan]
  congr 1
  funext s n
  simp only [onesD, Matrix.at, Nat.div_add_mod', div_mod_zero_iff]
  by_cases h0 : n = 0
  · simp [h0]
  · simp [h0]

theorem onesD_eq (d : Nat) (m : Matrix) :
    onesD d m = fun n => decide (n ≠ 0) && ones d m n := rfl

theorem decode_scan_of_encode_scan (d : Nat) (m : Matrix) (hd : 0 < d) :
    decode_parity_scan d m
      = (xorIdx (ones d m) (d * d),
         xorCnt (ones d m) (d * d) ^^^ (if m 0 0 = 1 then 1 else 0)) := by
  rw [decode_parity_scan_eq d m, onesD_eq, xorIdx_skip_zero,
    xorCnt_skip_zero _ _ (Nat.mul_pos hd hd)]
  simp [ones, Matrix.at]

/-- Flipping a bit cell other than `(0,0)` XORs its linear index into the
syndrome and flips the parity of the count. -/
theorem decode_scan_flip (d : Nat) (m : Matrix) (i j : Nat) (hi : i < d) (hj : j < d)
    (h0 : ¬ (i = 0 ∧ j = 0)) (hv : m i j = 0 ∨ m i j = 1) :
    decode_parity_scan d (m.set i j (1 - m i j))
      = ((decode_parity_scan d m).1 ^^^ (i * d + j), (decode_parity_scan d m).2 ^^^ 1) := by
  have hd : 0 < d := by omega
  have hlt := cell_index_lt hi hj
  have hn0 : i * d + j ≠ 0 := by
    intro h
    apply h0
    rcases Nat.eq_zero_or_pos i with hi0 | hi0
    · subst hi0; simp at h; exact ⟨rfl, h⟩
    · have : 0 < i * d := Nat.mul_pos hi0 hd
      omega
  have hfun : onesD d (m.set i j (1 - m i j))
      = fun n => if n = i * d + j then !(onesD d m (i * d + j)) else onesD d m n := by
    funext n
    simp only [onesD, at_set_cell m d i j n _ hj]
    by_cases hn : n = i * d + j
    · subst hn
      simp only [if_true, at_cell m d i j hj]
      rcases hv with hv | hv <;> simp [hv, hn0]
    · simp [hn]
  rw [decode_parity_scan_eq _ _, decode_parity_scan_eq _ _, hfun,
    xorIdx_flip _ _ _ hlt, xorCnt_flip _ _ _ hlt]

/-! ## The bit loop of `encode_matrix_parity` -/

theorem shift_and_one_iff (P i : Nat) : ((P >>> i) &&& 1 = 1) ↔ P.testBit i = true := by
  rw [Nat.and_one_is_mod, Nat.shiftRight_eq_div_pow, Nat.testBit_to_div_mod]
  simp

theorem mod_two_pow_succ_of_testBit (P k : Nat) (h : P.testBit k = true) :
    P % 2 ^ (k + 1) = (P % 2 ^ k) ^^^ 2 ^ k := by
  apply Nat.eq_of_testBit_eq
  intro i
  rw [Nat.testBit_xor, Nat.testBit_mod_two_pow, Nat.testBit_mod_two_pow, Nat.testBit_two_pow]
  rcases Nat.lt_trichotomy i k with h1 | h1 | h1
  · have h2 : i < k + 1 := by omega
    have h3 : k ≠ i := by omega
    simp [h1, h2, h3]
  · subst h1
    simp [h]
  · have h2 : ¬ i < k + 1 := by omega
    have h3 : k ≠ i := by omega
    have h4 : ¬ i < k := by omega
    simp [h2, h3, h4]

theorem mod_two_pow_succ_of_not_testBit (P k : Nat) (h : P.testBit k = false) :
    P % 2 ^ (k + 1) = P % 2 ^ k := by
  apply Nat.eq_of_testBit_eq
  intro i
  rw [Nat.testBit_mod_two_pow, Nat.testBit_mod_two_pow]
  rcases Nat.lt_trichotomy i k with h1 | h1 | h1
  · have h2 : i < k + 1 := by omega
    simp [h1, h2]
  · subst h1
    simp [h]
  · have h2 : ¬ i < k + 1 := by omega
    have h4 : ¬ i < k := by omega
    simp [h2, h4]

theorem two_pow_le_of_testBit (P k : Nat) (h : P.testBit k = true) : 2 ^ k ≤ P := by
  by_contra hlt
  have : P.testBit k = false := Nat.testBit_lt_two_pow (by omega)
  rw [this] at h
  cases h

/-- The state of the bit loop of `encode_matrix_parity` after `k` iterations. -/
theorem parity_loop_spec (d : Nat) (m : Matrix)
    (hP : xorIdx (ones d m) (d * d) < d * d)
    (H0 : ∀ i, 2 ^ i < d * d → m.at d (2 ^ i) ≠ 1) (k : Nat) :
    let P := xorIdx (ones d m) (d * d)
    let r := (List.range k).foldl
      (fun (s : Matrix × Nat) i =>
        if (P >>> i) &&& 1 = 1 then
          (s.1.set ((1 <<< i) / d) ((1 <<< i) % d) 1, s.2 ^^^ 1)
        else s)
      (m, xorCnt (ones d m) (d * d))
    xorIdx (ones d r.1) (d * d) = P ^^^ (P % 2 ^ k)
      ∧ r.2 = xorCnt (ones d r.1) (d * d)
      ∧ (∀ a b, (∀ i, i < k → ¬ (a = 2 ^ i / d ∧ b = 2 ^ i % d)) → r.1 a b = m a b)
      ∧ (∀ a b, r.1 a b = m a b ∨ r.1 a b = 1) := by
  intro P
  induction k with
  | zero =>
    refine ⟨?_, rfl, fun _ _ _ => rfl, fun _ _ => Or.inl rfl⟩
    simp only [List.range_zero, List.foldl_nil, pow_zero, Nat.mod_one, Nat.xor_zero, P]
  | succ k ih =>
    simp only [List.range_succ, List.foldl_append, List.foldl_cons, List.foldl_nil]
    simp only at ih
    generalize (List.range k).foldl
      (fun (s : Matrix × Nat) i =>
        if (P >>> i) &&& 1 = 1 then
          (s.1.set ((1 <<< i) / d) ((1 <<< i) % d) 1, s.2 ^^^ 1)
        else s)
      (m, xorCnt (ones d m) (d * d)) = r at ih ⊢
    obtain ⟨ih1, ih2, ih3, ih4⟩ := ih
    by_cases hb : P.testBit k = true
    · have hb2 : (P >>> k) &&& 1 = 1 := (shift_and_one_iff P k).mpr hb
      simp only [hb2, if_true, Nat.one_shiftLeft]
      have hle : 2 ^ k ≤ P := two_pow_le_of_testBit P k hb
      have hlt : 2 ^ k < d * d := Nat.lt_of_le_of_lt hle hP
      have hcell : r.1.at d (2 ^ k) = m.at d (2 ^ k) := by
        unfold Matrix.at
        apply ih3
        intro i hi hh
        have : 2 ^ i = 2 ^ k := div_mod_eq_iff.mp ⟨hh.1.symm, hh.2.symm⟩
        have : i = k := Nat.pow_right_injective (le_refl 2) this
        omega
      have hfun : ones d (r.1.set (2 ^ k / d) (2 ^ k % d) 1)
          = fun n => if n = 2 ^ k then !(ones d r.1 (2 ^ k)) else ones d r.1 n := by
        funext n
        simp only [ones, at_set r.1 d (2 ^ k) n 1]
        by_cases hn : n = 2 ^ k
        · subst hn
          have := H0 k hlt
          simp [hcell, this]
        · simp [hn]
      refine ⟨?_, ?_, ?_, ?_⟩
      · rw [hfun, xorIdx_flip _ _ _ hlt, ih1, mod_two_pow_succ_of_testBit P k hb,
          Nat.xor_assoc]
      · rw [hfun, xorCnt_flip _ _ _ hlt, ih2]
      · intro a b hab
        have h1 : ¬ (a = 2 ^ k / d ∧ b = 2 ^ k % d) := hab k (Nat.lt_succ_self k)
        simp only [Matrix.set, h1, if_false]
        exact ih3 a b (fun i hi => hab i (Nat.lt_succ_of_lt hi))
      · intro a b
        simp only [Matrix.set]
        split
        · right; rfl
        · exact ih4 a b
    · have hb1 : P.testBit k = false := by simpa using hb
      have hb2 : ¬ ((P >>> k) &&& 1 = 1) := fun h => hb ((shift_and_one_iff P k).mp h)
      simp only [hb2, if_false]
      refine ⟨?_, ih2, ?_, ih4⟩
      · rw [ih1, mod_two_pow_succ_of_not_testBit P k hb1]
      · intro a b hab
        exact ih3 a b (fun i hi => hab i (Nat.lt_succ_of_lt hi))

/-! ## Valid dimensions -/

theorem validDimension_cases (d : Nat) (h : validDimension d = true) :
    d ∈ [2, 4, 8, 16, 32, 64, 128, 256] := by
  have hle : d ≤ 256 := by
    unfold validDimension at h
    simp only [Bool.and_eq_true, Bool.not_eq_true', Bool.or_eq_false_iff, decide_eq_true_eq,
      Bool.not_eq_false'] at h
    exact h.1.2
  have key : ∀ e, e < 257 → validDimension e = true → e ∈ [2, 4, 8, 16, 32, 64, 128, 256] := by
    decide!
  exact key d (by omega) h

theorem validDimension_pos {d : Nat} (h : validDimension d = true) : 0 < d := by
  have := validDimension_cases d h
  simp only [List.mem_cons, List.mem_singleton, List.not_mem_nil, or_false] at this
  omega

theorem validDimension_sq_le {d : Nat} (h : validDimension d = true) : d * d ≤ 2 ^ 16 := by
  have h1 := validDimension_cases d h
  simp only [List.mem_cons, List.mem_singleton, List.not_mem_nil, or_false] at h1
  rcases h1 with h1 | h1 | h1 | h1 | h1 | h1 | h1 | h1 <;> subst h1 <;> decide!

theorem validDimension_sq_pow {d : Nat} (h : validDimension d = true) :
    d * d = 2 ^ (2 * Nat.log2 d) := by
  have h1 := validDimension_cases d h
  simp only [List.mem_cons, List.mem_singleton, List.not_mem_nil, or_false] at h1
  rcases h1 with h1 | h1 | h1 | h1 | h1 | h1 | h1 | h1 <;> subst h1 <;> decide!

theorem pow_cell_skipped {d : Nat} (h : validDimension d = true) (i : Nat) (hi : i < 16) :
    isSkipped (2 ^ i / d) (2 ^ i % d) = true := by
  have key : ∀ e ∈ [2, 4, 8, 16, 32, 64, 128, 256], ∀ k, k < 16 →
      isSkipped (2 ^ k / e) (2 ^ k % e) = true := by
    decide!
  exact key d (validDimension_cases d h) i hi

theorem pow_lt_sq_lt {d : Nat} (h : validDimension d = true) (i : Nat) (hi : 2 ^ i < d * d) :
    i < 16 := by
  have h1 : 2 ^ i < 2 ^ 16 := Nat.lt_of_lt_of_le hi (validDimension_sq_le h)
  exact (Nat.pow_lt_pow_iff_right (by decide)).mp h1

theorem isSkipped_zero_zero : isSkipped 0 0 = true := by decide

/-! ## `encode_matrix_parity` produces a code word -/

theorem encode_matrix_parity_spec (d : Nat) (hd : validDimension d = true) (m : Matrix)
    (hm : Filled d m) :
    (decode_parity_scan d (encode_matrix_parity d m)).1 = 0
      ∧ (((decode_parity_scan d (encode_matrix_parity d m)).2 : Nat) : Int)
          = encode_matrix_parity d m 0 0
      ∧ (∀ a b, isSkipped a b = false → encode_matrix_parity d m a b = m a b)
      ∧ (∀ a b, a < d → b < d → isSkipped a b = true →
          (encode_matrix_parity d m a b = 0 ∨ encode_matrix_parity d m a b = 1)) := by
  have hpos : 0 < d := validDimension_pos hd
  have hN : 0 < d * d := Nat.mul_pos hpos hpos
  have hP : xorIdx (ones d m) (d * d) < d * d := by
    have h1 := xorIdx_lt (ones d m) (d * d) (2 * Nat.log2 d)
      (le_of_eq (validDimension_sq_pow hd)) hN
    rw [← validDimension_sq_pow hd] at h1
    exact h1
  have H0 : ∀ i, 2 ^ i < d * d → m.at d (2 ^ i) ≠ 1 := by
    intro i hi
    have hi16 := pow_lt_sq_lt hd i hi
    have hs := pow_cell_skipped hd i hi16
    have ha : 2 ^ i / d < d := Nat.div_lt_of_lt_mul hi
    have hb : 2 ^ i % d < d := Nat.mod_lt _ hpos
    have := hm _ _ ha hb
    simp only [hs, if_true] at this
    unfold Matrix.at
    rw [this]
    decide
  have hm00 : m 0 0 = 0 := by
    have := hm 0 0 hpos hpos
    simpa [isSkipped_zero_zero] using this
  have spec := parity_loop_spec d m hP H0 16
  simp only at spec
  unfold encode_matrix_parity
  simp only [encode_parity_scan_eq]
  have h16 : (4 * 4 : Nat) = 16 := rfl
  rw [h16]
  generalize (List.range 16).foldl
      (fun (s : Matrix × Nat) i =>
        if (xorIdx (ones d m) (d * d) >>> i) &&& 1 = 1 then
          (s.1.set ((1 <<< i) / d) ((1 <<< i) % d) 1, s.2 ^^^ 1)
        else s)
      (m, xorCnt (ones d m) (d * d)) = r at spec ⊢
  obtain ⟨s1, s2, s3, s4⟩ := spec
  have hmod : xorIdx (ones d m) (d * d) % 2 ^ 16 = xorIdx (ones d m) (d * d) :=
    Nat.mod_eq_of_lt (Nat.lt_of_lt_of_le hP (validDimension_sq_le hd))
  rw [hmod, Nat.xor_self] at s1
  have hr00 : r.1 0 0 = 0 := by
    rw [s3 0 0, hm00]
    intro i _ hh
    have h2 : 2 ^ i = 0 := div_mod_zero_iff.mp ⟨hh.1.symm, hh.2.symm⟩
    have h3 : 0 < 2 ^ i := Nat.pow_pos (by decide)
    omega
  have hframe : ∀ a b, isSkipped a b = false → r.1 a b = m a b := by
    intro a b hab
    apply s3
    intro i hi hh
    have := pow_cell_skipped hd i hi
    rw [← hh.1, ← hh.2, hab] at this
    cases this
  by_cases hr2 : r.2 = 1
  · simp only [hr2, if_true]
    have hfun : ones d (r.1.set 0 0 1)
        = fun n => if n = 0 then !(ones d r.1 0) else ones d r.1 n := by
      funext n
      have h := at_set r.1 d 0 n 1
      simp only [Nat.zero_div, Nat.zero_mod] at h
      simp only [ones, h]
      by_cases hn : n = 0
      · subst hn
        simp [Matrix.at, hr00]
      · simp [hn]
    have hE00 : (r.1.set 0 0 1) 0 0 = 1 := by simp [Matrix.set]
    rw [decode_scan_of_encode_scan _ _ hpos, hfun, xorIdx_flip _ _ _ hN, xorCnt_flip _ _ _ hN,
      s1, ← s2, hr2, hE00]
    refine ⟨by decide, by decide, ?_, ?_⟩
    · intro a b hab
      have hne : ¬ (a = 0 ∧ b = 0) := by
        rintro ⟨rfl, rfl⟩
        rw [isSkipped_zero_zero] at hab
        cases hab
      simp only [Matrix.set, hne, if_false]
      exact hframe a b hab
    · intro a b ha hb hab
      simp only [Matrix.set]
      split
      · right; rfl
      · have h1 := hm a b ha hb
        simp only [hab, if_true] at h1
        rcases s4 a b with h2 | h2
        · left; rw [h2, h1]
        · right; exact h2
  · simp only [hr2, if_false]
    have hr20 : r.2 = 0 := by
      rcases xorCnt_cases (ones d r.1) (d * d) with h | h
      · rw [s2, h]
      · exact absurd (s2.trans h) hr2
    rw [decode_scan_of_encode_scan _ _ hpos, s1, ← s2, hr20, hr00]
    refine ⟨rfl, by decide, hframe, ?_⟩
    intro a b ha hb hab
    have h1 := hm a b ha hb
    simp only [hab, if_true] at h1
    rcases s4 a b with h2 | h2
    · left; rw [h2, h1]
    · right; exact h2

/-! ## The bit buffer of the encoder -/

theorem eight_slots (slots : List Int) (h : slots.length = 8) :
    ∃ b0 b1 b2 b3 b4 b5 b6 b7 : Int, [b0, b1, b2, b3, b4, b5, b6, b7] = slots := by
  match slots, h with
  | [b0, b1, b2, b3, b4, b5, b6, b7], _ => exact ⟨b0, b1, b2, b3, b4, b5, b6, b7, rfl⟩

theorem charToBinary_spec (c : Int) (b : Buffer) (h : b.buffer.length = 8) :
    charToBinary c { b with size := 0 }
      = { buffer := charBits c, size := 8, capacity := b.capacity } := by
  obtain ⟨b0, b1, b2, b3, b4, b5, b6, b7, hl⟩ := eight_slots _ h
  cases b with
  | mk buf sz cap =>
    simp only at hl
    subst hl
    simp [charToBinary, charBits, CHARBITS, List.range_succ, List.set]

theorem charBits_toChar (b : Nat) (h : b < 256) : charBits (toChar (b : Int)) = bitsOfByte b := by
  have key : ∀ x, x < 256 → charBits (toChar ((x : Nat) : Int)) = bitsOfByte x := by
    decide!
  exact key b h

theorem toChar_eq_EOF_iff (b : Nat) (h : b < 256) : toChar (b : Int) = EOF ↔ b = 255 := by
  have key : ∀ x, x < 256 → (toChar ((x : Nat) : Int) = EOF ↔ x = 255) := by
    decide!
  exact key b h

theorem bitsOfByte_bits (b : Nat) : ∀ v ∈ bitsOfByte b, v = 0 ∨ v = 1 := by
  intro v hv
  simp only [bitsOfByte, List.mem_map, List.mem_range] at hv
  obtain ⟨i, _, rfl⟩ := hv
  have : b / 2 ^ (7 - i) % 2 = 0 ∨ b / 2 ^ (7 - i) % 2 = 1 := by omega
  rcases this with h | h <;> simp [h]

theorem bitsOfByte_length (b : Nat) : (bitsOfByte b).length = 8 := by
  simp [bitsOfByte]

theorem buffer_dequeue_wf (b : Buffer) (f : File Nat) (hb : WellFormed b) :
    WellFormed (buffer_dequeue b f).2.1
      ∧ ((buffer_dequeue b f).1 = 0 ∨ (buffer_dequeue b f).1 = 1
          ∨ (buffer_dequeue b f).1 = -1) := by
  obtain ⟨hcap, hlen, hsize, hbits⟩ := hb
  unfold buffer_dequeue
  by_cases hfull : b.size = b.capacity
  · simp only [hfull, if_true]
    cases hdata : f.data with
    | nil =>
      have : fgetc f = (EOF, { f with eof := true }) := by simp [fgetc, hdata]
      simp only [this]
      have h2 : toChar EOF = EOF := by decide
      simp only [h2, if_true]
      exact ⟨⟨hcap, hlen, hsize, hbits⟩, by simp⟩
    | cons x rest =>
      have : fgetc f = (((x % 256 : Nat) : Int), { f with data := rest }) := by
        simp [fgetc, hdata]
      simp only [this]
      have hx : x % 256 < 256 := Nat.mod_lt _ (by decide)
      by_cases hc : toChar ((x % 256 : Nat) : Int) = EOF
      · simp only [hc, if_true]
        exact ⟨⟨hcap, hlen, hsize, hbits⟩, by simp⟩
      · simp only [hc, if_false]
        rw [charToBinary_spec _ b hlen, charBits_toChar _ hx]
        simp only
        refine ⟨⟨hcap, bitsOfByte_length _, by show 0 + 1 ≤ 8; omega, bitsOfByte_bits _⟩, ?_⟩
        have hmem : (bitsOfByte (x % 256)).getD 0 0 ∈ bitsOfByte (x % 256) := by
          simp [bitsOfByte, List.range_succ_eq_map]
        rcases bitsOfByte_bits _ _ hmem with h | h
        · left; exact h
        · right; left; exact h
  · simp only [hfull, if_false]
    have hlt : b.size < b.buffer.length := by
      rw [hlen]
      rw [hcap] at hfull
      omega
    have hmem : b.buffer.getD b.size 0 ∈ b.buffer := by
      rw [List.getD_eq_getElem _ _ hlt]
      exact List.getElem_mem hlt
    refine ⟨⟨hcap, hlen, by show b.size + 1 ≤ 8; omega, hbits⟩, ?_⟩
    rcases hbits _ hmem with h | h
    · left; exact h
    · right; left; exact h

/-! ## `encode_matrix_fill` leaves bits, padding and cleared parity cells -/

theorem encode_fill_step_spec (s : EncState) (i j : Nat) (hb : WellFormed s.buffer) :
    WellFormed (encode_fill_step s i j).buffer
      ∧ ∃ v, (if isSkipped i j = true then v = 0 else (v = 0 ∨ v = 1 ∨ v = -1))
          ∧ (encode_fill_step s i j).matrix = s.matrix.set i j v := by
  unfold encode_fill_step
  by_cases hs : isSkipped i j = true
  · simp only [hs, if_true]
    exact ⟨hb, 0, rfl, rfl⟩
  · simp only [hs, if_false]
    have h := buffer_dequeue_wf s.buffer s.input hb
    exact ⟨h.1, _, h.2, rfl⟩

theorem fill_fold_spec (cs : List (Nat × Nat)) (s : EncState) (hb : WellFormed s.buffer) :
    WellFormed (cs.foldl (fun s c => encode_fill_step s c.1 c.2) s).buffer
      ∧ ∀ a b,
          ((a, b) ∈ cs →
            (if isSkipped a b = true
              then (cs.foldl (fun s c => encode_fill_step s c.1 c.2) s).matrix a b = 0
              else ((cs.foldl (fun s c => encode_fill_step s c.1 c.2) s).matrix a b = 0
                ∨ (cs.foldl (fun s c => encode_fill_step s c.1 c.2) s).matrix a b = 1
                ∨ (cs.foldl (fun s c => encode_fill_step s c.1 c.2) s).matrix a b = -1)))
          ∧ ((a, b) ∉ cs →
              (cs.foldl (fun s c => encode_fill_step s c.1 c.2) s).matrix a b = s.matrix a b) := by
  induction cs generalizing s with
  | nil =>
    refine ⟨hb, fun a b => ⟨fun h => ?_, fun _ => rfl⟩⟩
    cases h
  | cons c cs ih =>
    obtain ⟨hwf, v, hv, hm⟩ := encode_fill_step_spec s c.1 c.2 hb
    have ih1 := ih (encode_fill_step s c.1 c.2) hwf
    simp only [List.foldl_cons]
    refine ⟨ih1.1, fun a b => ⟨fun hmem => ?_, fun hnot => ?_⟩⟩
    · by_cases hin : (a, b) ∈ cs
      · exact (ih1.2 a b).1 hin
      · have heq := (ih1.2 a b).2 hin
        have hc : (a, b) = c := by
          rcases List.mem_cons.mp hmem with h | h
          · exact h
          · exact absurd h hin
        subst hc
        rw [heq, hm]
        simpa [Matrix.set] using hv
    · have h1 : (a, b) ∉ cs := fun h => hnot (List.mem_cons_of_mem _ h)
      have h2 : ¬ (a = c.1 ∧ b = c.2) := by
        rintro ⟨rfl, rfl⟩
        exact hnot (List.mem_cons_self _ _)
      rw [(ih1.2 a b).2 h1, hm]
      simp [Matrix.set, h2]

theorem encode_matrix_fill_filled (d : Nat) (s : EncState) (hb : WellFormed s.buffer) :
    WellFormed (encode_matrix_fill d s).buffer ∧ Filled d (encode_matrix_fill d s).matrix := by
  unfold encode_matrix_fill
  rw [forCells_eq_foldl_cells]
  have h := fill_fold_spec (cells d) s hb
  refine ⟨h.1, ?_⟩
  intro a b ha hb2
  exact (h.2 a b).1 (mem_cells.mpr ⟨ha, hb2⟩)

/-! ## Encoded blocks and bit flips -/

theorem encoded_block_props (d : Nat) (hd : validDimension d = true) (s : EncState)
    (hb : WellFormed s.buffer) :
    (decode_parity_scan d (encode_matrix_parity d (encode_matrix_fill d s).matrix)).1 = 0
      ∧ (((decode_parity_scan d (encode_matrix_parity d (encode_matrix_fill d s).matrix)).2
            : Nat) : Int)
          = encode_matrix_parity d (encode_matrix_fill d s).matrix 0 0
      ∧ (∀ a b, a < d → b < d →
          encode_matrix_parity d (encode_matrix_fill d s).matrix a b ≠ PADDING →
          (encode_matrix_parity d (encode_matrix_fill d s).matrix a b = 0
            ∨ encode_matrix_parity d (encode_matrix_fill d s).matrix a b = 1)) := by
  have hfill := (encode_matrix_fill_filled d s hb).2
  obtain ⟨h1, h2, h3, h4⟩ := encode_matrix_parity_spec d hd _ hfill
  refine ⟨h1, h2, ?_⟩
  intro a b ha hb2 hpad
  by_cases hs : isSkipped a b = true
  · exact h4 a b ha hb2 hs
  · have hs2 : isSkipped a b = false := by simpa using hs
    have hm := hfill a b ha hb2
    simp only [hs, if_false] at hm
    rw [h3 a b hs2] at hpad ⊢
    rcases hm with h | h | h
    · left; exact h
    · right; exact h
    · exact absurd h hpad

theorem decode_scan_set_meta (d : Nat) (m : Matrix) (v : Int) :
    decode_parity_scan d (m.set 0 0 v) = decode_parity_scan d m := by
  rw [decode_parity_scan_eq, decode_parity_scan_eq]
  have hfun : onesD d (m.set 0 0 v) = onesD d m := by
    funext n
    have h := at_set m d 0 n v
    simp only [Nat.zero_div, Nat.zero_mod] at h
    simp only [onesD, h]
    by_cases hn : n = 0
    · simp [hn]
    · simp [hn]
  rw [hfun]

theorem decode_write_step_congr (m m2 : Matrix)
    (h : ∀ a b, isSkipped a b = false → m a b = m2 a b) :
    decode_write_step m = decode_write_step m2 := by
  funext s i j
  unfold decode_write_step
  by_cases hs : isSkipped i j = true
  · simp [hs]
  · have hs2 : isSkipped i j = false := by simpa using hs
    simp only [hs, if_false, h i j hs2]

theorem decode_matrix_write_congr (d : Nat) (m m2 : Matrix)
    (h : ∀ a b, isSkipped a b = false → m a b = m2 a b) (out : Buffer × List Nat) :
    decode_matrix_write d m out = decode_matrix_write d m2 out := by
  unfold decode_matrix_write
  rw [decode_write_step_congr m m2 h]

theorem set_set_same (m : Matrix) (i j : Nat) (v : Int) :
    (m.set i j v).set i j (m i j) = m := by
  funext a b
  unfold Matrix.set
  by_cases h : a = i ∧ b = j
  · obtain ⟨rfl, rfl⟩ := h
    simp
  · simp [h]

theorem int_xor_one_flip (v : Int) (h : v = 0 ∨ v = 1) : Int.xor (1 - v) 1 = v := by
  rcases h with h | h <;> subst h <;> decide

theorem cell_index_ne_zero {d i j : Nat} (hd : 0 < d) (h0 : ¬ (i = 0 ∧ j = 0)) :
    i * d + j ≠ 0 := by
  intro h
  apply h0
  rcases Nat.eq_zero_or_pos i with hi0 | hi0
  · subst hi0
    simp at h
    exact ⟨rfl, h⟩
  · have : 0 < i * d := Nat.mul_pos hi0 hd
    omega

theorem cell_index_div_mod {d i j : Nat} (hj : j < d) :
    (i * d + j) / d = i ∧ (i * d + j) % d = j := by
  have hd : 0 < d := by omega
  constructor
  · rw [Nat.mul_comm, Nat.mul_add_div hd, Nat.div_eq_of_lt hj, Nat.add_zero]
  · rw [Nat.mul_comm, Nat.mul_add_mod, Nat.mod_eq_of_lt hj]

theorem xor_cnt_int_ne (c : Nat) (v : Int) (h : (c : Int) = v) : ((c ^^^ 1 : Nat) : Int) ≠ v := by
  rw [← h]
  intro hh
  have h2 : c ^^^ 1 = c := by exact_mod_cast hh
  have h3 : (c ^^^ 1) ^^^ c = c ^^^ c := by rw [h2]
  rw [Nat.xor_comm c 1, Nat.xor_assoc, Nat.xor_self] at h3
  simp at h3

/-! ## Counting cells -/

theorem foldl_count_eq_countP {α : Type} (p : α → Bool) (l : List α) (c : Nat) :
    l.foldl (fun c a => if p a = true then c + 1 else c) c = c + l.countP p := by
  induction l generalizing c with
  | nil => rfl
  | cons a l ih =>
    simp only [List.foldl_cons, ih, List.countP_cons]
    split <;> omega

theorem forCells_count (d : Nat) (p : Nat → Nat → Bool) :
    forCells d (fun c i j => if p i j = true then c + 1 else c) 0
      = (cells d).countP (fun c => p c.1 c.2) := by
  rw [forCells_eq_foldl_cells]
  have h := foldl_count_eq_countP (fun c : Nat × Nat => p c.1 c.2) (cells d) 0
  simpa using h

theorem countP_flatMap_eq {α β : Type} (p : β → Bool) (g : α → List β) (l : List α) :
    (l.flatMap g).countP p = (l.map (fun a => (g a).countP p)).sum := by
  induction l with
  | nil => rfl
  | cons a l ih => simp [List.flatMap_cons, List.countP_append, ih]

theorem cells_countP (d : Nat) (p : Nat → Nat → Bool) :
    (cells d).countP (fun c => p c.1 c.2)
      = ((List.range d).map (fun i => (List.range d).countP (fun j => p i j))).sum := by
  unfold cells
  rw [countP_flatMap_eq]
  congr 1
  apply List.map_congr_left
  intro i _
  rw [List.countP_map]
  rfl

theorem cells_length (d : Nat) : (cells d).length = d * d := by
  rw [cells_eq_range, List.length_map, List.length_range]

theorem row_zero_skipped (d : Nat) (hd : validDimension d = true) :
    (List.range d).countP (fun j => isSkipped 0 j) = Nat.log2 d + 1 := by
  have key : ∀ e ∈ [2, 4, 8, 16, 32, 64, 128, 256],
      (List.range e).countP (fun j => isSkipped 0 j) = Nat.log2 e + 1 := by
    decide!
  exact key d (validDimension_cases d hd)

theorem row_pos_skipped (d : Nat) (hd : validDimension d = true) (i : Nat) (hi : i ≠ 0) :
    (List.range d).countP (fun j => isSkipped i j)
      = if (i &&& (i - 1)) = 0 then 1 else 0 := by
  have hzero : (List.range d).countP (fun j => j == 0) = 1 := by
    have key : ∀ e ∈ [2, 4, 8, 16, 32, 64, 128, 256],
        (List.range e).countP (fun j => j == 0) = 1 := by
      decide!
    exact key d (validDimension_cases d hd)
  by_cases ht : (i &&& (i - 1)) = 0
  · have hfun : (fun j => isSkipped i j) = (fun j => j == 0) := by
      funext j
      simp [isSkipped, hi, ht]
    rw [hfun, hzero]
    simp [ht]
  · have hfun : (fun j => isSkipped i j) = (fun _ => false) := by
      funext j
      simp [isSkipped, hi, ht]
    rw [hfun]
    simp [ht]

theorem skipped_count (d : Nat) (hd : validDimension d = true) :
    (cells d).countP (fun c => isSkipped c.1 c.2) = 2 * Nat.log2 d + 1 := by
  rw [cells_countP d isSkipped]
  have hrow : ∀ i ∈ List.range d,
      (List.range d).countP (fun j => isSkipped i j)
        = if i = 0 then Nat.log2 d + 1 else if (i &&& (i - 1)) = 0 then 1 else 0 := by
    intro i _
    by_cases hi : i = 0
    · subst hi
      simp only [if_true]
      exact row_zero_skipped d hd
    · simp only [hi, if_false]
      exact row_pos_skipped d hd i hi
  rw [List.map_congr_left hrow]
  have key : ∀ e ∈ [2, 4, 8, 16, 32, 64, 128, 256],
      ((List.range e).map (fun i =>
        if i = 0 then Nat.log2 e + 1 else if (i &&& (i - 1)) = 0 then 1 else 0)).sum
        = 2 * Nat.log2 e + 1 := by
    decide!
  exact key d (validDimension_cases d hd)

theorem countP_not_add {α : Type} (p : α → Bool) (l : List α) :
    l.countP (fun a => !p a) + l.countP p = l.length := by
  induction l with
  | nil => rfl
  | cons a l ih =>
    simp only [List.countP_cons, List.length_cons]
    cases p a <;> simp <;> omega

theorem data_count (d : Nat) (hd : validDimension d = true) :
    (cells d).countP (fun c => !isSkipped c.1 c.2) = d * d - 2 * Nat.log2 d - 1 := by
  have h1 := countP_not_add (fun c : Nat × Nat => isSkipped c.1 c.2) (cells d)
  rw [skipped_count d hd, cells_length] at h1
  omega

theorem dataCells_length (d : Nat) (hd : validDimension d = true) :
    (dataCells d).length = d * d - 2 * Nat.log2 d - 1 := by
  unfold dataCells
  rw [← List.countP_eq_length_filter]
  exact data_count d hd

theorem fillCount_eq (d : Nat) :
    fillCount d = (cells d).countP (fun c => !isSkipped c.1 c.2) := by
  unfold fillCount
  rw [← forCells_count d (fun i j => !isSkipped i j)]
  congr 1
  funext c i j
  cases isSkipped i j <;> simp

theorem fillCount_eq_dataCells_length (d : Nat) : fillCount d = (dataCells d).length := by
  rw [fillCount_eq, List.countP_eq_length_filter]
  rfl

theorem meta_count (d : Nat) (hd : validDimension d = true) :
    (cells d).countP (fun c => decide (c.1 = 0 ∧ c.2 = 0)) = 1 := by
  rw [cells_countP d (fun i j => decide (i = 0 ∧ j = 0))]
  have hzero : (List.range d).countP (fun j => j == 0) = 1 := by
    have key : ∀ e ∈ [2, 4, 8, 16, 32, 64, 128, 256],
        (List.range e).countP (fun j => j == 0) = 1 := by
      decide!
    exact key d (validDimension_cases d hd)
  have hrow : ∀ i ∈ List.range d,
      (List.range d).countP (fun j => decide (i = 0 ∧ j = 0)) = if i = 0 then 1 else 0 := by
    intro i _
    by_cases hi : i = 0
    · have hfun : (fun j => decide (i = 0 ∧ j = 0)) = (fun j => j == 0) := by
        funext j
        rw [Bool.eq_iff_iff]
        simp [hi]
      rw [hfun, hzero]
      simp [hi]
    · have hfun : (fun j : Nat => decide (i = 0 ∧ j = 0)) = (fun _ => false) := by
        funext j
        simp [hi]
      rw [hfun]
      simp [hi]
  rw [List.map_congr_left hrow]
  have key : ∀ e ∈ [2, 4, 8, 16, 32, 64, 128, 256],
      ((List.range e).map (fun i => if i = 0 then 1 else 0)).sum = 1 := by
    decide!
  exact key d (validDimension_cases d hd)

theorem countKind_eq (d : Nat) (k : CellKind) :
    countKind d k = (cells d).countP (fun c => decide (classify c.1 c.2 = k)) := by
  unfold countKind
  rw [← forCells_count d (fun i j => decide (classify i j = k))]
  congr 1
  funext c i j
  by_cases h : classify i j = k <;> simp [h]

/-! ## The text written by `encode_matrix_write` -/

theorem foldl_append_filter {α β : Type} (p : α → Bool) (f : α → List β) (l : List α)
    (out : List β) :
    l.foldl (fun out a => if p a = true then out ++ f a else out) out
      = out ++ (l.filter p).flatMap f := by
  induction l generalizing out with
  | nil => simp
  | cons a l ih =>
    simp only [List.foldl_cons, ih, List.filter_cons]
    split <;> simp [List.flatMap_cons]

theorem fprintf_d_bit (v : Int) (h : v = 0 ∨ v = 1) : fprintf_d v = [bitChar v] := by
  rcases h with h | h <;> subst h <;> decide

theorem flatMap_fprintf_d_bits (l : List Int) (h : ∀ v ∈ l, v = 0 ∨ v = 1) :
    l.flatMap fprintf_d = l.map bitChar := by
  induction l with
  | nil => rfl
  | cons v l ih =>
    rw [List.flatMap_cons, List.map_cons, fprintf_d_bit v (h v (List.mem_cons_self _ _)),
      ih (fun w hw => h w (List.mem_cons_of_mem _ hw))]
    rfl

theorem write_fold_done (m : Matrix) (cs : List (Nat × Nat)) (out : List Char) :
    cs.foldl (fun s c => encode_write_step m s c.1 c.2) (out, true) = (out, true) := by
  induction cs with
  | nil => rfl
  | cons c cs ih =>
    simp only [List.foldl_cons]
    have : encode_write_step m (out, true) c.1 c.2 = (out, true) := by
      simp [encode_write_step]
    rw [this, ih]

theorem write_fold_spec (m : Matrix) (cs : List (Nat × Nat)) (out : List Char) :
    (cs.foldl (fun s c => encode_write_step m s c.1 c.2) (out, false)).1
      = out ++ ((((cs.filter (fun c => !isSkipped c.1 c.2)).map (fun c => m c.1 c.2)).takeWhile
          (fun v => decide (v ≠ -1))).flatMap fprintf_d) := by
  induction cs generalizing out with
  | nil => simp
  | cons c cs ih =>
    simp only [List.foldl_cons]
    by_cases hs : isSkipped c.1 c.2 = true
    · have h1 : encode_write_step m (out, false) c.1 c.2 = (out, false) := by
        simp [encode_write_step, hs]
      rw [h1, ih]
      simp [List.filter_cons, hs]
    · by_cases hp : m c.1 c.2 = -1
      · have h1 : encode_write_step m (out, false) c.1 c.2 = (out, true) := by
          simp [encode_write_step, hs, hp]
        rw [h1, write_fold_done]
        simp [List.filter_cons, hs, hp, List.takeWhile_cons]
      · have h1 : encode_write_step m (out, false) c.1 c.2
            = (out ++ fprintf_d (m c.1 c.2), false) := by
          simp [encode_write_step, hs, hp]
        rw [h1, ih]
        simp [List.filter_cons, hs, hp, List.takeWhile_cons, List.flatMap_cons]

theorem row_parity_positions (d : Nat) (hd : validDimension d = true) :
    (List.range d).filter (fun j => decide ((j &&& (j - 1)) = 0))
      = 0 :: (List.range (Nat.log2 d)).map (fun k => 2 ^ k) := by
  have key : ∀ e ∈ [2, 4, 8, 16, 32, 64, 128, 256],
      (List.range e).filter (fun j => decide ((j &&& (j - 1)) = 0))
        = 0 :: (List.range (Nat.log2 e)).map (fun k => 2 ^ k) := by
    decide!
  exact key d (validDimension_cases d hd)

theorem column_parity_positions (d : Nat) (hd : validDimension d = true) :
    (List.range' 1 (d - 1)).filter (fun i => decide ((i &&& (i - 1)) = 0))
      = (List.range (Nat.log2 d)).map (fun k => 2 ^ k) := by
  have key : ∀ e ∈ [2, 4, 8, 16, 32, 64, 128, 256],
      (List.range' 1 (e - 1)).filter (fun i => decide ((i &&& (i - 1)) = 0))
        = (List.range (Nat.log2 e)).map (fun k => 2 ^ k) := by
    decide!
  exact key d (validDimension_cases d hd)

theorem encode_matrix_write_eq (d : Nat) (hd : validDimension d = true) (m : Matrix) :
    encode_matrix_write d m
      = (wireCells d).flatMap (fun c => fprintf_d (m c.1 c.2))
        ++ ((dataValues d m).takeWhile (fun v => decide (v ≠ -1))).flatMap fprintf_d := by
  unfold encode_matrix_write
  simp only
  rw [forCells_eq_foldl_cells, write_fold_spec]
  have h1 := foldl_append_filter (fun j => decide ((j &&& (j - 1)) = 0))
    (fun j => fprintf_d (m 0 j)) (List.range d) []
  have h2 := fun out => foldl_append_filter (fun i => decide ((i &&& (i - 1)) = 0))
    (fun i => fprintf_d (m i 0)) (List.range' 1 (d - 1)) out
  simp only [decide_eq_true_eq] at h1 h2
  rw [h1, h2, row_parity_positions d hd, column_parity_positions d hd]
  simp [wireCells, dataValues, dataCells, List.flatMap_map, List.flatMap_cons,
    List.flatMap_append, Function.comp]

theorem mem_takeWhile_both {α : Type} (p : α → Bool) (l : List α) :
    ∀ v ∈ l.takeWhile p, p v = true ∧ v ∈ l := by
  induction l with
  | nil => intro v hv; cases hv
  | cons a l ih =>
    intro v hv
    rw [List.takeWhile_cons] at hv
    by_cases ha : p a = true
    · simp only [ha, if_true] at hv
      rcases List.mem_cons.mp hv with h | h
      · subst h
        exact ⟨ha, List.mem_cons_self _ _⟩
      · exact ⟨(ih v h).1, List.mem_cons_of_mem _ (ih v h).2⟩
    · simp only [ha] at hv
      cases hv

theorem wireCells_skipped (d : Nat) (hd : validDimension d = true) :
    ∀ c ∈ wireCells d, c.1 < d ∧ c.2 < d ∧ isSkipped c.1 c.2 = true := by
  have key : ∀ e ∈ [2, 4, 8, 16, 32, 64, 128, 256],
      ∀ c ∈ wireCells e, c.1 < e ∧ c.2 < e ∧ isSkipped c.1 c.2 = true := by
    decide!
  exact key d (validDimension_cases d hd)

theorem wireCells_length (d : Nat) : (wireCells d).length = 2 * Nat.log2 d + 1 := by
  simp [wireCells]
  omega

theorem mem_dataCells {d : Nat} {c : Nat × Nat} :
    c ∈ dataCells d ↔ c.1 < d ∧ c.2 < d ∧ isSkipped c.1 c.2 = false := by
  unfold dataCells
  rw [List.mem_filter, mem_cells]
  simp [and_assoc]

theorem dataValues_payload_bits (d : Nat) (m : Matrix) (hm : BlockCells d m) :
    ∀ v ∈ (dataValues d m).takeWhile (fun v => decide (v ≠ -1)), v = 0 ∨ v = 1 := by
  intro v hv
  obtain ⟨h1, h2⟩ := mem_takeWhile_both _ _ v hv
  simp only [dataValues, List.mem_map] at h2
  obtain ⟨c, hc, rfl⟩ := h2
  obtain ⟨ha, hb, hs⟩ := mem_dataCells.mp hc
  have := hm c.1 c.2 ha hb
  simp only [hs] at this
  simp only [ne_eq, decide_eq_true_eq] at h1
  rcases this with h | h | h
  · left; exact h
  · right; exact h
  · exact absurd h h1

/-- C6.  For every valid dimension and every matrix whose skipped cells hold a
bit and whose data cells hold a bit or `PADDING`, `encode_matrix_write` writes
one character `'0'` or `'1'` per cell and nothing else: first the cells
`(0,0), (0,1), (0,2), (0,4), …, (0,d/2)`, then `(1,0), (2,0), (4,0), …,
(d/2,0)`, then the data cells in row-major order up to the first one that
holds `PADDING`; the length of the text is `2*log2(d) + 1` plus the number of
data cells before the first `PADDING`. -/
theorem wire_format (d : Nat) (hd : validDimension d = true) (m : Matrix)
    (hm : BlockCells d m) :
    encode_matrix_write d m
        = (wireCells d).map (fun c => bitChar (m c.1 c.2))
          ++ ((dataValues d m).takeWhile (fun v => decide (v ≠ PADDING))).map bitChar
      ∧ (encode_matrix_write d m).length
        = 2 * Nat.log2 d + 1
          + ((dataValues d m).takeWhile (fun v => decide (v ≠ PADDING))).length
      ∧ ∀ ch ∈ encode_matrix_write d m, ch = '0' ∨ ch = '1' := by
  have hw : (wireCells d).flatMap (fun c => fprintf_d (m c.1 c.2))
      = (wireCells d).map (fun c => bitChar (m c.1 c.2)) := by
    have h1 := flatMap_fprintf_d_bits ((wireCells d).map (fun c => m c.1 c.2)) (by
      intro v hv
      simp only [List.mem_map] at hv
      obtain ⟨c, hc, rfl⟩ := hv
      obtain ⟨ha, hb, hs⟩ := wireCells_skipped d hd c hc
      have := hm c.1 c.2 ha hb
      simpa [hs] using this)
    simpa [List.flatMap_map, List.map_map, Function.comp] using h1
  have hv := flatMap_fprintf_d_bits _ (dataValues_payload_bits d m hm)
  have heq : encode_matrix_write d m
      = (wireCells d).map (fun c => bitChar (m c.1 c.2))
        ++ ((dataValues d m).takeWhile (fun v => decide (v ≠ PADDING))).map bitChar := by
    rw [encode_matrix_write_eq d hd m, hw]
    show _ ++ ((dataValues d m).takeWhile (fun v => decide (v ≠ -1))).flatMap fprintf_d = _
    rw [hv]
    rfl
  refine ⟨heq, ?_, ?_⟩
  · rw [heq, List.length_append, List.length_map, List.length_map, wireCells_length]
  · intro ch hch
    rw [heq] at hch
    simp only [List.mem_append, List.mem_map] at hch
    rcases hch with ⟨c, _, rfl⟩ | ⟨v, _, rfl⟩ <;>
      · unfold bitChar
        split
        · right; rfl
        · left; rfl

/-- C6: the statement at the block of the byte 0x41 with `d = 4`. -/
theorem wire_format_witness :
    encode_matrix_write 4 (encodeBlock 4 (encode_init [65]))
        = (wireCells 4).map (fun c => bitChar (encodeBlock 4 (encode_init [65]) c.1 c.2))
          ++ ((dataValues 4 (encodeBlock 4 (encode_init [65]))).takeWhile
                (fun v => decide (v ≠ PADDING))).map bitChar
      ∧ (encode_matrix_write 4 (encodeBlock 4 (encode_init [65]))).length
        = 2 * Nat.log2 4 + 1
          + ((dataValues 4 (encodeBlock 4 (encode_init [65]))).takeWhile
                (fun v => decide (v ≠ PADDING))).length
      ∧ ∀ ch ∈ encode_matrix_write 4 (encodeBlock 4 (encode_init [65])), ch = '0' ∨ ch = '1' :=
  wire_format 4 (by decide) (encodeBlock 4 (encode_init [65])) (by
    intro a b ha hb
    have key : ∀ x, x < 4 → ∀ y, y < 4 →
        if isSkipped x y = true
        then (encodeBlock 4 (encode_init [65]) x y = 0 ∨ encodeBlock 4 (encode_init [65]) x y = 1)
        else (encodeBlock 4 (encode_init [65]) x y = 0 ∨ encodeBlock 4 (encode_init [65]) x y = 1
          ∨ encodeBlock 4 (encode_init [65]) x y = -1) := by
      decide
    exact key a ha b hb)

/-! ## Byte reassembly in `decode_matrix_write` -/

theorem binaryToChar_buffer (b : Buffer) :
    charByte (binaryToChar b) = byteOfGroup b.buffer := rfl

theorem byteOfGroup_bits (g : List Int) (hlen : g.length = 8) (hbits : ∀ v ∈ g, v = 0 ∨ v = 1) :
    byteOfGroup g = packByte g := by
  have key : ∀ b0 ∈ [(0 : Int), 1], ∀ b1 ∈ [(0 : Int), 1], ∀ b2 ∈ [(0 : Int), 1],
      ∀ b3 ∈ [(0 : Int), 1], ∀ b4 ∈ [(0 : Int), 1], ∀ b5 ∈ [(0 : Int), 1],
      ∀ b6 ∈ [(0 : Int), 1], ∀ b7 ∈ [(0 : Int), 1],
      byteOfGroup [b0, b1, b2, b3, b4, b5, b6, b7] = packByte [b0, b1, b2, b3, b4, b5, b6, b7] := by
    decide!
  obtain ⟨b0, b1, b2, b3, b4, b5, b6, b7, rfl⟩ := eight_slots g hlen
  have hm : ∀ v, v = 0 ∨ v = 1 → v ∈ [(0 : Int), 1] := by
    intro v hv
    rcases hv with h | h <;> simp [h]
  exact key b0 (hm _ (hbits b0 (by simp))) b1 (hm _ (hbits b1 (by simp)))
    b2 (hm _ (hbits b2 (by simp))) b3 (hm _ (hbits b3 (by simp)))
    b4 (hm _ (hbits b4 (by simp))) b5 (hm _ (hbits b5 (by simp)))
    b6 (hm _ (hbits b6 (by simp))) b7 (hm _ (hbits b7 (by simp)))

theorem take_succ_set {α : Type} (l : List α) (n : Nat) (v : α) (h : n < l.length) :
    (l.set n v).take (n + 1) = l.take n ++ [v] := by
  induction l generalizing n with
  | nil => cases h
  | cons a l ih =>
    cases n with
    | zero => simp
    | succ n =>
      simp only [List.set_cons_succ, List.take_succ_cons, List.cons_append]
      rw [ih n (by simpa using h)]

/-- One step of `decode_matrix_write` on a cell that is not skipped acts on the
pending group as `feedBit` does, unless the cell holds `PADDING`. -/
theorem decode_write_step_feed (m : Matrix) (b : Buffer) (out : List Nat) (acc : List Int)
    (i j : Nat) (hcap : b.capacity = 8) (hlen : b.buffer.length = 8) (hsize : b.size < 8)
    (hacc : b.buffer.take b.size = acc) (hs : isSkipped i j = false) :
    (decode_write_step m (b, out) i j).1.capacity = 8
      ∧ (decode_write_step m (b, out) i j).1.buffer.length = 8
      ∧ (decode_write_step m (b, out) i j).1.size < 8
      ∧ ((decode_write_step m (b, out) i j).1.buffer.take
            (decode_write_step m (b, out) i j).1.size,
          (decode_write_step m (b, out) i j).2)
        = (if m i j = -1 then (acc, out) else feedBit (acc, out) (m i j)) := by
  have hacclen : acc.length = b.size := by
    rw [← hacc, List.length_take]
    omega
  unfold decode_write_step
  simp only [hs, Bool.false_eq_true, if_false]
  by_cases hp : m i j = -1
  · have hne : b.size ≠ b.capacity := by omega
    simp only [hp, ne_eq, not_true_eq_false, if_false, hne, if_true]
    exact ⟨hcap, hlen, hsize, by rw [hacc]⟩
  · simp only [ne_eq, hp, not_false_eq_true, if_true, if_false]
    have htake : (b.buffer.set b.size (m i j)).take (b.size + 1) = acc ++ [m i j] := by
      rw [take_succ_set _ _ _ (by omega), hacc]
    have hlen2 : (b.buffer.set b.size (m i j)).length = 8 := by
      rw [List.length_set, hlen]
    unfold buffer_enqueue feedBit
    simp only
    by_cases hfull : b.size + 1 = b.capacity
    · have h8 : b.size + 1 = 8 := by omega
      have hfull2 : acc.length + 1 = 8 := by omega
      simp only [hfull, if_true, hfull2, binaryToChar_buffer]
      refine ⟨hcap, hlen2, by decide, ?_⟩
      have hall : b.buffer.set b.size (m i j) = acc ++ [m i j] := by
        rw [← htake, h8]
        exact (List.take_of_length_le (by omega)).symm
      rw [hall]
      simp
    · have hfull2 : ¬ (acc.length + 1 = 8) := by omega
      simp only [hfull, if_false, hfull2]
      exact ⟨hcap, hlen2, by omega, by rw [htake]⟩

theorem decode_write_fold (m : Matrix) (cs : List (Nat × Nat)) (b : Buffer) (out : List Nat)
    (acc : List Int) (hcap : b.capacity = 8) (hlen : b.buffer.length = 8) (hsize : b.size < 8)
    (hacc : b.buffer.take b.size = acc) :
    (cs.foldl (fun s c => decode_write_step m s c.1 c.2) (b, out)).1.capacity = 8
      ∧ (cs.foldl (fun s c => decode_write_step m s c.1 c.2) (b, out)).1.buffer.length = 8
      ∧ (cs.foldl (fun s c => decode_write_step m s c.1 c.2) (b, out)).1.size < 8
      ∧ ((cs.foldl (fun s c => decode_write_step m s c.1 c.2) (b, out)).1.buffer.take
            (cs.foldl (fun s c => decode_write_step m s c.1 c.2) (b, out)).1.size,
          (cs.foldl (fun s c => decode_write_step m s c.1 c.2) (b, out)).2)
        = ((((cs.filter (fun c => !isSkipped c.1 c.2)).map (fun c => m c.1 c.2)).filter
              (fun v => decide (v ≠ PADDING))).foldl feedBit (acc, out)) := by
  induction cs generalizing b out acc with
  | nil =>
    simp only [List.foldl_nil, List.filter_nil, List.map_nil]
    exact ⟨hcap, hlen, hsize, by rw [hacc]⟩
  | cons c cs ih =>
    simp only [List.foldl_cons]
    by_cases hs : isSkipped c.1 c.2 = true
    · have h1 : decode_write_step m (b, out) c.1 c.2 = (b, out) := by
        simp [decode_write_step, hs]
      rw [h1]
      have := ih b out acc hcap hlen hsize hacc
      simpa [List.filter_cons, hs] using this
    · have hs2 : isSkipped c.1 c.2 = false := by simpa using hs
      obtain ⟨a1, a2, a3, a4⟩ :=
        decode_write_step_feed m b out acc c.1 c.2 hcap hlen hsize hacc hs2
      have hpair : decode_write_step m (b, out) c.1 c.2
          = ((decode_write_step m (b, out) c.1 c.2).1, (decode_write_step m (b, out) c.1 c.2).2) :=
        rfl
      rw [hpair]
      have := ih (decode_write_step m (b, out) c.1 c.2).1 (decode_write_step m (b, out) c.1 c.2).2
        _ a1 a2 a3 rfl
      refine ⟨this.1, this.2.1, this.2.2.1, ?_⟩
      rw [this.2.2.2, a4]
      by_cases hp : m c.1 c.2 = -1
      · simp [List.filter_cons, hs2, hp, PADDING]
      · simp [List.filter_cons, hs2, hp, PADDING]

theorem decode_matrix_write_feed (d : Nat) (m : Matrix) (b : Buffer) (out : List Nat)
    (acc : List Int) (hcap : b.capacity = 8) (hlen : b.buffer.length = 8) (hsize : b.size < 8)
    (hacc : b.buffer.take b.size = acc) :
    (decode_matrix_write d m (b, out)).1.capacity = 8
      ∧ (decode_matrix_write d m (b, out)).1.buffer.length = 8
      ∧ (decode_matrix_write d m (b, out)).1.size < 8
      ∧ ((decode_matrix_write d m (b, out)).1.buffer.take (decode_matrix_write d m (b, out)).1.size,
          (decode_matrix_write d m (b, out)).2)
        = (payload d m).foldl feedBit (acc, out) := by
  unfold decode_matrix_write
  rw [forCells_eq_foldl_cells]
  exact decode_write_fold m (cells d) b out acc hcap hlen hsize hacc

theorem decode_session_write_feed (d : Nat) (ms : List Matrix) (b : Buffer) (out : List Nat)
    (acc : List Int) (hcap : b.capacity = 8) (hlen : b.buffer.length = 8) (hsize : b.size < 8)
    (hacc : b.buffer.take b.size = acc) :
    (decode_session_write d ms (b, out)).1.buffer.length = 8
      ∧ (decode_session_write d ms (b, out)).1.size < 8
      ∧ ((decode_session_write d ms (b, out)).1.buffer.take
            (decode_session_write d ms (b, out)).1.size,
          (decode_session_write d ms (b, out)).2)
        = (sessionPayload d ms).foldl feedBit (acc, out) := by
  induction ms generalizing b out acc with
  | nil =>
    simp only [decode_session_write, sessionPayload, List.foldl_nil, List.flatMap_nil]
    exact ⟨hlen, hsize, by rw [hacc]⟩
  | cons m ms ih =>
    obtain ⟨a1, a2, a3, a4⟩ := decode_matrix_write_feed d m b out acc hcap hlen hsize hacc
    have h := ih (decode_matrix_write d m (b, out)).1 (decode_matrix_write d m (b, out)).2 _
      a1 a2 a3 rfl
    have hstep : decode_session_write d (m :: ms) (b, out)
        = decode_session_write d ms ((decode_matrix_write d m (b, out)).1,
            (decode_matrix_write d m (b, out)).2) := rfl
    rw [hstep]
    refine ⟨h.1, h.2.1, ?_⟩
    rw [h.2.2, a4]
    simp [sessionPayload, List.flatMap_cons, List.foldl_append]

theorem group_append_of_le (p : List Int) (v : Int) (k : Nat) (h : 8 * k + 8 ≤ p.length) :
    group (p ++ [v]) k = group p k := by
  unfold group
  rw [List.drop_append_of_le_length (by omega), List.take_append_of_le_length]
  rw [List.length_drop]
  omega

theorem feedBit_spec (p : List Int) :
    p.foldl feedBit ([], [])
      = (p.drop (8 * (p.length / 8)),
          (List.range (p.length / 8)).map (fun k => byteOfGroup (group p k))) := by
  induction p using List.reverseRecOn with
  | nil => rfl
  | append_singleton p v ih =>
    rw [List.foldl_append, ih]
    simp only [List.foldl_cons, List.foldl_nil, feedBit]
    have hdl : (p.drop (8 * (p.length / 8))).length = p.length % 8 := by
      rw [List.length_drop]
      omega
    have hlen : (p ++ [v]).length = p.length + 1 := by simp
    have hmap : ∀ n, n ≤ p.length / 8 →
        (List.range n).map (fun k => byteOfGroup (group (p ++ [v]) k))
          = (List.range n).map (fun k => byteOfGroup (group p k)) := by
      intro n hn
      apply List.map_congr_left
      intro k hk
      have hk2 := List.mem_range.mp hk
      rw [group_append_of_le p v k (by omega)]
    by_cases hfull : p.length % 8 + 1 = 8
    · have hq : (p.length + 1) / 8 = p.length / 8 + 1 := by omega
      simp only [hdl, hfull, if_true, hlen, hq]
      rw [List.range_succ, List.map_append, hmap _ (le_refl _)]
      have hg : group (p ++ [v]) (p.length / 8) = p.drop (8 * (p.length / 8)) ++ [v] := by
        unfold group
        rw [List.drop_append_of_le_length (by omega)]
        apply List.take_of_length_le
        rw [List.length_append, hdl]
        simp
        omega
      have hnil : (p ++ [v]).drop (8 * (p.length / 8 + 1)) = [] := by
        apply List.drop_eq_nil_of_le
        rw [hlen]
        omega
      rw [hnil]
      simp [hg]
    · have hq : (p.length + 1) / 8 = p.length / 8 := by omega
      simp only [hdl, hfull, if_false, hlen, hq]
      rw [hmap _ (le_refl _), List.drop_append_of_le_length (by omega)]

/-! ## The bit source of the encoder on inputs without the byte 0xFF -/

theorem bitsOfByte_ne_nil (x : Nat) : bitsOfByte x ≠ [] := by
  intro h
  have := bitsOfByte_length x
  rw [h] at this
  cases this

theorem pending_bits (b : Buffer) (f : File Nat) (hb : WellFormed b) :
    ∀ v ∈ pending b f, v = 0 ∨ v = 1 := by
  intro v hv
  unfold pending at hv
  rcases List.mem_append.mp hv with h | h
  · exact hb.2.2.2 v (List.mem_of_mem_drop h)
  · obtain ⟨x, _, hx⟩ := List.mem_flatMap.mp h
    exact bitsOfByte_bits _ v hx

theorem buffer_dequeue_nil (b : Buffer) (f : File Nat) (hb : WellFormed b)
    (hp : pending b f = []) :
    buffer_dequeue b f = (-1, b, { f with eof := true })
      ∧ b.size = b.capacity ∧ f.data = [] := by
  obtain ⟨hcap, hlen, hsize, _⟩ := hb
  unfold pending at hp
  obtain ⟨h1, h2⟩ := List.append_eq_nil.mp hp
  have hs : b.size = b.capacity := by
    have := List.drop_eq_nil_iff.mp h1
    omega
  have hd : f.data = [] := by
    cases hdata : f.data with
    | nil => rfl
    | cons x xs =>
      rw [hdata, List.flatMap_cons] at h2
      exact absurd (List.append_eq_nil.mp h2).1 (bitsOfByte_ne_nil _)
  refine ⟨?_, hs, hd⟩
  unfold buffer_dequeue
  have hg : fgetc f = (EOF, { f with eof := true }) := by simp [fgetc, hd]
  have h2 : toChar EOF = EOF := by decide
  simp only [hs, if_true, hg, h2]

theorem buffer_dequeue_cons (b : Buffer) (f : File Nat) (hb : WellFormed b) (hf : NoFF f)
    (v : Int) (rest : List Int) (hp : pending b f = v :: rest) :
    (buffer_dequeue b f).1 = v
      ∧ pending (buffer_dequeue b f).2.1 (buffer_dequeue b f).2.2 = rest
      ∧ (buffer_dequeue b f).2.2.eof = f.eof
      ∧ NoFF (buffer_dequeue b f).2.2 := by
  obtain ⟨hcap, hlen, hsize, _⟩ := hb
  unfold buffer_dequeue
  by_cases hfull : b.size = b.capacity
  · have hdrop : b.buffer.drop b.size = [] := List.drop_eq_nil_of_le (by omega)
    unfold pending at hp
    rw [hdrop, List.nil_append] at hp
    cases hdata : f.data with
    | nil =>
      rw [hdata] at hp
      cases hp
    | cons x xs =>
      have hg : fgetc f = (((x % 256 : Nat) : Int), { f with data := xs }) := by
        simp [fgetc, hdata]
      have hx : x % 256 < 256 := Nat.mod_lt _ (by decide)
      have hne : x % 256 ≠ 255 := hf x (by rw [hdata]; exact List.mem_cons_self _ _)
      have hc : ¬ (toChar ((x % 256 : Nat) : Int) = EOF) :=
        fun h => hne ((toChar_eq_EOF_iff _ hx).mp h)
      simp only [hfull, if_true, hg, hc, if_false]
      rw [charToBinary_spec _ b hlen, charBits_toChar _ hx]
      rw [hdata, List.flatMap_cons] at hp
      obtain ⟨b0, b1, b2, b3, b4, b5, b6, b7, hbits⟩ := eight_slots _ (bitsOfByte_length (x % 256))
      rw [← hbits] at hp ⊢
      simp only [List.cons_append, List.cons.injEq] at hp
      refine ⟨?_, ?_, trivial, ?_⟩
      · simpa using hp.1
      · simp only [pending]
        simpa using hp.2
      · intro y hy
        exact hf y (by rw [hdata]; exact List.mem_cons_of_mem _ hy)
  · have hlt : b.size < b.buffer.length := by omega
    simp only [hfull, if_false]
    unfold pending at hp
    rw [List.drop_eq_getElem_cons hlt] at hp
    simp only [List.cons_append, List.cons.injEq] at hp
    refine ⟨?_, ?_, trivial, hf⟩
    · rw [List.getD_eq_getElem _ _ hlt]
      exact hp.1
    · simp only [pending]
      exact hp.2

theorem encode_matrix_fill_eq_fillCells (d : Nat) (s : EncState) :
    encode_matrix_fill d s = fillCells (cells d) s := by
  unfold encode_matrix_fill fillCells
  rw [forCells_eq_foldl_cells]

theorem fillCells_cons (c : Nat × Nat) (cs : List (Nat × Nat)) (s : EncState) :
    fillCells (c :: cs) s = fillCells cs (encode_fill_step s c.1 c.2) := rfl

theorem fillCells_frame (cs : List (Nat × Nat)) (s : EncState) (hb : WellFormed s.buffer)
    (a b : Nat) (h : (a, b) ∉ cs) : (fillCells cs s).matrix a b = s.matrix a b :=
  ((fill_fold_spec cs s hb).2 a b).2 h

theorem fillCells_values (cs : List (Nat × Nat)) (hnd : cs.Nodup) (s : EncState)
    (hb : WellFormed s.buffer) (hf : NoFF s.input) :
    (unskipped cs).map (fun c => (fillCells cs s).matrix c.1 c.2)
        = (pending s.buffer s.input).take (unskipped cs).length
          ++ List.replicate ((unskipped cs).length - (pending s.buffer s.input).length) (-1)
      ∧ pending (fillCells cs s).buffer (fillCells cs s).input
        = (pending s.buffer s.input).drop (unskipped cs).length
      ∧ (fillCells cs s).input.eof
        = (s.input.eof || decide ((pending s.buffer s.input).length < (unskipped cs).length))
      ∧ NoFF (fillCells cs s).input := by
  induction cs generalizing s with
  | nil =>
    simp [unskipped, fillCells, hf]
  | cons c cs ih =>
    have hc : c ∉ cs := (List.nodup_cons.mp hnd).1
    have hnd2 : cs.Nodup := (List.nodup_cons.mp hnd).2
    rw [fillCells_cons]
    by_cases hs : isSkipped c.1 c.2 = true
    · have hstep : encode_fill_step s c.1 c.2 = { s with matrix := s.matrix.set c.1 c.2 0 } := by
        simp [encode_fill_step, hs]
      have hun : unskipped (c :: cs) = unskipped cs := by
        simp [unskipped, List.filter_cons, hs]
      rw [hstep, hun]
      exact ih hnd2 { s with matrix := s.matrix.set c.1 c.2 0 } hb hf
    · have hs2 : isSkipped c.1 c.2 = false := by simpa using hs
      have hstep : encode_fill_step s c.1 c.2
          = { matrix := s.matrix.set c.1 c.2 (buffer_dequeue s.buffer s.input).1,
              buffer := (buffer_dequeue s.buffer s.input).2.1,
              input := (buffer_dequeue s.buffer s.input).2.2 } := by
        simp [encode_fill_step, hs]
      have hun : unskipped (c :: cs) = c :: unskipped cs := by
        simp [unskipped, List.filter_cons, hs2]
      have hwf := (buffer_dequeue_wf s.buffer s.input hb).1
      rw [hstep, hun]
      have hcell : ∀ s1 : EncState, WellFormed s1.buffer →
          (fillCells cs s1).matrix c.1 c.2 = s1.matrix c.1 c.2 :=
        fun s1 h1 => fillCells_frame cs s1 h1 c.1 c.2 hc
      cases hp : pending s.buffer s.input with
      | nil =>
        obtain ⟨hdq, _, _⟩ := buffer_dequeue_nil s.buffer s.input hb hp
        rw [hdq]
        simp only
        have hf1 : NoFF { s.input with eof := true } := hf
        have hp1 : pending s.buffer { s.input with eof := true } = [] := hp
        have h := ih hnd2
          (⟨s.matrix.set c.1 c.2 (-1), s.buffer, { s.input with eof := true }⟩ : EncState) hb hf1
        simp only [hp1] at h
        obtain ⟨h1, h2, h3, h4⟩ := h
        refine ⟨?_, ?_, ?_, h4⟩
        · have hh := hcell
            (⟨s.matrix.set c.1 c.2 (-1), s.buffer, { s.input with eof := true }⟩ : EncState) hb
          simp only [List.map_cons, h1, hh]
          simp [Matrix.set, List.replicate_succ]
        · rw [h2]
          simp
        · rw [h3]
          simp
      | cons v t =>
        obtain ⟨hv, hpd, heof, hnoff⟩ := buffer_dequeue_cons s.buffer s.input hb hf v t hp
        have h := ih hnd2
          (⟨s.matrix.set c.1 c.2 (buffer_dequeue s.buffer s.input).1,
            (buffer_dequeue s.buffer s.input).2.1,
            (buffer_dequeue s.buffer s.input).2.2⟩ : EncState) hwf hnoff
        simp only [hpd, heof] at h
        obtain ⟨h1, h2, h3, h4⟩ := h
        refine ⟨?_, ?_, ?_, h4⟩
        · have hh := hcell
            (⟨s.matrix.set c.1 c.2 (buffer_dequeue s.buffer s.input).1,
              (buffer_dequeue s.buffer s.input).2.1,
              (buffer_dequeue s.buffer s.input).2.2⟩ : EncState) hwf
          simp only [List.map_cons, h1, hh]
          simp [Matrix.set, hv]
        · rw [h2]
          simp
        · rw [h3]
          simp

theorem takeWhile_append_replicate {α : Type} (p : α → Bool) (l : List α) (n : Nat) (x : α)
    (hl : ∀ v ∈ l, p v = true) (hx : p x = false) :
    (l ++ List.replicate n x).takeWhile p = l := by
  induction l with
  | nil =>
    cases n with
    | zero => rfl
    | succ n => simp [List.replicate_succ, List.takeWhile_cons, hx]
  | cons a l ih =>
    have ha : p a = true := hl a (List.mem_cons_self _ _)
    simp only [List.cons_append, List.takeWhile_cons, ha, if_true]
    rw [ih (fun v hv => hl v (List.mem_cons_of_mem _ hv))]

theorem encodeBlock_blockCells (d : Nat) (hd : validDimension d = true) (s : EncState)
    (hb : WellFormed s.buffer) : BlockCells d (encodeBlock d s) := by
  have hfill := (encode_matrix_fill_filled d s hb).2
  obtain ⟨_, _, h3, h4⟩ := encode_matrix_parity_spec d hd _ hfill
  intro a b ha hb2
  by_cases hs : isSkipped a b = true
  · simp only [hs, if_true]
    exact h4 a b ha hb2 hs
  · have hs2 : isSkipped a b = false := by simpa using hs
    have hm := hfill a b ha hb2
    simp only [hs, if_false] at hm ⊢
    unfold encodeBlock
    rw [h3 a b hs2]
    exact hm

theorem dataValues_encodeBlock (d : Nat) (hd : validDimension d = true) (s : EncState)
    (hb : WellFormed s.buffer) :
    dataValues d (encodeBlock d s) = dataValues d (encode_matrix_fill d s).matrix := by
  have hfill := (encode_matrix_fill_filled d s hb).2
  obtain ⟨_, _, h3, _⟩ := encode_matrix_parity_spec d hd _ hfill
  unfold dataValues
  apply List.map_congr_left
  intro c hc
  exact h3 c.1 c.2 (mem_dataCells.mp hc).2.2

theorem pending_nil_size (b : Buffer) (f : File Nat) (hb : WellFormed b)
    (hp : pending b f = []) : b.size = b.capacity :=
  (buffer_dequeue_nil b f hb hp).2.1

/-- One iteration of the loop of `encode` on a bit source without the byte 0xFF. -/
theorem encode_iteration (d : Nat) (hd : validDimension d = true) (s : EncState)
    (hb : WellFormed s.buffer) (hf : NoFF s.input) :
    encode_matrix_write d (encodeBlock d s)
        = (wireCells d).map (fun c => bitChar (encodeBlock d s c.1 c.2))
          ++ ((pending s.buffer s.input).take (dataCells d).length).map bitChar
      ∧ pending (encode_matrix_fill d s).buffer (encode_matrix_fill d s).input
        = (pending s.buffer s.input).drop (dataCells d).length
      ∧ (encode_matrix_fill d s).input.eof
        = (s.input.eof || decide ((pending s.buffer s.input).length < (dataCells d).length))
      ∧ WellFormed (encode_matrix_fill d s).buffer
      ∧ NoFF (encode_matrix_fill d s).input := by
  have hwf := (encode_matrix_fill_filled d s hb).1
  have hvals := fillCells_values (cells d) (cells_nodup d) s hb hf
  rw [← encode_matrix_fill_eq_fillCells] at hvals
  obtain ⟨h1, h2, h3, h4⟩ := hvals
  have hun : unskipped (cells d) = dataCells d := rfl
  rw [hun] at h1 h2 h3
  refine ⟨?_, h2, h3, hwf, h4⟩
  have hw := (wire_format d hd (encodeBlock d s) (encodeBlock_blockCells d hd s hb)).1
  rw [hw, dataValues_encodeBlock d hd s hb]
  congr 2
  have hdv : dataValues d (encode_matrix_fill d s).matrix
      = (pending s.buffer s.input).take (dataCells d).length
        ++ List.replicate ((dataCells d).length - (pending s.buffer s.input).length) (-1) := h1
  rw [hdv]
  apply takeWhile_append_replicate
  · intro v hv
    have hv2 := pending_bits s.buffer s.input hb v (List.mem_of_mem_take hv)
    rcases hv2 with h | h <;> subst h <;> decide
  · decide

/-! ## The loop of `encode` -/

theorem encode_loop_stop (d fuel : Nat) (s : EncState)
    (h : (!s.input.eof || s.buffer.size != s.buffer.capacity) = false) :
    encode_loop d fuel s = some [] := by
  cases fuel <;> simp [encode_loop, h]

theorem encode_loop_run (d fuel : Nat) (s : EncState)
    (h : (!s.input.eof || s.buffer.size != s.buffer.capacity) = true) :
    encode_loop d (fuel + 1) s
      = (encode_loop d fuel { encode_matrix_fill d s with matrix := encodeBlock d s }).map
          (fun rest => encode_matrix_write d (encodeBlock d s) :: rest) := by
  rw [encode_loop]
  simp only [h, if_true]
  rfl

theorem dataCells_length_pos (d : Nat) (hd : validDimension d = true) :
    0 < (dataCells d).length := by
  rw [dataCells_length d hd]
  have h1 := validDimension_cases d hd
  simp only [List.mem_cons, List.mem_singleton, List.not_mem_nil, or_false] at h1
  rcases h1 with h1 | h1 | h1 | h1 | h1 | h1 | h1 | h1 <;> subst h1 <;> decide!

theorem encode_loop_lengths (d : Nat) (hd : validDimension d = true) (fuel : Nat)
    (s : EncState) (hb : WellFormed s.buffer) (hf : NoFF s.input)
    (heof : s.input.eof = false)
    (hfuel : (pending s.buffer s.input).length / (dataCells d).length + 1 ≤ fuel) :
    ∃ blocks, encode_loop d fuel s = some blocks
      ∧ blocks.map List.length
        = List.replicate ((pending s.buffer s.input).length / (dataCells d).length)
            (2 * Nat.log2 d + 1 + (dataCells d).length)
          ++ [2 * Nat.log2 d + 1 + (pending s.buffer s.input).length % (dataCells d).length] := by
  have hP := dataCells_length_pos d hd
  induction fuel generalizing s with
  | zero => exact absurd hfuel (Nat.not_succ_le_zero _)
  | succ fuel ih =>
    have hcond : (!s.input.eof || s.buffer.size != s.buffer.capacity) = true := by
      simp [heof]
    obtain ⟨hout, hpd, heof2, hwf2, hnoff2⟩ := encode_iteration d hd s hb hf
    rw [encode_loop_run d fuel s hcond]
    have hlen : (encode_matrix_write d (encodeBlock d s)).length
        = 2 * Nat.log2 d + 1
          + min (dataCells d).length (pending s.buffer s.input).length := by
      rw [hout, List.length_append, List.length_map, List.length_map, wireCells_length,
        List.length_take]
    by_cases hlt : (pending s.buffer s.input).length < (dataCells d).length
    · have hnil : pending (encode_matrix_fill d s).buffer (encode_matrix_fill d s).input = [] := by
        rw [hpd]
        exact List.drop_eq_nil_of_le (Nat.le_of_lt hlt)
      have hsz := pending_nil_size _ _ hwf2 hnil
      have he : (encode_matrix_fill d s).input.eof = true := by
        rw [heof2]
        simp [hlt]
      have hstop := encode_loop_stop d fuel
        { encode_matrix_fill d s with matrix := encodeBlock d s } (by simp [he, hsz])
      rw [hstop]
      refine ⟨[encode_matrix_write d (encodeBlock d s)], rfl, ?_⟩
      rw [Nat.div_eq_of_lt hlt, Nat.mod_eq_of_lt hlt]
      simp only [List.map_cons, List.map_nil, List.replicate_zero, List.nil_append, hlen]
      rw [Nat.min_eq_right (Nat.le_of_lt hlt)]
    · have hge : (dataCells d).length ≤ (pending s.buffer s.input).length := Nat.le_of_not_lt hlt
      have he : (encode_matrix_fill d s).input.eof = false := by
        rw [heof2]
        simp [heof, hlt]
      have hdiv : (pending s.buffer s.input).length / (dataCells d).length
          = ((pending s.buffer s.input).length - (dataCells d).length) / (dataCells d).length
            + 1 := by
        rw [Nat.div_eq (pending s.buffer s.input).length]
        simp [hP, hge]
      have hmod : (pending s.buffer s.input).length % (dataCells d).length
          = ((pending s.buffer s.input).length - (dataCells d).length)
            % (dataCells d).length := Nat.mod_eq_sub_mod hge
      have hih := ih { encode_matrix_fill d s with matrix := encodeBlock d s } hwf2 hnoff2 he
        (by
          show (pending (encode_matrix_fill d s).buffer (encode_matrix_fill d s).input).length
            / (dataCells d).length + 1 ≤ fuel
          rw [hpd, List.length_drop]
          omega)
      obtain ⟨rest, hrest, hlens⟩ := hih
      rw [hrest]
      refine ⟨encode_matrix_write d (encodeBlock d s) :: rest, rfl, ?_⟩
      have hpd2 : pending (encode_matrix_fill d s).buffer (encode_matrix_fill d s).input
          = (pending s.buffer s.input).drop (dataCells d).length := hpd
      simp only [hpd2, List.length_drop] at hlens
      rw [List.map_cons, hlens, hlen, hdiv, ← hmod, List.replicate_succ, List.cons_append,
        Nat.min_eq_left hge]

theorem encode_init_wellFormed (input : List Nat) : WellFormed (encode_init input).buffer := by
  have h : WellFormed { buffer := List.replicate 8 0, size := 8, capacity := 8 } := by decide
  exact h

theorem encode_init_pending (input : List Nat) :
    pending (encode_init input).buffer (encode_init input).input
      = input.flatMap (fun x => bitsOfByte (x % 256)) := by
  simp [pending, encode_init, buffer_initialize, File.open]

theorem flatMap_bits_length (l : List Nat) :
    (l.flatMap (fun x => bitsOfByte (x % 256))).length = 8 * l.length := by
  induction l with
  | nil => rfl
  | cons a l ih =>
    rw [List.flatMap_cons, List.length_append, ih, bitsOfByte_length, List.length_cons]
    omega

/-- The lengths of the blocks that `encode` writes for an input without the
byte 0xFF. -/
theorem encode_blocks_lengths (d : Nat) (hd : validDimension d = true) (input : List Nat)
    (hin : ∀ x ∈ input, x < 255) :
    ∃ blocks, encode_blocks d input = some blocks
      ∧ blocks.map List.length
        = List.replicate (8 * input.length / (d * d - 2 * Nat.log2 d - 1))
            (2 * Nat.log2 d + 1 + (d * d - 2 * Nat.log2 d - 1))
          ++ [2 * Nat.log2 d + 1 + 8 * input.length % (d * d - 2 * Nat.log2 d - 1)] := by
  have hnoff : NoFF (encode_init input).input := by
    intro x hx
    have : x < 255 := hin x hx
    omega
  have hlen : (pending (encode_init input).buffer (encode_init input).input).length
      = 8 * input.length := by
    rw [encode_init_pending, flatMap_bits_length]
  have h := encode_loop_lengths d hd (8 * input.length + 1) (encode_init input)
    (encode_init_wellFormed input) hnoff rfl (by
      rw [hlen]
      exact Nat.succ_le_succ (Nat.div_le_self _ _))
  rw [hlen, dataCells_length d hd] at h
  exact h

/-! ## Single and double bit flips (C2, C3) -/

/-- An `int` operation whose result lies in the range of `int` gives that result. -/
theorem toInt32_of_range (x : Int) (hlo : -2147483648 ≤ x) (hhi : x ≤ INT_MAX) :
    toInt32 x = x := by
  unfold INT_MAX at hhi
  unfold toInt32
  omega

/-- The result of an `int` operation lies in the range of `int`. -/
theorem toInt32_range (x : Int) : -2147483648 ≤ toInt32 x ∧ toInt32 x ≤ INT_MAX := by
  unfold INT_MAX toInt32
  omega

/-- Adding to a wrapped value and wrapping is wrapping the sum. -/
theorem toInt32_add (x k : Int) : toInt32 (toInt32 x + k) = toInt32 (x + k) := by
  unfold toInt32
  omega

theorem decode_matrix_parity_single (d : Nat) (m : Matrix) (i j : Nat) (hi : i < d) (hj : j < d)
    (h0 : ¬ (i = 0 ∧ j = 0)) (hv : m i j = 0 ∨ m i j = 1)
    (hsyn : (decode_parity_scan d m).1 = 0)
    (hmeta : (((decode_parity_scan d m).2 : Nat) : Int) = m 0 0)
    (errors : Int) (correctable : Bool) :
    decode_matrix_parity d (flipCell m i j) errors correctable
      = (m, toInt32 (errors + 1), correctable) := by
  have hd : 0 < d := by omega
  have hscan := decode_scan_flip d m i j hi hj h0 hv
  have hn0 := cell_index_ne_zero hd h0
  have hdm := cell_index_div_mod (i := i) hj
  unfold decode_matrix_parity flipCell
  simp only [hscan, hsyn, Nat.zero_xor, hdm.1, hdm.2]
  have h00 : (m.set i j (1 - m i j)) 0 0 = m 0 0 := by
    have : ¬ (0 = i ∧ 0 = j) := fun h => h0 ⟨h.1.symm, h.2.symm⟩
    simp [Matrix.set, this]
  have hne : (((decode_parity_scan d m).2 ^^^ 1 : Nat) : Int) ≠ (m.set i j (1 - m i j)) 0 0 := by
    rw [h00]
    exact xor_cnt_int_ne _ _ hmeta
  have hij : (m.set i j (1 - m i j)) i j = 1 - m i j := by simp [Matrix.set]
  simp only [ne_eq, hn0, not_false_eq_true, if_true, hne, if_false, hij,
    int_xor_one_flip _ hv]
  rw [set_set_same]

theorem decode_matrix_parity_meta (d : Nat) (m : Matrix) (v : Int)
    (hsyn : (decode_parity_scan d m).1 = 0) (errors : Int) (correctable : Bool) :
    decode_matrix_parity d (m.set 0 0 v) errors correctable
      = (m.set 0 0 v, errors, correctable) := by
  unfold decode_matrix_parity
  simp only [decode_scan_set_meta, hsyn, ne_eq, not_true_eq_false, if_false]

theorem decode_matrix_parity_double (d : Nat) (m : Matrix) (i1 j1 i2 j2 : Nat)
    (hi1 : i1 < d) (hj1 : j1 < d) (hi2 : i2 < d) (hj2 : j2 < d)
    (h1 : ¬ (i1 = 0 ∧ j1 = 0)) (h2 : ¬ (i2 = 0 ∧ j2 = 0)) (hne : ¬ (i1 = i2 ∧ j1 = j2))
    (hv1 : m i1 j1 = 0 ∨ m i1 j1 = 1) (hv2 : m i2 j2 = 0 ∨ m i2 j2 = 1)
    (hsyn : (decode_parity_scan d m).1 = 0)
    (hmeta : (((decode_parity_scan d m).2 : Nat) : Int) = m 0 0)
    (errors : Int) (correctable : Bool) :
    decode_matrix_parity d ((m.set i1 j1 (1 - m i1 j1)).set i2 j2 (1 - m i2 j2))
        errors correctable
      = ((m.set i1 j1 (1 - m i1 j1)).set i2 j2 (1 - m i2 j2), toInt32 (errors + 2), false) := by
  have hcell : (m.set i1 j1 (1 - m i1 j1)) i2 j2 = m i2 j2 := by
    have : ¬ (i2 = i1 ∧ j2 = j1) := fun h => hne ⟨h.1.symm, h.2.symm⟩
    simp [Matrix.set, this]
  have hs1 := decode_scan_flip d m i1 j1 hi1 hj1 h1 hv1
  have hs2 := decode_scan_flip d (m.set i1 j1 (1 - m i1 j1)) i2 j2 hi2 hj2 h2
    (by rw [hcell]; exact hv2)
  rw [hcell] at hs2
  have hidx : i1 * d + j1 ≠ i2 * d + j2 := by
    intro h
    apply hne
    have a1 := cell_index_div_mod (i := i1) hj1
    have a2 := cell_index_div_mod (i := i2) hj2
    rw [h] at a1
    exact ⟨a1.1.symm.trans a2.1, a1.2.symm.trans a2.2⟩
  have hx : i1 * d + j1 ^^^ (i2 * d + j2) ≠ 0 := fun h => hidx (Nat.xor_eq_zero.mp h)
  have h00 : ((m.set i1 j1 (1 - m i1 j1)).set i2 j2 (1 - m i2 j2)) 0 0 = m 0 0 := by
    have a1 : ¬ (0 = i1 ∧ 0 = j1) := fun h => h1 ⟨h.1.symm, h.2.symm⟩
    have a2 : ¬ (0 = i2 ∧ 0 = j2) := fun h => h2 ⟨h.1.symm, h.2.symm⟩
    simp [Matrix.set, a1, a2]
  unfold decode_matrix_parity
  simp only [hs2, hs1, hsyn, Nat.zero_xor, xor_one_xor_one, ne_eq, hx, not_false_eq_true,
    if_true, h00, hmeta]

/-! ## The loop of `decode` -/

theorem decode_loop_stop (d fuel : Nat) (t : DecState) (h : t.input.eof = true) :
    decode_loop d fuel t = some t := by
  cases fuel <;> simp [decode_loop, h]

theorem decode_loop_run (d fuel : Nat) (t : DecState) (h : t.input.eof = false) :
    decode_loop d (fuel + 1) t = decode_loop d fuel (decode_block d t) := by
  rw [decode_loop]
  simp [h]

/-! ## Bytes from groups of eight bits -/

theorem packByte_bitsOfByte (x : Nat) (hx : x < 256) : packByte (bitsOfByte x) = x := by
  have key : ∀ y, y < 256 → packByte (bitsOfByte y) = y := by
    decide!
  exact key x hx

theorem byteOfGroup_bitsOfByte (x : Nat) (hx : x < 256) : byteOfGroup (bitsOfByte x) = x := by
  rw [byteOfGroup_bits _ (bitsOfByte_length x) (bitsOfByte_bits x), packByte_bitsOfByte x hx]

theorem feedBit_byte (x : Nat) (hx : x < 256) (out : List Nat) :
    (bitsOfByte x).foldl feedBit ([], out) = ([], out ++ [x]) := by
  have h := byteOfGroup_bitsOfByte x hx
  obtain ⟨b0, b1, b2, b3, b4, b5, b6, b7, hbits⟩ := eight_slots _ (bitsOfByte_length x)
  rw [← hbits] at h ⊢
  simp [feedBit, h]

theorem feedBit_bytes (l : List Nat) (out : List Nat) :
    (l.flatMap (fun x => bitsOfByte (x % 256))).foldl feedBit ([], out)
      = ([], out ++ l.map (fun x => x % 256)) := by
  induction l generalizing out with
  | nil => simp
  | cons x l ih =>
    rw [List.flatMap_cons, List.foldl_append, feedBit_byte _ (Nat.mod_lt _ (by decide)), ih]
    simp

theorem sum_replicate_append (k x y : Nat) :
    (List.replicate k x ++ [y]).sum = k * x + y := by
  induction k with
  | zero => simp
  | succ k ih =>
    rw [List.replicate_succ, List.cons_append, List.sum_cons, ih]
    rw [Nat.succ_mul]
    omega


/-- The bytes that `decode` writes are those of the calls of
`decode_matrix_write` on the matrices of its iterations. -/
theorem decode_loop_session (d fuel : Nat) (t t2 : DecState)
    (h : decode_loop d fuel t = some t2) :
    (t2.buffer, t2.output)
      = decode_session_write d (decode_matrices d fuel t) (t.buffer, t.output) := by
  induction fuel generalizing t with
  | zero =>
    by_cases he : t.input.eof = true
    · rw [decode_loop_stop d 0 t he] at h
      have : t = t2 := Option.some.inj h
      subst this
      simp [decode_matrices, he, decode_session_write]
    · simp [decode_loop, he] at h
  | succ fuel ih =>
    by_cases he : t.input.eof = true
    · rw [decode_loop_stop d _ t he] at h
      have : t = t2 := Option.some.inj h
      subst this
      simp [decode_matrices, he, decode_session_write]
    · have he2 : t.input.eof = false := by simpa using he
      rw [decode_loop_run d fuel t he2] at h
      have := ih (decode_block d t) h
      rw [this]
      simp only [decode_matrices, he2, Bool.not_false, if_true, decode_session_write,
        List.foldl_cons]
      rfl

/-- The output of `decode` as a session of `decode_matrix_write`. -/
theorem decode_output_session (d : Nat) (text : List Char) (out : List Nat) (errors : Int)
    (correctable : Bool) (h : decode d text = some (out, errors, correctable)) :
    out = (decode_session_write d (decode_matrices d (text.length + 1) (decode_init text))
      ( buffer_initialize 8, [])).2 := by
  unfold decode at h
  cases hl : decode_loop d (text.length + 1) (decode_init text) with
  | none => rw [hl] at h; cases h
  | some t2 =>
    rw [hl] at h
    simp only [Option.map_some', Option.some.injEq, Prod.mk.injEq] at h
    have := decode_loop_session d _ _ t2 hl
    rw [← h.1]
    exact (congrArg Prod.snd this)

/-! ## Claims C2 and C3: bit flips in an encoded block -/

/-- C2, counterexample.  In the block that `encode` builds for the input byte
0x41 with `d = 4`, the meta-parity cell `(0,0)` is not `PADDING`, yet after
flipping it `decode_matrix_parity` leaves the error count at 0 instead of
raising it to 1. -/
theorem single_flip_meta_parity_uncounted :
    encodeBlock 4 (encode_init [65]) 0 0 ≠ PADDING
      ∧ (decode_matrix_parity 4 (flipCell (encodeBlock 4 (encode_init [65])) 0 0) 0 true).2.1
          = 0
      ∧ ¬ ((decode_matrix_parity 4 (flipCell (encodeBlock 4 (encode_init [65])) 0 0) 0 true).2.1
          = 0 + 1) := by
  decide

/-- C2, amended.  For every valid dimension and every block built by
`encode_matrix_fill` and `encode_matrix_parity`, flipping one cell that is not
`PADDING` and running `decode_matrix_parity` and `decode_matrix_write` yields
the payload of the original block and leaves the correctable flag as it was;
the error count grows by exactly 1 when the flipped cell is a data or parity
cell (and the matrix is then restored exactly), and stays unchanged when the
flipped cell is the meta-parity cell `(0,0)`.  The count is an `int`: the sum
is `toInt32 (errors + 1)`, which is `errors + 1` whenever that is at most
`INT_MAX`. -/
theorem single_flip_corrected (d : Nat) (hd : validDimension d = true) (s : EncState)
    (hb : WellFormed s.buffer) (i j : Nat) (hi : i < d) (hj : j < d)
    (hpad : encodeBlock d s i j ≠ PADDING) (errors : Int) (correctable : Bool)
    (out : Buffer × List Nat) :
    decode_matrix_write d
        (decode_matrix_parity d (flipCell (encodeBlock d s) i j) errors correctable).1 out
      = decode_matrix_write d (encodeBlock d s) out
    ∧ (decode_matrix_parity d (flipCell (encodeBlock d s) i j) errors correctable).2.2
      = correctable
    ∧ (decode_matrix_parity d (flipCell (encodeBlock d s) i j) errors correctable).2.1
      = (if i = 0 ∧ j = 0 then errors else toInt32 (errors + 1))
    ∧ (-2147483648 ≤ errors → errors + 1 ≤ INT_MAX →
        (decode_matrix_parity d (flipCell (encodeBlock d s) i j) errors correctable).2.1
          = (if i = 0 ∧ j = 0 then errors else errors + 1))
    ∧ (¬ (i = 0 ∧ j = 0) →
        (decode_matrix_parity d (flipCell (encodeBlock d s) i j) errors correctable).1
          = encodeBlock d s) := by
  obtain ⟨hsyn, hmeta, hbits⟩ := encoded_block_props d hd s hb
  by_cases h0 : i = 0 ∧ j = 0
  · obtain ⟨rfl, rfl⟩ := h0
    have h := decode_matrix_parity_meta d (encodeBlock d s) (1 - encodeBlock d s 0 0) hsyn
      errors correctable
    have h2 : flipCell (encodeBlock d s) 0 0
        = (encodeBlock d s).set 0 0 (1 - encodeBlock d s 0 0) := rfl
    rw [h2, h]
    refine ⟨?_, rfl, by simp, fun _ _ => by simp, fun hh => absurd ⟨rfl, rfl⟩ hh⟩
    apply decode_matrix_write_congr
    intro a b hab
    have hne : ¬ (a = 0 ∧ b = 0) := by
      rintro ⟨rfl, rfl⟩
      rw [isSkipped_zero_zero] at hab
      cases hab
    simp [Matrix.set, hne]
  · have h := decode_matrix_parity_single d (encodeBlock d s) i j hi hj h0
      (hbits i j hi hj hpad) hsyn hmeta errors correctable
    rw [h]
    refine ⟨rfl, rfl, by simp [h0], fun hlo hhi => ?_, fun _ => rfl⟩
    simp only [h0, if_false]
    exact toInt32_of_range _ (by omega) hhi

/-- C2, amended: the statement at the block of the byte 0x41 with `d = 4`, the
flipped cell being the data cell `(1,1)`. -/
theorem single_flip_corrected_witness :
    decode_matrix_write 4
        (decode_matrix_parity 4 (flipCell (encodeBlock 4 (encode_init [65])) 1 1) 0 true).1
        ( buffer_initialize 8, [])
      = decode_matrix_write 4 (encodeBlock 4 (encode_init [65])) ( buffer_initialize 8, [])
    ∧ (decode_matrix_parity 4 (flipCell (encodeBlock 4 (encode_init [65])) 1 1) 0 true).2.2
      = true
    ∧ (decode_matrix_parity 4 (flipCell (encodeBlock 4 (encode_init [65])) 1 1) 0 true).2.1
      = (if 1 = 0 ∧ 1 = 0 then 0 else toInt32 (0 + 1))
    ∧ (-2147483648 ≤ (0 : Int) → (0 : Int) + 1 ≤ INT_MAX →
        (decode_matrix_parity 4 (flipCell (encodeBlock 4 (encode_init [65])) 1 1) 0 true).2.1
          = (if 1 = 0 ∧ 1 = 0 then 0 else 0 + 1))
    ∧ (¬ (1 = 0 ∧ 1 = 0) →
        (decode_matrix_parity 4 (flipCell (encodeBlock 4 (encode_init [65])) 1 1) 0 true).1
          = encodeBlock 4 (encode_init [65])) :=
  single_flip_corrected 4 (by decide) (encode_init [65]) (by decide) 1 1 (by decide)
    (by decide) (by decide) 0 true ( buffer_initialize 8, [])

/-- C3.  For every valid dimension and every block built by `encode_matrix_fill`
and `encode_matrix_parity`, flipping two distinct cells that are not `PADDING`
and are not the meta-parity cell `(0,0)` makes `decode_matrix_parity` add
exactly 2 to the error count, clear the correctable flag and return the matrix
as received, so that `decode_matrix_write` extracts the payload of the
corrupted block.  The count is an `int`: the sum is `toInt32 (errors + 2)`,
which is `errors + 2` whenever that is at most `INT_MAX`. -/
theorem double_flip_detected (d : Nat) (hd : validDimension d = true) (s : EncState)
    (hb : WellFormed s.buffer) (i1 j1 i2 j2 : Nat)
    (hi1 : i1 < d) (hj1 : j1 < d) (hi2 : i2 < d) (hj2 : j2 < d)
    (h1 : ¬ (i1 = 0 ∧ j1 = 0)) (h2 : ¬ (i2 = 0 ∧ j2 = 0)) (hne : ¬ (i1 = i2 ∧ j1 = j2))
    (hpad1 : encodeBlock d s i1 j1 ≠ PADDING) (hpad2 : encodeBlock d s i2 j2 ≠ PADDING)
    (errors : Int) (correctable : Bool) (out : Buffer × List Nat) :
    decode_matrix_parity d (flipCell (flipCell (encodeBlock d s) i1 j1) i2 j2)
        errors correctable
      = (flipCell (flipCell (encodeBlock d s) i1 j1) i2 j2, toInt32 (errors + 2), false)
    ∧ (-2147483648 ≤ errors → errors + 2 ≤ INT_MAX →
        decode_matrix_parity d (flipCell (flipCell (encodeBlock d s) i1 j1) i2 j2)
            errors correctable
          = (flipCell (flipCell (encodeBlock d s) i1 j1) i2 j2, errors + 2, false))
    ∧ decode_matrix_write d
        (decode_matrix_parity d (flipCell (flipCell (encodeBlock d s) i1 j1) i2 j2)
          errors correctable).1 out
      = decode_matrix_write d (flipCell (flipCell (encodeBlock d s) i1 j1) i2 j2) out := by
  obtain ⟨hsyn, hmeta, hbits⟩ := encoded_block_props d hd s hb
  have hcell : (flipCell (encodeBlock d s) i1 j1) i2 j2 = encodeBlock d s i2 j2 := by
    have : ¬ (i2 = i1 ∧ j2 = j1) := fun h => hne ⟨h.1.symm, h.2.symm⟩
    simp [flipCell, Matrix.set, this]
  have hflip : flipCell (flipCell (encodeBlock d s) i1 j1) i2 j2
      = ((encodeBlock d s).set i1 j1 (1 - encodeBlock d s i1 j1)).set i2 j2
          (1 - encodeBlock d s i2 j2) := by
    show (flipCell (encodeBlock d s) i1 j1).set i2 j2
      (1 - (flipCell (encodeBlock d s) i1 j1) i2 j2) = _
    rw [hcell]
    rfl
  have h := decode_matrix_parity_double d (encodeBlock d s) i1 j1 i2 j2 hi1 hj1 hi2 hj2 h1 h2
    hne (hbits i1 j1 hi1 hj1 hpad1) (hbits i2 j2 hi2 hj2 hpad2) hsyn hmeta errors correctable
  rw [hflip, h]
  refine ⟨rfl, fun hlo hhi => ?_, rfl⟩
  rw [toInt32_of_range _ (by omega) hhi]

/-- C3: the statement at the block of the byte 0x41 with `d = 4`, the flipped
cells being the data cells `(1,1)` and `(2,3)`. -/
theorem double_flip_detected_witness :
    decode_matrix_parity 4 (flipCell (flipCell (encodeBlock 4 (encode_init [65])) 1 1) 2 3)
        0 true
      = (flipCell (flipCell (encodeBlock 4 (encode_init [65])) 1 1) 2 3, toInt32 (0 + 2),
          false)
    ∧ (-2147483648 ≤ (0 : Int) → (0 : Int) + 2 ≤ INT_MAX →
        decode_matrix_parity 4 (flipCell (flipCell (encodeBlock 4 (encode_init [65])) 1 1) 2 3)
            0 true
          = (flipCell (flipCell (encodeBlock 4 (encode_init [65])) 1 1) 2 3, 0 + 2, false))
    ∧ decode_matrix_write 4
        (decode_matrix_parity 4 (flipCell (flipCell (encodeBlock 4 (encode_init [65])) 1 1) 2 3)
          0 true).1 ( buffer_initialize 8, [])
      = decode_matrix_write 4 (flipCell (flipCell (encodeBlock 4 (encode_init [65])) 1 1) 2 3)
          ( buffer_initialize 8, []) :=
  double_flip_detected 4 (by decide) (encode_init [65]) (by decide) 1 1 2 3
    (by decide) (by decide) (by decide) (by decide) (by decide) (by decide) (by decide)
    (by decide) (by decide) 0 true ( buffer_initialize 8, [])

/-! ## Claims C4 and C5: the geometry of a block -/

theorem countP_split {α : Type} (p q r : α → Bool) (l : List α)
    (h : ∀ a, r a = (p a || q a)) (hdis : ∀ a, ¬ (p a = true ∧ q a = true)) :
    l.countP r = l.countP p + l.countP q := by
  induction l with
  | nil => rfl
  | cons a l ih =>
    simp only [List.countP_cons, ih, h a]
    have := hdis a
    cases hp : p a <;> cases hq : q a <;> simp_all <;> omega

theorem numParity_eq (d : Nat) (hd : validDimension d = true) :
    numParity d = 2 * Nat.log2 d + 1 := by
  have key : ∀ e ∈ [2, 4, 8, 16, 32, 64, 128, 256], numParity e = 2 * Nat.log2 e + 1 := by
    decide!
  exact key d (validDimension_cases d hd)

/-- C4, counterexample.  For `d = 4` the fill loop takes 11 cells from the bit
source, not `4*4 - 2*log2(4) = 12`. -/
theorem fill_count_four :
    fillCount 4 = 11 ∧ ¬ (fillCount 4 = 4 * 4 - 2 * Nat.log2 4) := by
  decide!

/-- C4, amended.  For every valid dimension `d` the number of cells that
`encode_matrix_fill` fills from the bit source is `d*d - 2*log2(d) - 1`. -/
theorem fill_count (d : Nat) (hd : validDimension d = true) :
    fillCount d = d * d - 2 * Nat.log2 d - 1 := by
  rw [fillCount_eq]
  exact data_count d hd

/-- C4, amended: the statement at `d = 8`. -/
theorem fill_count_witness : fillCount 8 = 8 * 8 - 2 * Nat.log2 8 - 1 :=
  fill_count 8 (by decide)

/-- C5, counterexample.  For `d = 4` there are 4 parity cells, not
`2*log2(4) - 1 = 3`. -/
theorem parity_count_four :
    countKind 4 CellKind.parity = 4 ∧ ¬ (countKind 4 CellKind.parity = 2 * Nat.log2 4 - 1) := by
  decide!

/-- C5, amended.  For every valid dimension `d` the classification used by the
code splits the `d*d` cells into exactly one meta-parity cell, exactly
`2*log2(d)` parity cells and `d*d - 2*log2(d) - 1` data cells; the value
`numParity` that `encode` reports is the number of parity cells plus one. -/
theorem geometry_partition (d : Nat) (hd : validDimension d = true) :
    countKind d CellKind.metaParity = 1
      ∧ countKind d CellKind.parity = 2 * Nat.log2 d
      ∧ countKind d CellKind.data = d * d - 2 * Nat.log2 d - 1
      ∧ countKind d CellKind.metaParity + countKind d CellKind.parity
          + countKind d CellKind.data = d * d
      ∧ numParity d = countKind d CellKind.parity + countKind d CellKind.metaParity := by
  have hmeta : countKind d CellKind.metaParity = 1 := by
    rw [countKind_eq, ← meta_count d hd]
    apply List.countP_congr
    intro c _
    unfold classify
    by_cases h0 : c.1 = 0 ∧ c.2 = 0
    · simp [h0]
    · by_cases hs : isSkipped c.1 c.2 = true <;> simp [h0, hs]
  have hdata : countKind d CellKind.data = d * d - 2 * Nat.log2 d - 1 := by
    rw [countKind_eq, ← data_count d hd]
    apply List.countP_congr
    intro c _
    unfold classify
    by_cases h0 : c.1 = 0 ∧ c.2 = 0
    · simp [h0, isSkipped_zero_zero]
    · by_cases hs : isSkipped c.1 c.2 = true <;> simp [h0, hs]
  have hsplit : (cells d).countP (fun c => isSkipped c.1 c.2)
      = countKind d CellKind.metaParity + countKind d CellKind.parity := by
    rw [countKind_eq, countKind_eq]
    apply countP_split
    · intro c
      unfold classify
      by_cases h0 : c.1 = 0 ∧ c.2 = 0
      · simp [h0, isSkipped_zero_zero]
      · by_cases hs : isSkipped c.1 c.2 = true <;> simp [h0, hs]
    · intro c
      by_cases h0 : classify c.1 c.2 = CellKind.metaParity <;> simp [h0]
  rw [skipped_count d hd] at hsplit
  have hsq : 2 * Nat.log2 d + 1 ≤ d * d := by
    have h1 := countP_not_add (fun c : Nat × Nat => isSkipped c.1 c.2) (cells d)
    rw [skipped_count d hd, cells_length] at h1
    omega
  have hnum := numParity_eq d hd
  refine ⟨hmeta, by omega, hdata, by omega, by omega⟩

/-- C5, amended: the statement at `d = 8`. -/
theorem geometry_partition_witness :
    countKind 8 CellKind.metaParity = 1
      ∧ countKind 8 CellKind.parity = 2 * Nat.log2 8
      ∧ countKind 8 CellKind.data = 8 * 8 - 2 * Nat.log2 8 - 1
      ∧ countKind 8 CellKind.metaParity + countKind 8 CellKind.parity
          + countKind 8 CellKind.data = 8 * 8
      ∧ numParity 8 = countKind 8 CellKind.parity + countKind 8 CellKind.metaParity :=
  geometry_partition 8 (by decide)

/-! ## Claim C10: byte reassembly -/

/-- C10.  Over a decode session, with `p` the values of the data cells that are
not `PADDING`, taken block by block in row-major order, the calls of
`decode_matrix_write` with the persistent 8-slot buffer write exactly
`floor(|p|/8)` bytes, the `k`-th being the byte that `binaryToChar` builds from
`p[8k], …, p[8k+7]`, which for bits is the number with these binary digits,
first bit most significant; the last `|p| mod 8` values stay in the buffer and
are not written.  The bytes that `decode` writes for a text are those of the
session of the matrices of its iterations. -/
theorem byte_reassembly (d : Nat) (ms : List Matrix) :
    (decode_session_write d ms ( buffer_initialize 8, [])).2
        = (List.range ((sessionPayload d ms).length / 8)).map
            (fun k => byteOfGroup (group (sessionPayload d ms) k))
      ∧ (decode_session_write d ms ( buffer_initialize 8, [])).2.length
          = (sessionPayload d ms).length / 8
      ∧ (decode_session_write d ms ( buffer_initialize 8, [])).1.size
          = (sessionPayload d ms).length % 8
      ∧ (∀ k, k < (sessionPayload d ms).length / 8 →
          (∀ v ∈ group (sessionPayload d ms) k, v = 0 ∨ v = 1) →
          (decode_session_write d ms ( buffer_initialize 8, [])).2[k]?
            = some (packByte (group (sessionPayload d ms) k)))
      ∧ ∀ text out errors correctable, decode d text = some (out, errors, correctable) →
          out = (List.range
                  ((sessionPayload d
                    (decode_matrices d (text.length + 1) (decode_init text))).length / 8)).map
                (fun k => byteOfGroup (group
                  (sessionPayload d (decode_matrices d (text.length + 1) (decode_init text)))
                  k)) := by
  have main : ∀ ms : List Matrix,
      (decode_session_write d ms ( buffer_initialize 8, [])).2
          = (List.range ((sessionPayload d ms).length / 8)).map
              (fun k => byteOfGroup (group (sessionPayload d ms) k))
        ∧ (decode_session_write d ms ( buffer_initialize 8, [])).1.size
          = (sessionPayload d ms).length % 8 := by
    intro ms
    obtain ⟨h1, h2, h3⟩ := decode_session_write_feed d ms ( buffer_initialize 8) [] []
      rfl rfl (by decide) rfl
    rw [feedBit_spec] at h3
    have hout := congrArg Prod.snd h3
    have hacc := congrArg Prod.fst h3
    simp only at hout hacc
    refine ⟨hout, ?_⟩
    have := congrArg List.length hacc
    rw [List.length_take, List.length_drop, h1] at this
    omega
  obtain ⟨hout, hsize⟩ := main ms
  refine ⟨hout, by rw [hout]; simp, hsize, ?_, ?_⟩
  · intro k hk hbits
    rw [hout, List.getElem?_map, List.getElem?_range hk]
    simp only [Option.map_some']
    rw [byteOfGroup_bits _ _ hbits]
    unfold group
    rw [List.length_take, List.length_drop]
    omega
  · intro text out errors correctable h
    rw [decode_output_session d text out errors correctable h]
    exact (main _).1

/-- C10: the statement at the session that decodes the block of the byte 0x41
with `d = 4`; the byte written is 0x41. -/
theorem byte_reassembly_witness :
    (decode_session_write 4 [encodeBlock 4 (encode_init [65])] ( buffer_initialize 8, [])).2[0]?
        = some (packByte (group (sessionPayload 4 [encodeBlock 4 (encode_init [65])]) 0))
      ∧ packByte (group (sessionPayload 4 [encodeBlock 4 (encode_init [65])]) 0) = 65 :=
  ⟨(byte_reassembly 4 [encodeBlock 4 (encode_init [65])]).2.2.2.1 0 (by decide) (by decide),
    by decide⟩

/-! ## Claims C1, C7, C8, C9: sessions of `encode` and `decode` -/

/-- C1, failing input.  With `d = 4` the one-byte input 0xFF is encoded as the
parity-only block `00000`, the same text as for the empty input, and decoding
that text writes no byte: `buffer_dequeue` stores the byte in a `char` and
takes the value `-1` for `EOF`. -/
theorem round_trip_loses_0xFF :
    encode 4 [255] = some "00000".toList
      ∧ encode 4 [] = some "00000".toList
      ∧ decode 4 "00000".toList = some ([], 0, true)
      ∧ (buffer_dequeue (encode_init [255]).buffer (encode_init [255]).input).1 = PADDING := by
  decide

/-- C7, failing input.  With `d = 8` and the one-byte input 0xFF every one of
the 57 data cells is filled with `PADDING`, the text written is the 7 parity
characters alone, and decoding it writes no byte. -/
theorem padding_scenario_0xFF :
    dataValues 8 (encode_matrix_fill 8 (encode_init [255])).matrix = List.replicate 57 PADDING
      ∧ encode 8 [255] = some "0000000".toList
      ∧ decode 8 "0000000".toList = some ([], 0, true) := by
  decide!

/-- C8, failing input.  With `d = 4` and the input byte 0x41, `encode_matrix_fill`
places the bits 0,1,0,0,0,0,0,1 in order in the first 8 of the 11 data cells
taken in row-major order and `PADDING` in the last 3, and `encode` writes the
13-character text `0100101000001` (5 parity characters, then the 8 bits), not
16 characters.  Reading that text back, `decode_matrix_fill` reads the last
character, the bit 1 of the cell `(3,0)`, and then stores `PADDING` over it,
because `fscanf` has read ahead to the end of the text and `feof` holds;
`decode_matrix_parity` takes the missing 1 for a single error and turns the
cell into `-2`; `decode` writes the byte 0xFE with an error count of 1, not the
byte 0x41. -/
theorem scenario_0x41 :
    dataCells 4
        = [(0, 3), (1, 1), (1, 2), (1, 3), (2, 1), (2, 2), (2, 3), (3, 0), (3, 1), (3, 2), (3, 3)]
      ∧ dataValues 4 (encode_matrix_fill 4 (encode_init [65])).matrix
        = [0, 1, 0, 0, 0, 0, 0, 1, -1, -1, -1]
      ∧ encode 4 [65] = some "0100101000001".toList
      ∧ (encode 4 [65]).map List.length = some 13
      ∧ encodeBlock 4 (encode_init [65]) 3 0 = 1
      ∧ (decode_matrix_fill 4 ( matrix_initialize, File.open "0100101000001".toList)).1 3 0
        = PADDING
      ∧ (decode_block 4 (decode_init "0100101000001".toList)).matrix 3 0 = -2
      ∧ decode 4 "0100101000001".toList = some ([254], 1, true) := by
  decide!

/-- C9, counterexample.  For the empty input and `d = 4`, `encode` writes one
block, `00000`, which consists of its `2*log2(4) + 1 = 5` parity and
meta-parity characters only. -/
theorem empty_input_parity_only_block :
    encode_blocks 4 [] = some ["00000".toList]
      ∧ ¬ (∀ blk ∈ ["00000".toList], 2 * Nat.log2 4 + 1 < blk.length) := by
  decide!

/-- C9, amended.  For every valid dimension `d`, with `P = d*d - 2*log2(d) - 1`
data cells per block, and every input of `n` bytes none of which is 0xFF,
`encode` writes at least one block; every block but the last carries at least
one payload bit, and the last block carries `8n mod P` payload bits, so it
consists of its parity and meta-parity characters alone exactly when `8n` is a
multiple of `P` (in particular for the empty input). -/
theorem blocks_payload (d : Nat) (hd : validDimension d = true) (input : List Nat)
    (hin : ∀ x ∈ input, x < 255) :
    ∃ blocks last, encode_blocks d input = some (blocks ++ [last])
      ∧ (∀ blk ∈ blocks, 2 * Nat.log2 d + 1 < blk.length)
      ∧ last.length
        = 2 * Nat.log2 d + 1 + 8 * input.length % (d * d - 2 * Nat.log2 d - 1)
      ∧ (last.length = 2 * Nat.log2 d + 1
          ↔ (d * d - 2 * Nat.log2 d - 1) ∣ 8 * input.length) := by
  obtain ⟨all, hall, hlens⟩ := encode_blocks_lengths d hd input hin
  have hP : 0 < d * d - 2 * Nat.log2 d - 1 := by
    rw [← dataCells_length d hd]
    exact dataCells_length_pos d hd
  have hne : all ≠ [] := by
    intro h
    rw [h] at hlens
    simp at hlens
  have hsplit : all = all.dropLast ++ [all.getLast hne] := (List.dropLast_append_getLast hne).symm
  rw [hsplit, List.map_append] at hlens
  have hinj := List.append_inj' hlens (by simp)
  refine ⟨all.dropLast, all.getLast hne, by rw [hall, ← hsplit], ?_, ?_, ?_⟩
  · intro blk hblk
    have hmem : blk.length ∈ List.map List.length all.dropLast := List.mem_map_of_mem _ hblk
    rw [hinj.1] at hmem
    have := (List.mem_replicate.mp hmem).2
    omega
  · have := hinj.2
    simpa using this
  · have h2 : (all.getLast hne).length
        = 2 * Nat.log2 d + 1 + 8 * input.length % (d * d - 2 * Nat.log2 d - 1) := by
      have := hinj.2
      simpa using this
    rw [h2, Nat.dvd_iff_mod_eq_zero]
    omega

/-- C9, amended: the statement at the input byte 0x41 with `d = 4`. -/
theorem blocks_payload_witness :
    ∃ blocks last, encode_blocks 4 [65] = some (blocks ++ [last])
      ∧ (∀ blk ∈ blocks, 2 * Nat.log2 4 + 1 < blk.length)
      ∧ last.length = 2 * Nat.log2 4 + 1 + 8 * [65].length % (4 * 4 - 2 * Nat.log2 4 - 1)
      ∧ (last.length = 2 * Nat.log2 4 + 1 ↔ (4 * 4 - 2 * Nat.log2 4 - 1) ∣ 8 * [65].length) :=
  blocks_payload 4 (by decide) [65] (by decide)

/-! ## Reading a block back: `decode_matrix_fill` on the text of a block -/

theorem fscanf_1d_bit (v : Int) (hv : v = 0 ∨ v = 1) (t : List Char) (e : Bool) :
    fscanf_1d { data := bitChar v :: t, eof := e }
      = (some v, { data := t, eof := e || t.isEmpty }) := by
  rcases hv with h | h <;> subst h <;> rfl

theorem fscanf_1d_end (e : Bool) :
    fscanf_1d { data := [], eof := e } = (none, { data := [], eof := true }) := rfl

theorem scan_cell_bit (m : Matrix) (i j : Nat) (v : Int) (hv : v = 0 ∨ v = 1) (t : List Char)
    (e : Bool) :
    scan_cell (m, { data := bitChar v :: t, eof := e }) i j
      = (m.set i j v, { data := t, eof := e || t.isEmpty }) := by
  unfold scan_cell
  simp only [fscanf_1d_bit v hv t e]

theorem foldl_filter_eq {α σ : Type} (p : α → Bool) (f : σ → α → σ) (l : List α) (s : σ) :
    l.foldl (fun s a => if p a = true then f s a else s) s = (l.filter p).foldl f s := by
  induction l generalizing s with
  | nil => rfl
  | cons a l ih =>
    simp only [List.foldl_cons, List.filter_cons]
    split
    · simp [ih]
    · exact ih s

/-- Scanning the characters of the bits that `e` holds in the cells `cs` stores
these bits in the cells `cs` and leaves the rest of the text unread; the
end-of-file indicator is set when a cell was read and no text is left. -/
theorem scan_cells_spec (e : Matrix) (cs : List (Nat × Nat))
    (hbits : ∀ c ∈ cs, e c.1 c.2 = 0 ∨ e c.1 c.2 = 1) (m : Matrix) (t : List Char)
    (e0 : Bool) :
    ∃ m2, cs.foldl (fun s c => scan_cell s c.1 c.2)
          (m, { data := cs.map (fun c => bitChar (e c.1 c.2)) ++ t, eof := e0 })
        = (m2, { data := t, eof := e0 || (!cs.isEmpty && t.isEmpty) })
      ∧ ∀ a b, ((a, b) ∈ cs → m2 a b = e a b) ∧ ((a, b) ∉ cs → m2 a b = m a b) := by
  induction cs generalizing m e0 with
  | nil =>
    refine ⟨m, ?_, fun a b => ⟨fun h => (by cases h), fun _ => rfl⟩⟩
    simp
  | cons c cs ih =>
    have hc := hbits c (List.mem_cons_self _ _)
    obtain ⟨m2, h1, h2⟩ := ih (fun x hx => hbits x (List.mem_cons_of_mem _ hx))
      (m.set c.1 c.2 (e c.1 c.2))
      (e0 || (cs.map (fun c => bitChar (e c.1 c.2)) ++ t).isEmpty)
    refine ⟨m2, ?_, ?_⟩
    · simp only [List.map_cons, List.cons_append, List.foldl_cons]
      rw [scan_cell_bit m c.1 c.2 _ hc, h1]
      cases cs with
      | nil => simp
      | cons c2 cs2 => simp
    · intro a b
      constructor
      · intro hmem
        by_cases hin : (a, b) ∈ cs
        · exact (h2 a b).1 hin
        · have hab : (a, b) = c := by
            rcases List.mem_cons.mp hmem with h | h
            · exact h
            · exact absurd h hin
          rw [(h2 a b).2 hin]
          subst hab
          simp [Matrix.set]
      · intro hnot
        have h3 : (a, b) ∉ cs := fun h => hnot (List.mem_cons_of_mem _ h)
        have h4 : ¬ (a = c.1 ∧ b = c.2) := by
          rintro ⟨rfl, rfl⟩
          exact hnot (List.mem_cons_self _ _)
        rw [(h2 a b).2 h3]
        simp [Matrix.set, h4]

theorem unskipped_cons_skipped (c : Nat × Nat) (cs : List (Nat × Nat))
    (h : isSkipped c.1 c.2 = true) : unskipped (c :: cs) = unskipped cs := by
  simp [unskipped, List.filter_cons, h]

theorem unskipped_cons_data (c : Nat × Nat) (cs : List (Nat × Nat))
    (h : isSkipped c.1 c.2 = false) : unskipped (c :: cs) = c :: unskipped cs := by
  simp [unskipped, List.filter_cons, h]

/-- The data loops of `decode_matrix_fill` on the text of the data section of a
block without padding, when more text follows: the bits are stored in the data
cells and the end of the text is not reached. -/
theorem decode_fill_cells_full (e : Matrix) (cs : List (Nat × Nat))
    (hbits : ∀ c ∈ unskipped cs, e c.1 c.2 = 0 ∨ e c.1 c.2 = 1)
    (m : Matrix) (rest : List Char) (hrest : rest ≠ []) :
    ∃ m2, cs.foldl (fun s c => decode_fill_step s c.1 c.2)
          (m, { data := (unskipped cs).map (fun c => bitChar (e c.1 c.2)) ++ rest,
                eof := false })
        = (m2, { data := rest, eof := false })
      ∧ ∀ a b, ((a, b) ∈ unskipped cs → m2 a b = e a b)
          ∧ ((a, b) ∉ unskipped cs → m2 a b = m a b) := by
  induction cs generalizing m with
  | nil =>
    exact ⟨m, rfl, fun a b => ⟨fun h => (by cases h), fun _ => rfl⟩⟩
  | cons c cs ih =>
    by_cases hs : isSkipped c.1 c.2 = true
    · rw [unskipped_cons_skipped c cs hs] at hbits ⊢
      have hstep : ∀ s, decode_fill_step s c.1 c.2 = s := by
        intro s
        simp [decode_fill_step, hs]
      simp only [List.foldl_cons, hstep]
      exact ih hbits m
    · have hs2 : isSkipped c.1 c.2 = false := by simpa using hs
      rw [unskipped_cons_data c cs hs2] at hbits ⊢
      have hv := hbits c (List.mem_cons_self _ _)
      have hne : ((unskipped cs).map (fun c => bitChar (e c.1 c.2)) ++ rest).isEmpty = false := by
        cases hl : (unskipped cs).map (fun c => bitChar (e c.1 c.2)) ++ rest with
        | nil =>
          have := (List.append_eq_nil.mp hl).2
          exact absurd this hrest
        | cons x xs => rfl
      have hstep : decode_fill_step
          (m, { data := bitChar (e c.1 c.2)
                  :: ((unskipped cs).map (fun c => bitChar (e c.1 c.2)) ++ rest),
                eof := false }) c.1 c.2
          = (m.set c.1 c.2 (e c.1 c.2),
              { data := (unskipped cs).map (fun c => bitChar (e c.1 c.2)) ++ rest,
                eof := false }) := by
        simp [decode_fill_step, hs, scan_cell_bit m c.1 c.2 _ hv, hne]
      obtain ⟨m2, h1, h2⟩ := ih (fun x hx => hbits x (List.mem_cons_of_mem _ hx))
        (m.set c.1 c.2 (e c.1 c.2))
      refine ⟨m2, ?_, ?_⟩
      · simp only [List.map_cons, List.cons_append, List.foldl_cons, hstep]
        exact h1
      · intro a b
        constructor
        · intro hmem
          by_cases hin : (a, b) ∈ unskipped cs
          · exact (h2 a b).1 hin
          · have hab : (a, b) = c := by
              rcases List.mem_cons.mp hmem with h | h
              · exact h
              · exact absurd h hin
            rw [(h2 a b).2 hin]
            subst hab
            simp [Matrix.set]
        · intro hnot
          have h3 : (a, b) ∉ unskipped cs := fun h => hnot (List.mem_cons_of_mem _ h)
          have h4 : ¬ (a = c.1 ∧ b = c.2) := by
            rintro ⟨rfl, rfl⟩
            exact hnot (List.mem_cons_self _ _)
          rw [(h2 a b).2 h3]
          simp [Matrix.set, h4]

/-- The data loops of `decode_matrix_fill` at the end of the text, with the
end-of-file indicator set: every data cell gets `PADDING`. -/
theorem decode_fill_cells_end (cs : List (Nat × Nat)) (m : Matrix) :
    ∃ m2, cs.foldl (fun s c => decode_fill_step s c.1 c.2) (m, { data := [], eof := true })
        = (m2, { data := [], eof := true })
      ∧ ∀ a b, ((a, b) ∈ unskipped cs → m2 a b = -1)
          ∧ ((a, b) ∉ unskipped cs → m2 a b = m a b) := by
  induction cs generalizing m with
  | nil =>
    exact ⟨m, rfl, fun a b => ⟨fun h => (by cases h), fun _ => rfl⟩⟩
  | cons c cs ih =>
    by_cases hs : isSkipped c.1 c.2 = true
    · rw [unskipped_cons_skipped c cs hs]
      have hstep : ∀ s, decode_fill_step s c.1 c.2 = s := by
        intro s
        simp [decode_fill_step, hs]
      simp only [List.foldl_cons, hstep]
      exact ih m
    · have hs2 : isSkipped c.1 c.2 = false := by simpa using hs
      rw [unskipped_cons_data c cs hs2]
      have hstep : decode_fill_step (m, { data := [], eof := true }) c.1 c.2
          = (m.set c.1 c.2 (-1), { data := [], eof := true }) := by
        simp [decode_fill_step, hs, scan_cell, fscanf_1d_end]
      obtain ⟨m2, h1, h2⟩ := ih (m.set c.1 c.2 (-1))
      refine ⟨m2, ?_, ?_⟩
      · simp only [List.foldl_cons, hstep]
        exact h1
      · intro a b
        constructor
        · intro hmem
          by_cases hin : (a, b) ∈ unskipped cs
          · exact (h2 a b).1 hin
          · have hab : (a, b) = c := by
              rcases List.mem_cons.mp hmem with h | h
              · exact h
              · exact absurd h hin
            rw [(h2 a b).2 hin]
            subst hab
            simp [Matrix.set]
        · intro hnot
          have h3 : (a, b) ∉ unskipped cs := fun h => hnot (List.mem_cons_of_mem _ h)
          have h4 : ¬ (a = c.1 ∧ b = c.2) := by
            rintro ⟨rfl, rfl⟩
            exact hnot (List.mem_cons_self _ _)
          rw [(h2 a b).2 h3]
          simp [Matrix.set, h4]

theorem wireCells_split (d : Nat) (hd : validDimension d = true) :
    wireCells d
      = ((List.range d).filter (fun j => decide ((j &&& (j - 1)) = 0))).map (fun j => (0, j))
        ++ ((List.range' 1 (d - 1)).filter (fun i => decide ((i &&& (i - 1)) = 0))).map
            (fun i => (i, 0)) := by
  rw [row_parity_positions d hd, column_parity_positions d hd]
  simp only [wireCells, List.map_cons, List.map_map, List.cons_append]
  rfl

theorem skipped_mem_wireCells (d : Nat) (hd : validDimension d = true) (a b : Nat)
    (ha : a < d) (hb : b < d) (hs : isSkipped a b = true) : (a, b) ∈ wireCells d := by
  rw [wireCells_split d hd]
  simp only [isSkipped, Bool.or_eq_true, Bool.and_eq_true, beq_iff_eq] at hs
  simp only [List.mem_append, List.mem_map, List.mem_filter, List.mem_range,
    decide_eq_true_eq, Prod.mk.injEq]
  by_cases ha0 : a = 0
  · subst ha0
    left
    rcases hs with h | h
    · exact ⟨b, ⟨hb, h.2⟩, rfl, rfl⟩
    · refine ⟨b, ⟨hb, ?_⟩, rfl, rfl⟩
      rw [h.1]
      rfl
  · right
    rcases hs with h | h
    · exact absurd h.1 ha0
    · refine ⟨a, ⟨?_, h.2⟩, rfl, h.1.symm⟩
      rw [List.mem_range'_1]
      omega

theorem encode_matrix_write_chunk (d : Nat) (hd : validDimension d = true) (e : Matrix)
    (he : BlockCells d e) (chunk : List Int) (hchunk : ∀ v ∈ chunk, v = 0 ∨ v = 1)
    (hvals : dataValues d e
      = chunk ++ List.replicate ((dataCells d).length - chunk.length) (-1)) :
    encode_matrix_write d e
      = (wireCells d).map (fun c => bitChar (e c.1 c.2)) ++ chunk.map bitChar := by
  rw [(wire_format d hd e he).1, hvals]
  congr 2
  apply takeWhile_append_replicate
  · intro v hv
    rcases hchunk v hv with h | h <;> subst h <;> decide
  · decide

/-- The two parity loops of `decode_matrix_fill` on the parity characters of a
block: the cells that the fill skips get the bits of `e`, and the end-of-file
indicator is set when no text follows. -/
theorem decode_matrix_fill_parity (d : Nat) (hd : validDimension d = true) (e : Matrix)
    (he : BlockCells d e) (m : Matrix) (t : List Char) :
    ∃ m1, decode_matrix_fill d
          (m, { data := (wireCells d).map (fun c => bitChar (e c.1 c.2)) ++ t, eof := false })
        = forCells d decode_fill_step (m1, { data := t, eof := t.isEmpty })
      ∧ ∀ a b, ((a, b) ∈ wireCells d → m1 a b = e a b)
          ∧ ((a, b) ∉ wireCells d → m1 a b = m a b) := by
  have hwbits : ∀ c ∈ wireCells d, e c.1 c.2 = 0 ∨ e c.1 c.2 = 1 := by
    intro c hc
    obtain ⟨ha, hb, hs⟩ := wireCells_skipped d hd c hc
    have := he c.1 c.2 ha hb
    simpa [hs] using this
  have hsplit := wireCells_split d hd
  have hne : (wireCells d).isEmpty = false := by
    cases hw : wireCells d with
    | nil =>
      have := wireCells_length d
      rw [hw] at this
      simp at this
    | cons x xs => rfl
  obtain ⟨m1, h1, p1⟩ := scan_cells_spec e (wireCells d) hwbits m t false
  refine ⟨m1, ?_, p1⟩
  unfold decode_matrix_fill
  simp only
  have e1 := foldl_filter_eq (fun j => decide ((j &&& (j - 1)) = 0))
    (fun (s : Matrix × File Char) j => scan_cell s 0 j) (List.range d)
  have e2 := foldl_filter_eq (fun i => decide ((i &&& (i - 1)) = 0))
    (fun (s : Matrix × File Char) i => scan_cell s i 0) (List.range' 1 (d - 1))
  simp only [decide_eq_true_eq] at e1 e2
  rw [e1, e2]
  have f1 : ∀ s : Matrix × File Char,
      ((List.range d).filter (fun j => decide ((j &&& (j - 1)) = 0))).foldl
          (fun s j => scan_cell s 0 j) s
        = (((List.range d).filter (fun j => decide ((j &&& (j - 1)) = 0))).map
            (fun j => ((0 : Nat), j))).foldl (fun s c => scan_cell s c.1 c.2) s := by
    intro s
    rw [List.foldl_map]
  have f2 : ∀ s : Matrix × File Char,
      ((List.range' 1 (d - 1)).filter (fun i => decide ((i &&& (i - 1)) = 0))).foldl
          (fun s i => scan_cell s i 0) s
        = (((List.range' 1 (d - 1)).filter (fun i => decide ((i &&& (i - 1)) = 0))).map
            (fun i => (i, (0 : Nat)))).foldl (fun s c => scan_cell s c.1 c.2) s := by
    intro s
    rw [List.foldl_map]
  rw [f1, f2, ← List.foldl_append, ← hsplit, h1, hne]
  simp

/-- The cells of the matrix after the parity loops and the data loops. -/
theorem decode_matrix_fill_cells (d : Nat) (hd : validDimension d = true) (e m m1 m2 : Matrix)
    (p1 : ∀ a b, ((a, b) ∈ wireCells d → m1 a b = e a b)
      ∧ ((a, b) ∉ wireCells d → m1 a b = m a b))
    (p2 : ∀ a b, ((a, b) ∈ unskipped (cells d) → m2 a b = e a b)
      ∧ ((a, b) ∉ unskipped (cells d) → m2 a b = m1 a b)) :
    ∀ a b, a < d → b < d → m2 a b = e a b := by
  intro a b ha hb
  by_cases hs : isSkipped a b = true
  · have hnot : (a, b) ∉ unskipped (cells d) := by
      intro h
      have := (List.mem_filter.mp h).2
      simp [hs] at this
    rw [(p2 a b).2 hnot]
    exact (p1 a b).1 (skipped_mem_wireCells d hd a b ha hb hs)
  · have hs2 : isSkipped a b = false := by simpa using hs
    exact (p2 a b).1 (mem_dataCells.mpr ⟨ha, hb, hs2⟩)

/-- The function `decode_matrix_fill` on the text of a block without padding,
when more text follows: every cell of the block is read back and the end of
the text is not reached. -/
theorem decode_matrix_fill_full (d : Nat) (hd : validDimension d = true) (e : Matrix)
    (he : BlockCells d e) (hdata : ∀ v ∈ dataValues d e, v = 0 ∨ v = 1)
    (m : Matrix) (rest : List Char) (hrest : rest ≠ []) :
    ∃ m2, decode_matrix_fill d (m, { data := encode_matrix_write d e ++ rest, eof := false })
        = (m2, { data := rest, eof := false })
      ∧ ∀ a b, a < d → b < d → m2 a b = e a b := by
  have hvals : dataValues d e
      = dataValues d e
        ++ List.replicate ((dataCells d).length - (dataValues d e).length) (-1) := by
    have : (dataValues d e).length = (dataCells d).length := by simp [dataValues]
    rw [this, Nat.sub_self]
    simp
  have hw := encode_matrix_write_chunk d hd e he (dataValues d e) hdata hvals
  obtain ⟨m1, h1, p1⟩ := decode_matrix_fill_parity d hd e he m
    ((dataValues d e).map bitChar ++ rest)
  have hbits : ∀ c ∈ unskipped (cells d), e c.1 c.2 = 0 ∨ e c.1 c.2 = 1 := by
    intro c hc
    exact hdata _ (List.mem_map_of_mem (fun c => e c.1 c.2) hc)
  obtain ⟨m2, h2, p2⟩ := decode_fill_cells_full e (cells d) hbits m1 rest hrest
  refine ⟨m2, ?_, decode_matrix_fill_cells d hd e m m1 m2 p1 p2⟩
  have hne : ((dataValues d e).map bitChar ++ rest).isEmpty = false := by
    cases hl : (dataValues d e).map bitChar ++ rest with
    | nil => exact absurd (List.append_eq_nil.mp hl).2 hrest
    | cons x xs => rfl
  rw [hw, List.append_assoc, h1, hne, forCells_eq_foldl_cells]
  have hmap : (dataValues d e).map bitChar
      = (unskipped (cells d)).map (fun c => bitChar (e c.1 c.2)) := by
    simp [dataValues, dataCells, unskipped, List.map_map, Function.comp]
  rw [hmap]
  exact h2

/-- The function `decode_matrix_fill` on the text of a block whose data cells
all hold `PADDING`, at the end of the text: every cell of the block is read
back and the end-of-file indicator is set. -/
theorem decode_matrix_fill_end (d : Nat) (hd : validDimension d = true) (e : Matrix)
    (he : BlockCells d e) (hdata : ∀ v ∈ dataValues d e, v = -1) (m : Matrix) :
    ∃ m2, decode_matrix_fill d (m, { data := encode_matrix_write d e, eof := false })
        = (m2, { data := [], eof := true })
      ∧ ∀ a b, a < d → b < d → m2 a b = e a b := by
  have hvals : dataValues d e
      = ([] : List Int) ++ List.replicate ((dataCells d).length - ([] : List Int).length) (-1) := by
    have hlen : (dataValues d e).length = (dataCells d).length := by simp [dataValues]
    rw [List.nil_append, List.length_nil, Nat.sub_zero, ← hlen]
    exact List.eq_replicate_of_mem hdata
  have hw := encode_matrix_write_chunk d hd e he [] (by intro v hv; cases hv) hvals
  obtain ⟨m1, h1, p1⟩ := decode_matrix_fill_parity d hd e he m []
  obtain ⟨m2, h2, p2⟩ := decode_fill_cells_end (cells d) m1
  have p2e : ∀ a b, ((a, b) ∈ unskipped (cells d) → m2 a b = e a b)
      ∧ ((a, b) ∉ unskipped (cells d) → m2 a b = m1 a b) := by
    intro a b
    refine ⟨fun h => ?_, (p2 a b).2⟩
    rw [(p2 a b).1 h]
    exact (hdata _ (List.mem_map_of_mem (fun c => e c.1 c.2) h)).symm
  refine ⟨m2, ?_, decode_matrix_fill_cells d hd e m m1 m2 p1 p2e⟩
  rw [hw]
  simp only [List.map_nil] at h1 ⊢
  rw [h1, forCells_eq_foldl_cells]
  exact h2

/-! ## Decoding the text of one block -/

theorem decode_parity_scan_congr (d : Nat) (m m2 : Matrix)
    (h : ∀ a b, a < d → b < d → m a b = m2 a b) :
    decode_parity_scan d m = decode_parity_scan d m2 := by
  rw [decode_parity_scan_eq, decode_parity_scan_eq]
  have hfun : ∀ n < d * d, onesD d m n = onesD d m2 n := by
    intro n hn
    have hd : 0 < d := by
      rcases Nat.eq_zero_or_pos d with h0 | h0
      · subst h0; simp at hn
      · exact h0
    unfold onesD Matrix.at
    rw [h (n / d) (n % d) (Nat.div_lt_of_lt_mul hn) (Nat.mod_lt _ hd)]
  rw [xorIdx_congr hfun, xorCnt_congr hfun]

theorem forCells_congr {σ : Type} (d : Nat) (f g : σ → Nat → Nat → σ)
    (h : ∀ s i j, i < d → j < d → f s i j = g s i j) (s : σ) :
    forCells d f s = forCells d g s := by
  rw [forCells_eq_foldl_cells, forCells_eq_foldl_cells]
  apply List.foldl_ext
  intro s c hc
  exact h s c.1 c.2 (mem_cells.mp hc).1 (mem_cells.mp hc).2

theorem decode_matrix_write_congr_range (d : Nat) (m m2 : Matrix)
    (h : ∀ a b, a < d → b < d → m a b = m2 a b) (s : Buffer × List Nat) :
    decode_matrix_write d m s = decode_matrix_write d m2 s := by
  unfold decode_matrix_write
  apply forCells_congr
  intro s i j hi hj
  unfold decode_write_step
  rw [h i j hi hj]

theorem filter_bits_append_padding (chunk : List Int) (n : Nat)
    (hchunk : ∀ v ∈ chunk, v = 0 ∨ v = 1) :
    (chunk ++ List.replicate n (-1)).filter (fun v => decide (v ≠ PADDING)) = chunk := by
  rw [List.filter_append]
  have h1 : chunk.filter (fun v => decide (v ≠ PADDING)) = chunk := by
    apply List.filter_eq_self.mpr
    intro v hv
    rcases hchunk v hv with h | h <;> subst h <;> decide
  have h2 : (List.replicate n (-1 : Int)).filter (fun v => decide (v ≠ PADDING)) = [] := by
    apply List.filter_eq_nil_iff.mpr
    intro v hv
    rw [(List.mem_replicate.mp hv).2]
    decide
  rw [h1, h2, List.append_nil]

theorem encodeBlock_dataValues (d : Nat) (hd : validDimension d = true) (s : EncState)
    (hb : WellFormed s.buffer) (hf : NoFF s.input) :
    dataValues d (encodeBlock d s)
      = (pending s.buffer s.input).take (dataCells d).length
        ++ List.replicate
            ((dataCells d).length - ((pending s.buffer s.input).take (dataCells d).length).length)
            (-1) := by
  rw [dataValues_encodeBlock d hd s hb]
  have hvals := (fillCells_values (cells d) (cells_nodup d) s hb hf).1
  rw [← encode_matrix_fill_eq_fillCells] at hvals
  have hun : unskipped (cells d) = dataCells d := rfl
  rw [hun] at hvals
  have hlen : (dataCells d).length - ((pending s.buffer s.input).take (dataCells d).length).length
      = (dataCells d).length - (pending s.buffer s.input).length := by
    rw [List.length_take]
    omega
  rw [hlen]
  exact hvals

/-- One iteration of the loop of `decode` when `decode_matrix_fill` reads back
the block that `encode` built from the state `s`. -/
theorem decode_block_of_fill (d : Nat) (hd : validDimension d = true) (s : EncState)
    (hb : WellFormed s.buffer) (hf : NoFF s.input) (t : DecState) (acc : List Int)
    (m2 : Matrix) (f2 : File Char)
    (hfill : decode_matrix_fill d (t.matrix, t.input) = (m2, f2))
    (hm2 : ∀ a b, a < d → b < d → m2 a b = encodeBlock d s a b)
    (hcap : t.buffer.capacity = 8) (hlen : t.buffer.buffer.length = 8)
    (hsize : t.buffer.size < 8) (hacc : t.buffer.buffer.take t.buffer.size = acc) :
    (decode_block d t).input = f2
      ∧ (decode_block d t).errors = t.errors
      ∧ (decode_block d t).correctable = t.correctable
      ∧ (decode_block d t).buffer.capacity = 8
      ∧ (decode_block d t).buffer.buffer.length = 8
      ∧ (decode_block d t).buffer.size < 8
      ∧ ((decode_block d t).buffer.buffer.take (decode_block d t).buffer.size,
          (decode_block d t).output)
        = ((pending s.buffer s.input).take (dataCells d).length).foldl feedBit
            (acc, t.output) := by
  have hchunk : ∀ v ∈ (pending s.buffer s.input).take (dataCells d).length, v = 0 ∨ v = 1 :=
    fun v hv => pending_bits s.buffer s.input hb v (List.mem_of_mem_take hv)
  have hvals := encodeBlock_dataValues d hd s hb hf
  have hsyn := (encoded_block_props d hd s hb).1
  have hscan : decode_parity_scan d m2 = decode_parity_scan d (encodeBlock d s) :=
    decode_parity_scan_congr d m2 _ hm2
  have hpar : decode_matrix_parity d m2 t.errors t.correctable
      = (m2, t.errors, t.correctable) := by
    unfold decode_matrix_parity
    have h0 : (decode_parity_scan d (encodeBlock d s)).1 = 0 := hsyn
    simp only [hscan, h0, ne_eq, not_true_eq_false, if_false]
  have hwrite : decode_matrix_write d m2 (t.buffer, t.output)
      = decode_matrix_write d (encodeBlock d s) (t.buffer, t.output) :=
    decode_matrix_write_congr_range d m2 _ hm2 _
  obtain ⟨w1, w2, w3, w4⟩ := decode_matrix_write_feed d (encodeBlock d s) t.buffer t.output acc
    hcap hlen hsize hacc
  have hpay : payload d (encodeBlock d s)
      = (pending s.buffer s.input).take (dataCells d).length := by
    unfold payload
    rw [hvals]
    exact filter_bits_append_padding _ _ hchunk
  rw [hpay] at w4
  unfold decode_block
  simp only [hfill, hpar, hwrite]
  exact ⟨trivial, trivial, trivial, w1, w2, w3, w4⟩

/-- One iteration of the loop of `decode` on the text of a block of `encode`
that is filled with bits and is followed by more text. -/
theorem decode_block_full (d : Nat) (hd : validDimension d = true) (s : EncState)
    (hb : WellFormed s.buffer) (hf : NoFF s.input) (t : DecState) (rest : List Char)
    (acc : List Int)
    (ht : t.input = { data := blockText d s ++ rest, eof := false })
    (hfull : (dataCells d).length ≤ (pending s.buffer s.input).length)
    (hrest : rest ≠ [])
    (hcap : t.buffer.capacity = 8) (hlen : t.buffer.buffer.length = 8)
    (hsize : t.buffer.size < 8) (hacc : t.buffer.buffer.take t.buffer.size = acc) :
    (decode_block d t).input = { data := rest, eof := false }
      ∧ (decode_block d t).errors = t.errors
      ∧ (decode_block d t).correctable = t.correctable
      ∧ (decode_block d t).buffer.capacity = 8
      ∧ (decode_block d t).buffer.buffer.length = 8
      ∧ (decode_block d t).buffer.size < 8
      ∧ ((decode_block d t).buffer.buffer.take (decode_block d t).buffer.size,
          (decode_block d t).output)
        = ((pending s.buffer s.input).take (dataCells d).length).foldl feedBit
            (acc, t.output) := by
  have hE := encodeBlock_blockCells d hd s hb
  have hvals := encodeBlock_dataValues d hd s hb hf
  have htake : ((pending s.buffer s.input).take (dataCells d).length).length
      = (dataCells d).length := by
    rw [List.length_take]
    omega
  rw [htake, Nat.sub_self, List.replicate_zero, List.append_nil] at hvals
  have hdata : ∀ v ∈ dataValues d (encodeBlock d s), v = 0 ∨ v = 1 := by
    intro v hv
    rw [hvals] at hv
    exact pending_bits s.buffer s.input hb v (List.mem_of_mem_take hv)
  obtain ⟨m2, hfill, hm2⟩ := decode_matrix_fill_full d hd (encodeBlock d s) hE hdata
    t.matrix rest hrest
  have hin : (t.matrix, t.input)
      = (t.matrix, ({ data := encode_matrix_write d (encodeBlock d s) ++ rest, eof := false }
          : File Char)) := by
    rw [ht]
    rfl
  rw [← hin] at hfill
  exact decode_block_of_fill d hd s hb hf t acc m2 _ hfill hm2 hcap hlen hsize hacc

/-- One iteration of the loop of `decode` on the text of the block that
`encode` builds when no bit is pending, at the end of the text. -/
theorem decode_block_end (d : Nat) (hd : validDimension d = true) (s : EncState)
    (hb : WellFormed s.buffer) (hf : NoFF s.input) (t : DecState) (acc : List Int)
    (ht : t.input = { data := blockText d s, eof := false })
    (hnil : pending s.buffer s.input = [])
    (hcap : t.buffer.capacity = 8) (hlen : t.buffer.buffer.length = 8)
    (hsize : t.buffer.size < 8) (hacc : t.buffer.buffer.take t.buffer.size = acc) :
    (decode_block d t).input = { data := [], eof := true }
      ∧ (decode_block d t).errors = t.errors
      ∧ (decode_block d t).correctable = t.correctable
      ∧ ((decode_block d t).buffer.buffer.take (decode_block d t).buffer.size,
          (decode_block d t).output)
        = (acc, t.output) := by
  have hE := encodeBlock_blockCells d hd s hb
  have hvals := encodeBlock_dataValues d hd s hb hf
  rw [hnil] at hvals
  simp only [List.take_nil, List.length_nil, Nat.sub_zero, List.nil_append] at hvals
  have hdata : ∀ v ∈ dataValues d (encodeBlock d s), v = -1 := by
    intro v hv
    rw [hvals] at hv
    exact (List.mem_replicate.mp hv).2
  obtain ⟨m2, hfill, hm2⟩ := decode_matrix_fill_end d hd (encodeBlock d s) hE hdata t.matrix
  have hin : (t.matrix, t.input)
      = (t.matrix, ({ data := encode_matrix_write d (encodeBlock d s), eof := false }
          : File Char)) := by
    rw [ht]
    rfl
  rw [← hin] at hfill
  obtain ⟨a1, a2, a3, _, _, _, a7⟩ :=
    decode_block_of_fill d hd s hb hf t acc m2 _ hfill hm2 hcap hlen hsize hacc
  rw [hnil, List.take_nil, List.foldl_nil] at a7
  exact ⟨a1, a2, a3, a7⟩

/-! ## The two loops on inputs without the byte 0xFF -/

theorem encode_loop_states (d : Nat) (hd : validDimension d = true) (fuel : Nat)
    (s : EncState) (hb : WellFormed s.buffer) (hf : NoFF s.input)
    (heof : s.input.eof = false)
    (hfuel : (pending s.buffer s.input).length / (dataCells d).length + 1 ≤ fuel) :
    encode_loop d fuel s
      = some ((encStates d ((pending s.buffer s.input).length / (dataCells d).length) s).map
          (blockText d)) := by
  have hP := dataCells_length_pos d hd
  induction fuel generalizing s with
  | zero => exact absurd hfuel (Nat.not_succ_le_zero _)
  | succ fuel ih =>
    have hcond : (!s.input.eof || s.buffer.size != s.buffer.capacity) = true := by
      simp [heof]
    obtain ⟨_, hpd, heof2, hwf2, hnoff2⟩ := encode_iteration d hd s hb hf
    rw [encode_loop_run d fuel s hcond]
    by_cases hlt : (pending s.buffer s.input).length < (dataCells d).length
    · have hnil : pending (encode_matrix_fill d s).buffer (encode_matrix_fill d s).input = [] := by
        rw [hpd]
        exact List.drop_eq_nil_of_le (Nat.le_of_lt hlt)
      have hsz := pending_nil_size _ _ hwf2 hnil
      have he : (encode_matrix_fill d s).input.eof = true := by
        rw [heof2]
        simp [hlt]
      have hstop := encode_loop_stop d fuel
        { encode_matrix_fill d s with matrix := encodeBlock d s } (by simp [he, hsz])
      rw [hstop, Nat.div_eq_of_lt hlt]
      rfl
    · have hge : (dataCells d).length ≤ (pending s.buffer s.input).length := Nat.le_of_not_lt hlt
      have he : (encode_matrix_fill d s).input.eof = false := by
        rw [heof2]
        simp [heof, hlt]
      have hdiv : (pending s.buffer s.input).length / (dataCells d).length
          = ((pending s.buffer s.input).length - (dataCells d).length) / (dataCells d).length
            + 1 := by
        rw [Nat.div_eq (pending s.buffer s.input).length]
        simp [hP, hge]
      have hpd2 : pending (nextEncState d s).buffer (nextEncState d s).input
          = (pending s.buffer s.input).drop (dataCells d).length := hpd
      have hih := ih (nextEncState d s) hwf2 hnoff2 he (by
        rw [hpd2, List.length_drop]
        omega)
      rw [hpd2, List.length_drop] at hih
      have hnext : ({ encode_matrix_fill d s with matrix := encodeBlock d s } : EncState)
          = nextEncState d s := rfl
      rw [hnext, hih, hdiv]
      rfl

theorem blockText_ne_nil (d : Nat) (hd : validDimension d = true) (s : EncState)
    (hb : WellFormed s.buffer) : blockText d s ≠ [] := by
  have h := (wire_format d hd (encodeBlock d s) (encodeBlock_blockCells d hd s hb)).2.1
  intro hnil
  unfold blockText at hnil
  rw [hnil] at h
  simp only [List.length_nil] at h
  omega

theorem encStates_text_ne_nil (d : Nat) (hd : validDimension d = true) (k : Nat) (s : EncState)
    (hb : WellFormed s.buffer) : ((encStates d k s).map (blockText d)).flatten ≠ [] := by
  have h := blockText_ne_nil d hd s hb
  cases k with
  | zero => simpa [encStates] using h
  | succ k =>
    simp only [encStates, List.map_cons, List.flatten_cons]
    intro hnil
    exact h (List.append_eq_nil.mp hnil).1

/-- The loop of `decode` on the text that the loop of `encode` writes from the
state `s`, when the number of pending bits is a multiple of the number of data
cells of a block: every pending bit of the encoder is fed to the byte
reassembly, and no error is counted. -/
theorem decode_loop_states (d : Nat) (hd : validDimension d = true) (k : Nat) (s : EncState)
    (hb : WellFormed s.buffer) (hf : NoFF s.input)
    (hk : (pending s.buffer s.input).length = k * (dataCells d).length)
    (t : DecState) (acc : List Int) (fuel : Nat)
    (ht : t.input = { data := ((encStates d k s).map (blockText d)).flatten, eof := false })
    (hcap : t.buffer.capacity = 8) (hlen : t.buffer.buffer.length = 8)
    (hsize : t.buffer.size < 8) (hacc : t.buffer.buffer.take t.buffer.size = acc)
    (hfuel : k + 1 ≤ fuel) :
    ∃ t2, decode_loop d fuel t = some t2
      ∧ t2.errors = t.errors ∧ t2.correctable = t.correctable
      ∧ (t2.buffer.buffer.take t2.buffer.size, t2.output)
        = (pending s.buffer s.input).foldl feedBit (acc, t.output) := by
  have hP := dataCells_length_pos d hd
  induction k generalizing s t acc fuel with
  | zero =>
    have hnil : pending s.buffer s.input = [] :=
      List.eq_nil_of_length_eq_zero (by rw [hk]; simp)
    have ht2 : t.input = { data := blockText d s, eof := false } := by
      rw [ht]
      simp [encStates]
    obtain ⟨a1, a2, a3, a7⟩ := decode_block_end d hd s hb hf t acc ht2 hnil hcap hlen hsize hacc
    cases fuel with
    | zero => omega
    | succ fuel =>
      have he : t.input.eof = false := by rw [ht]
      rw [decode_loop_run d fuel t he]
      have he2 : (decode_block d t).input.eof = true := by rw [a1]
      rw [decode_loop_stop d fuel _ he2]
      refine ⟨decode_block d t, rfl, a2, a3, ?_⟩
      rw [a7, hnil]
      rfl
  | succ k ih =>
    have hge : (dataCells d).length ≤ (pending s.buffer s.input).length := by
      rw [hk, Nat.succ_mul]
      exact Nat.le_add_left _ _
    obtain ⟨_, hpd, _, hwf2, hnoff2⟩ := encode_iteration d hd s hb hf
    have hpd2 : pending (nextEncState d s).buffer (nextEncState d s).input
        = (pending s.buffer s.input).drop (dataCells d).length := hpd
    have ht2 : t.input
        = { data := blockText d s
              ++ ((encStates d k (nextEncState d s)).map (blockText d)).flatten,
            eof := false } := by
      rw [ht]
      simp [encStates]
    have hrest := encStates_text_ne_nil d hd k (nextEncState d s) hwf2
    obtain ⟨a1, a2, a3, a4, a5, a6, a7⟩ := decode_block_full d hd s hb hf t _ acc ht2 hge hrest
      hcap hlen hsize hacc
    have hk2 : (pending (nextEncState d s).buffer (nextEncState d s).input).length
        = k * (dataCells d).length := by
      rw [hpd2, List.length_drop, hk, Nat.succ_mul]
      exact Nat.add_sub_cancel _ _
    cases fuel with
    | zero => omega
    | succ fuel =>
      have he : t.input.eof = false := by rw [ht]
      rw [decode_loop_run d fuel t he]
      obtain ⟨t3, b1, b2, b3, b4⟩ := ih (nextEncState d s) hwf2 hnoff2 hk2 (decode_block d t)
        _ fuel a1 a4 a5 a6 rfl (by omega)
      refine ⟨t3, b1, b2.trans a2, b3.trans a3, ?_⟩
      rw [b4, hpd2, a7, ← List.foldl_append, List.take_append_drop]

/-! ## Round trip on inputs that fill whole blocks -/

/-- Round trip on inputs without the byte 0xFF whose bits fill whole blocks: for
every valid dimension `d`, with `P = d*d - 2*log2(d) - 1` data cells per block,
and every input of `n` bytes other than 0xFF such that `8n` is a multiple of
`P`, `decode` of the text that `encode` writes gives back the input bytes,
counts no error and leaves the correctable flag set.  (The text then ends with
a block of parity characters only.) -/
theorem round_trip_block_aligned (d : Nat) (hd : validDimension d = true) (input : List Nat)
    (hin : ∀ x ∈ input, x < 255)
    (hal : (d * d - 2 * Nat.log2 d - 1) ∣ 8 * input.length) :
    ∃ text, encode d input = some text ∧ decode d text = some (input, 0, true) := by
  have hnoff : NoFF (encode_init input).input := by
    intro x hx
    have : x < 255 := hin x hx
    omega
  have hwf := encode_init_wellFormed input
  have hlen : (pending (encode_init input).buffer (encode_init input).input).length
      = 8 * input.length := by
    rw [encode_init_pending, flatMap_bits_length]
  have hfuel : (pending (encode_init input).buffer (encode_init input).input).length
      / (dataCells d).length + 1 ≤ 8 * input.length + 1 := by
    rw [hlen]
    exact Nat.succ_le_succ (Nat.div_le_self _ _)
  have hblocks : encode_blocks d input
      = some ((encStates d
          ((pending (encode_init input).buffer (encode_init input).input).length
            / (dataCells d).length) (encode_init input)).map (blockText d)) :=
    encode_loop_states d hd _ (encode_init input) hwf hnoff rfl hfuel
  obtain ⟨blocks, hb1, hb2⟩ := encode_blocks_lengths d hd input hin
  rw [hblocks] at hb1
  have hbl := Option.some.inj hb1
  have hkP : (pending (encode_init input).buffer (encode_init input).input).length
      = (pending (encode_init input).buffer (encode_init input).input).length
          / (dataCells d).length * (dataCells d).length := by
    rw [hlen, dataCells_length d hd]
    exact (Nat.div_mul_cancel hal).symm
  generalize hk : (pending (encode_init input).buffer (encode_init input).input).length
      / (dataCells d).length = k at hblocks hbl hkP
  refine ⟨((encStates d k (encode_init input)).map (blockText d)).flatten, ?_, ?_⟩
  · unfold encode
    rw [hblocks]
    rfl
  · have htext : k ≤ (((encStates d k (encode_init input)).map (blockText d)).flatten).length := by
      rw [List.length_flatten, hbl, hb2, sum_replicate_append]
      have hk2 : k = 8 * input.length / (d * d - 2 * Nat.log2 d - 1) := by
        rw [← hk, hlen, dataCells_length d hd]
      rw [← hk2]
      have : k ≤ k * (2 * Nat.log2 d + 1 + (d * d - 2 * Nat.log2 d - 1)) :=
        Nat.le_mul_of_pos_right _ (by omega)
      omega
    obtain ⟨t2, h1, h2, h3, h4⟩ := decode_loop_states d hd k (encode_init input) hwf hnoff hkP
      (decode_init (((encStates d k (encode_init input)).map (blockText d)).flatten)) []
      ((((encStates d k (encode_init input)).map (blockText d)).flatten).length + 1)
      rfl rfl rfl (Nat.zero_lt_succ 7) rfl (by omega)
    unfold decode
    rw [h1]
    rw [encode_init_pending, feedBit_bytes] at h4
    have hout : t2.output = input := by
      have := congrArg Prod.snd h4
      simp only [decode_init, List.nil_append] at this
      rw [this]
      have hid : ∀ x ∈ input, (fun x => x % 256) x = id x := by
        intro x hx
        have : x < 255 := hin x hx
        show x % 256 = x
        omega
      rw [List.map_congr_left hid, List.map_id]
    simp only [Option.map_some', hout, h2, h3]
    rfl

/-- The padding scenario for the byte 0x41: with `d = 8` the first 8 of the 57
data cells get the bits of the byte and the other 49 get `PADDING`, the text
written has 15 characters, and `decode` of it writes the byte 0xFE with an
error count of 1, because the last bit read is overwritten with `PADDING`. -/
theorem padding_scenario_0x41 :
    dataValues 8 (encode_matrix_fill 8 (encode_init [65])).matrix
        = bitsOfByte 65 ++ List.replicate 49 PADDING
      ∧ encode 8 [65] = some "010010001000001".toList
      ∧ decode 8 "010010001000001".toList = some ([254], 1, true) := by
  decide!

/-! ## The syndrome as the XOR over the cells that hold 1 -/

theorem foldl_xor_init (l : List Nat) (p : Nat) :
    l.foldl (fun x n => x ^^^ n) p = p ^^^ xorList l := by
  unfold xorList
  induction l generalizing p with
  | nil => simp
  | cons a l ih =>
    simp only [List.foldl_cons]
    rw [ih (p ^^^ a), ih (0 ^^^ a), Nat.zero_xor, Nat.xor_assoc]

theorem xor_one_eq (q : Nat) (hq : q < 2) : q ^^^ 1 = (q + 1) % 2 := by
  have : q = 0 ∨ q = 1 := by omega
  rcases this with h | h <;> subst h <;> decide

theorem scan_fold_spec (sel : Nat × Nat → Bool) (idx : Nat × Nat → Nat)
    (l : List (Nat × Nat)) (p q : Nat) (hq : q < 2) :
    l.foldl (fun (s : Nat × Nat) c => if sel c = true then (s.1 ^^^ idx c, s.2 ^^^ 1) else s)
        (p, q)
      = (p ^^^ xorList ((l.filter sel).map idx), (q + (l.filter sel).length) % 2) := by
  induction l generalizing p q with
  | nil =>
    simp only [List.foldl_nil, List.filter_nil, List.map_nil, List.length_nil, Nat.add_zero]
    rw [Nat.mod_eq_of_lt hq]
    simp [xorList]
  | cons c l ih =>
    simp only [List.foldl_cons, List.filter_cons]
    by_cases hs : sel c = true
    · simp only [hs, if_true, List.map_cons, List.length_cons]
      rw [ih (p ^^^ idx c) (q ^^^ 1) (by rw [xor_one_eq q hq]; exact Nat.mod_lt _ (by decide))]
      have h1 : xorList (idx c :: (l.filter sel).map idx)
          = idx c ^^^ xorList ((l.filter sel).map idx) := by
        unfold xorList
        rw [List.foldl_cons, foldl_xor_init, Nat.zero_xor]
        rfl
      rw [h1, Nat.xor_assoc, xor_one_eq q hq]
      congr 1
      omega
    · simp only [hs, if_false]
      exact ih p q hq

/-- The loops of `decode_matrix_parity` compute the syndrome and the parity of
the number of cells that hold 1. -/
theorem decode_parity_scan_spec (d : Nat) (m : Matrix) :
    decode_parity_scan d m = (syndrome d m, onesParity d m) := by
  unfold decode_parity_scan syndrome onesParity oneCells
  rw [forCells_eq_foldl_cells]
  have h := scan_fold_spec
    (fun c => decide (¬ (c.1 = 0 ∧ c.2 = 0)) && decide (m c.1 c.2 = 1))
    (fun c => c.1 * d + c.2) (cells d) 0 0 (by decide)
  simp only [Nat.zero_xor, Nat.zero_add] at h
  rw [← h]
  congr 1
  funext s c
  by_cases h0 : c.1 = 0 ∧ c.2 = 0
  · simp [h0]
  · by_cases h1 : m c.1 c.2 = 1 <;> simp [h0, h1]

theorem encode_parity_scan_spec (d : Nat) (m : Matrix) :
    encode_parity_scan d m
      = (xorOfOnes d m, ((cells d).filter (fun c => decide (m c.1 c.2 = 1))).length % 2) := by
  unfold encode_parity_scan xorOfOnes
  rw [forCells_eq_foldl_cells]
  have h := scan_fold_spec (fun c => decide (m c.1 c.2 = 1))
    (fun c => c.1 * d + c.2) (cells d) 0 0 (by decide)
  simp only [Nat.zero_xor, Nat.zero_add] at h
  rw [← h]
  congr 1
  funext s c
  by_cases h1 : m c.1 c.2 = 1 <;> simp [h1]

theorem encode_scan_lt (d : Nat) (hd : validDimension d = true) (m : Matrix) :
    (encode_parity_scan d m).1 < d * d := by
  have hpos := validDimension_pos hd
  rw [encode_parity_scan_eq]
  have h1 := xorIdx_lt (ones d m) (d * d) (2 * Nat.log2 d)
    (le_of_eq (validDimension_sq_pow hd)) (Nat.mul_pos hpos hpos)
  rw [← validDimension_sq_pow hd] at h1
  exact h1

theorem decode_scan_lt (d : Nat) (hd : validDimension d = true) (m : Matrix) :
    (decode_parity_scan d m).1 < d * d := by
  have hpos := validDimension_pos hd
  rw [decode_parity_scan_eq]
  have h1 := xorIdx_lt (onesD d m) (d * d) (2 * Nat.log2 d)
    (le_of_eq (validDimension_sq_pow hd)) (Nat.mul_pos hpos hpos)
  rw [← validDimension_sq_pow hd] at h1
  exact h1

theorem syndrome_lt (d : Nat) (hd : validDimension d = true) (m : Matrix) :
    syndrome d m < d * d := by
  have h := decode_scan_lt d hd m
  rw [decode_parity_scan_spec] at h
  exact h

/-! ## The cells written by the bit loop of `encode_matrix_parity` -/

/-- The matrix after `k` iterations of the bit loop of `encode_matrix_parity`,
for any matrix, any parity `P` and any counter. -/
theorem parity_loop_cells (d : Nat) (m : Matrix) (c P k : Nat) (a b : Nat) :
    ((List.range k).foldl
        (fun (s : Matrix × Nat) i =>
          if (P >>> i) &&& 1 = 1 then
            (s.1.set ((1 <<< i) / d) ((1 <<< i) % d) 1, s.2 ^^^ 1)
          else s)
        (m, c)).1 a b
      = if ∃ i, i < k ∧ P.testBit i = true ∧ a = 2 ^ i / d ∧ b = 2 ^ i % d then 1 else m a b := by
  induction k with
  | zero => simp
  | succ k ih =>
    simp only [List.range_succ, List.foldl_append, List.foldl_cons, List.foldl_nil]
    generalize (List.range k).foldl
      (fun (s : Matrix × Nat) i =>
        if (P >>> i) &&& 1 = 1 then
          (s.1.set ((1 <<< i) / d) ((1 <<< i) % d) 1, s.2 ^^^ 1)
        else s)
      (m, c) = r at ih ⊢
    by_cases hb : P.testBit k = true
    · have hb2 : (P >>> k) &&& 1 = 1 := (shift_and_one_iff P k).mpr hb
      simp only [hb2, if_true, Nat.one_shiftLeft, Matrix.set]
      by_cases hab : a = 2 ^ k / d ∧ b = 2 ^ k % d
      · rw [if_pos hab, if_pos ⟨k, Nat.lt_succ_self k, hb, hab⟩]
      · rw [if_neg hab, ih]
        by_cases hex : ∃ i, i < k ∧ P.testBit i = true ∧ a = 2 ^ i / d ∧ b = 2 ^ i % d
        · obtain ⟨i, hi, hrest⟩ := hex
          rw [if_pos ⟨i, hi, hrest⟩, if_pos ⟨i, Nat.lt_succ_of_lt hi, hrest⟩]
        · rw [if_neg hex, if_neg]
          rintro ⟨i, hi, hbi, hi2⟩
          rcases Nat.lt_succ_iff_lt_or_eq.mp hi with h | h
          · exact hex ⟨i, h, hbi, hi2⟩
          · subst h
            exact hab hi2
    · have hb2 : ¬ ((P >>> k) &&& 1 = 1) := fun h => hb ((shift_and_one_iff P k).mp h)
      simp only [hb2, if_false]
      rw [ih]
      by_cases hex : ∃ i, i < k ∧ P.testBit i = true ∧ a = 2 ^ i / d ∧ b = 2 ^ i % d
      · obtain ⟨i, hi, hrest⟩ := hex
        rw [if_pos ⟨i, hi, hrest⟩, if_pos ⟨i, Nat.lt_succ_of_lt hi, hrest⟩]
      · rw [if_neg hex, if_neg]
        rintro ⟨i, hi, hbi, hi2⟩
        rcases Nat.lt_succ_iff_lt_or_eq.mp hi with h | h
        · exact hex ⟨i, h, hbi, hi2⟩
        · subst h
          exact hb hbi

/-- The cells other than `(0,0)` after `encode_matrix_parity`, for any matrix. -/
theorem encode_matrix_parity_cell (d : Nat) (m : Matrix) (a b : Nat) (h : ¬ (a = 0 ∧ b = 0)) :
    ((∃ i, i < 16 ∧ (encode_parity_scan d m).1.testBit i = true
          ∧ a = 2 ^ i / d ∧ b = 2 ^ i % d) → encode_matrix_parity d m a b = 1)
      ∧ ((¬ ∃ i, i < 16 ∧ (encode_parity_scan d m).1.testBit i = true
          ∧ a = 2 ^ i / d ∧ b = 2 ^ i % d) → encode_matrix_parity d m a b = m a b) := by
  have hloop := fun k =>
    parity_loop_cells d m (encode_parity_scan d m).2 (encode_parity_scan d m).1 k a b
  have hE : encode_matrix_parity d m a b
      = ((List.range 16).foldl
          (fun (s : Matrix × Nat) i =>
            if ((encode_parity_scan d m).1 >>> i) &&& 1 = 1 then
              (s.1.set ((1 <<< i) / d) ((1 <<< i) % d) 1, s.2 ^^^ 1)
            else s)
          (m, (encode_parity_scan d m).2)).1 a b := by
    unfold encode_matrix_parity
    simp only [Nat.reduceMul]
    split
    · simp only [Matrix.set, h, if_false]
    · rfl
  rw [hE, hloop 16]
  exact ⟨fun hex => if_pos hex, fun hex => if_neg hex⟩

/-- For any matrix, `encode_matrix_parity` leaves the cells that the fill does
not skip as they are. -/
theorem encode_matrix_parity_frame (d : Nat) (hd : validDimension d = true) (m : Matrix)
    (a b : Nat) (hs : isSkipped a b = false) : encode_matrix_parity d m a b = m a b := by
  have h0 : ¬ (a = 0 ∧ b = 0) := by
    rintro ⟨rfl, rfl⟩
    rw [isSkipped_zero_zero] at hs
    cases hs
  apply (encode_matrix_parity_cell d m a b h0).2
  rintro ⟨i, hi, _, ha, hb⟩
  have := pow_cell_skipped hd i hi
  rw [← ha, ← hb, hs] at this
  cases this

/-- Bit `k` of the XOR of the selected indices is the parity of the number of
selected indices that have bit `k` set. -/
theorem testBit_xorIdx (g : Nat → Bool) (N k : Nat) :
    (xorIdx g N).testBit k
      = decide (((List.range N).countP (fun n => g n && n.testBit k)) % 2 = 1) := by
  induction N with
  | zero => simp [xorIdx]
  | succ N ih =>
    rw [List.range_succ, List.countP_append, List.countP_singleton]
    unfold xorIdx
    cases hg : g N
    · simp only [Bool.false_eq_true, if_false, Bool.false_and, Nat.add_zero]
      exact ih
    · simp only [if_true, Bool.true_and, Nat.testBit_xor, ih]
      cases hN : N.testBit k
      · simp
      · simp only [if_true, Bool.bne_true]
        generalize (List.range N).countP (fun n => g n && n.testBit k) = c
        rcases Nat.mod_two_eq_zero_or_one c with h | h
        · have : (c + 1) % 2 = 1 := by omega
          simp [h, this]
        · have : (c + 1) % 2 = 0 := by omega
          simp [h, this]

/-! ## Claims C11, C13, C16, C20: syndrome, meta-parity and index safety -/

/-- C11.  For every valid dimension and every block built by
`encode_matrix_fill` and `encode_matrix_parity`, the syndrome (the XOR of the
linear indices of the cells other than `(0,0)` that hold 1) is 0, it is the
value that the loops of `decode_matrix_parity` compute, and
`decode_matrix_parity` returns the matrix, the error count and the correctable
flag unchanged. -/
theorem uncorrupted_block_no_error (d : Nat) (hd : validDimension d = true) (s : EncState)
    (hb : WellFormed s.buffer) (errors : Int) (correctable : Bool) :
    syndrome d (encodeBlock d s) = 0
      ∧ (decode_parity_scan d (encodeBlock d s)).1 = syndrome d (encodeBlock d s)
      ∧ decode_matrix_parity d (encodeBlock d s) errors correctable
        = (encodeBlock d s, errors, correctable) := by
  have hsyn := (encoded_block_props d hd s hb).1
  have hsyn2 : (decode_parity_scan d (encodeBlock d s)).1 = 0 := hsyn
  have hspec := decode_parity_scan_spec d (encodeBlock d s)
  have h0 : syndrome d (encodeBlock d s) = 0 := by
    rw [hspec] at hsyn2
    exact hsyn2
  refine ⟨h0, by rw [hspec], ?_⟩
  unfold decode_matrix_parity
  simp only [hsyn2, ne_eq, not_true_eq_false, if_false]

/-- C11: the statement at the block of the byte 0x41 with `d = 4`. -/
theorem uncorrupted_block_no_error_witness :
    syndrome 4 (encodeBlock 4 (encode_init [65])) = 0
      ∧ (decode_parity_scan 4 (encodeBlock 4 (encode_init [65]))).1
        = syndrome 4 (encodeBlock 4 (encode_init [65]))
      ∧ decode_matrix_parity 4 (encodeBlock 4 (encode_init [65])) 0 true
        = (encodeBlock 4 (encode_init [65]), 0, true) :=
  uncorrupted_block_no_error 4 (by decide) (encode_init [65]) (by decide) 0 true

/-- C13.  For every valid dimension and every block built by
`encode_matrix_fill` and `encode_matrix_parity`, the cell `(0,0)` holds a bit,
it holds 1 exactly when the number of other cells that hold 1 is odd, and the
number of cells of the whole block that hold 1 is even. -/
theorem meta_parity_covers_block (d : Nat) (hd : validDimension d = true) (s : EncState)
    (hb : WellFormed s.buffer) :
    (encodeBlock d s 0 0 = 0 ∨ encodeBlock d s 0 0 = 1)
      ∧ (encodeBlock d s 0 0 = 1 ↔ (oneCells d (encodeBlock d s)).length % 2 = 1)
      ∧ ((cells d).countP (fun c => decide (encodeBlock d s c.1 c.2 = 1))) % 2 = 0 := by
  obtain ⟨_, hmeta, _⟩ := encoded_block_props d hd s hb
  have hmeta2 : (((decode_parity_scan d (encodeBlock d s)).2 : Nat) : Int)
      = encodeBlock d s 0 0 := hmeta
  rw [decode_parity_scan_spec] at hmeta2
  simp only [onesParity] at hmeta2
  have hlt : (oneCells d (encodeBlock d s)).length % 2 < 2 := Nat.mod_lt _ (by decide)
  have hiff : encodeBlock d s 0 0 = 1 ↔ (oneCells d (encodeBlock d s)).length % 2 = 1 := by
    rw [← hmeta2]
    constructor
    · intro h
      exact_mod_cast h
    · intro h
      rw [h]
      rfl
  have hbit : encodeBlock d s 0 0 = 0 ∨ encodeBlock d s 0 0 = 1 := by
    rw [← hmeta2]
    have : (oneCells d (encodeBlock d s)).length % 2 = 0
        ∨ (oneCells d (encodeBlock d s)).length % 2 = 1 := by omega
    rcases this with h | h <;> rw [h]
    · left; rfl
    · right; rfl
  refine ⟨hbit, hiff, ?_⟩
  have hsplit := countP_split
    (fun c : Nat × Nat => decide (¬ (c.1 = 0 ∧ c.2 = 0)) && decide (encodeBlock d s c.1 c.2 = 1))
    (fun c : Nat × Nat => decide (c.1 = 0 ∧ c.2 = 0) && decide (encodeBlock d s c.1 c.2 = 1))
    (fun c : Nat × Nat => decide (encodeBlock d s c.1 c.2 = 1)) (cells d)
    (by
      intro c
      by_cases h0 : c.1 = 0 ∧ c.2 = 0 <;> simp [h0])
    (by
      intro c
      by_cases h0 : c.1 = 0 ∧ c.2 = 0 <;> simp [h0])
  have hothers : (cells d).countP
      (fun c : Nat × Nat =>
        decide (¬ (c.1 = 0 ∧ c.2 = 0)) && decide (encodeBlock d s c.1 c.2 = 1))
      = (oneCells d (encodeBlock d s)).length := by
    rw [List.countP_eq_length_filter]
    rfl
  rw [hsplit, hothers]
  by_cases h1 : encodeBlock d s 0 0 = 1
  · have hq : (cells d).countP
        (fun c : Nat × Nat =>
          decide (c.1 = 0 ∧ c.2 = 0) && decide (encodeBlock d s c.1 c.2 = 1)) = 1 := by
      rw [← meta_count d hd]
      apply List.countP_congr
      intro c _
      by_cases h0 : c.1 = 0 ∧ c.2 = 0
      · simp [h0, h1]
      · simp [h0]
    have := hiff.mp h1
    rw [hq]
    omega
  · have hq : (cells d).countP
        (fun c : Nat × Nat =>
          decide (c.1 = 0 ∧ c.2 = 0) && decide (encodeBlock d s c.1 c.2 = 1)) = 0 := by
      apply List.countP_eq_zero.mpr
      intro c _
      by_cases h0 : c.1 = 0 ∧ c.2 = 0
      · simp [h0, h1]
      · simp [h0]
    have h2 : ¬ ((oneCells d (encodeBlock d s)).length % 2 = 1) := fun h => h1 (hiff.mpr h)
    rw [hq]
    omega

/-- C13: the statement at the block of the byte 0x41 with `d = 4`. -/
theorem meta_parity_covers_block_witness :
    (encodeBlock 4 (encode_init [65]) 0 0 = 0 ∨ encodeBlock 4 (encode_init [65]) 0 0 = 1)
      ∧ (encodeBlock 4 (encode_init [65]) 0 0 = 1
          ↔ (oneCells 4 (encodeBlock 4 (encode_init [65]))).length % 2 = 1)
      ∧ ((cells 4).countP (fun c => decide (encodeBlock 4 (encode_init [65]) c.1 c.2 = 1))) % 2
          = 0 :=
  meta_parity_covers_block 4 (by decide) (encode_init [65]) (by decide)

/-- C16.  For every valid dimension `d` and every matrix, with `s` the syndrome
(the XOR of the linear indices of the cells other than `(0,0)` that hold 1)
and `p` the parity of the number of these cells: the loops of
`decode_matrix_parity` compute `s` and `p`; if `s = 0` nothing changes; if
`s ≠ 0` and `p` equals cell `(0,0)`, the error count grows by 2, the
correctable flag is cleared and no cell changes; if `s ≠ 0` and `p` differs
from cell `(0,0)`, the cell in row `s / d` and column `s mod d`, which lies in
the matrix and has the linear index `s`, gets its value XORed with 1, every
other cell is unchanged, the error count grows by 1 and the correctable flag
is unchanged.  The count is an `int`: the sums are `toInt32 (errors + 2)` and
`toInt32 (errors + 1)`, which are `errors + 2` and `errors + 1` whenever these
are at most `INT_MAX`. -/
theorem decode_parity_classification (d : Nat) (hd : validDimension d = true) (m : Matrix)
    (errors : Int) (correctable : Bool) :
    decode_parity_scan d m = (syndrome d m, onesParity d m)
      ∧ (syndrome d m = 0 →
          decode_matrix_parity d m errors correctable = (m, errors, correctable))
      ∧ (syndrome d m ≠ 0 → ((onesParity d m : Nat) : Int) = m 0 0 →
          decode_matrix_parity d m errors correctable = (m, toInt32 (errors + 2), false))
      ∧ (syndrome d m ≠ 0 → ((onesParity d m : Nat) : Int) ≠ m 0 0 →
          syndrome d m / d < d ∧ syndrome d m % d < d
            ∧ syndrome d m / d * d + syndrome d m % d = syndrome d m
            ∧ (decode_matrix_parity d m errors correctable).1 (syndrome d m / d)
                (syndrome d m % d)
              = Int.xor (m (syndrome d m / d) (syndrome d m % d)) 1
            ∧ (∀ a b, ¬ (a = syndrome d m / d ∧ b = syndrome d m % d) →
                (decode_matrix_parity d m errors correctable).1 a b = m a b)
            ∧ (decode_matrix_parity d m errors correctable).2.1 = toInt32 (errors + 1)
            ∧ (decode_matrix_parity d m errors correctable).2.2 = correctable)
      ∧ (-2147483648 ≤ errors → errors + 2 ≤ INT_MAX →
          toInt32 (errors + 2) = errors + 2 ∧ toInt32 (errors + 1) = errors + 1) := by
  have hspec := decode_parity_scan_spec d m
  have hpos := validDimension_pos hd
  have hlt := syndrome_lt d hd m
  refine ⟨hspec, ?_, ?_, ?_, ?_⟩
  rotate_right
  · intro hlo hhi
    exact ⟨toInt32_of_range _ (by omega) hhi,
      toInt32_of_range _ (by omega) (by unfold INT_MAX at hhi ⊢; omega)⟩
  · intro h0
    unfold decode_matrix_parity
    simp only [hspec, h0, ne_eq, not_true_eq_false, if_false]
  · intro h0 hp
    unfold decode_matrix_parity
    simp only [hspec, ne_eq, h0, not_false_eq_true, if_true, hp]
  · intro h0 hp
    have hres : decode_matrix_parity d m errors correctable
        = (m.set (syndrome d m / d) (syndrome d m % d)
            (Int.xor (m (syndrome d m / d) (syndrome d m % d)) 1), toInt32 (errors + 1),
            correctable) := by
      unfold decode_matrix_parity
      simp only [hspec, ne_eq, h0, not_false_eq_true, if_true, hp, if_false]
    rw [hres]
    refine ⟨Nat.div_lt_of_lt_mul hlt, Nat.mod_lt _ hpos, Nat.div_add_mod' _ _, ?_, ?_, rfl, rfl⟩
    · simp [Matrix.set]
    · intro a b hab
      simp [Matrix.set, hab]

/-- C16: the statement at `d = 4` and the block of the byte 0x41 with the data
cell `(1,1)` flipped. -/
theorem decode_parity_classification_witness :
    decode_parity_scan 4 (flipCell (encodeBlock 4 (encode_init [65])) 1 1)
        = (syndrome 4 (flipCell (encodeBlock 4 (encode_init [65])) 1 1),
            onesParity 4 (flipCell (encodeBlock 4 (encode_init [65])) 1 1))
      ∧ syndrome 4 (flipCell (encodeBlock 4 (encode_init [65])) 1 1) = 5
      ∧ (decode_matrix_parity 4 (flipCell (encodeBlock 4 (encode_init [65])) 1 1) 0 true).2
          = (1, true) :=
  ⟨(decode_parity_classification 4 (by decide)
      (flipCell (encodeBlock 4 (encode_init [65])) 1 1) 0 true).1,
    by decide, by decide⟩

/-- C20.  For every valid dimension `d` and every matrix, the XOR of the linear
indices of the cells that hold 1, which is the parity that the loops of
`encode_matrix_parity` compute, is less than `d*d ≤ 2^16`; every bit `i` that
is set in it is below 16 and its position `1 << i` gives a row and a column
below `d`; the syndrome that `decode_matrix_parity` computes is less than
`d*d` and gives a row and a column below `d`. -/
theorem index_safety (d : Nat) (hd : validDimension d = true) (m : Matrix) :
    (encode_parity_scan d m).1 = xorOfOnes d m
      ∧ xorOfOnes d m < d * d
      ∧ d * d ≤ 2 ^ 16
      ∧ (∀ i, (xorOfOnes d m >>> i) &&& 1 = 1 →
          i < 16 ∧ (1 <<< i) / d < d ∧ (1 <<< i) % d < d)
      ∧ (decode_parity_scan d m).1 = syndrome d m
      ∧ syndrome d m < d * d
      ∧ syndrome d m / d < d
      ∧ syndrome d m % d < d := by
  have hpos := validDimension_pos hd
  have he := encode_scan_lt d hd m
  have hes := encode_parity_scan_spec d m
  rw [hes] at he
  have hlt := syndrome_lt d hd m
  refine ⟨by rw [hes], he, validDimension_sq_le hd, ?_, by rw [decode_parity_scan_spec], hlt,
    Nat.div_lt_of_lt_mul hlt, Nat.mod_lt _ hpos⟩
  intro i hi
  have hbit := (shift_and_one_iff _ i).mp hi
  have hle := two_pow_le_of_testBit _ i hbit
  have hlt2 : 2 ^ i < d * d := Nat.lt_of_le_of_lt hle he
  rw [Nat.one_shiftLeft]
  exact ⟨pow_lt_sq_lt hd i hlt2, Nat.div_lt_of_lt_mul hlt2, Nat.mod_lt _ hpos⟩

/-- C20: the statement at `d = 4` and the block of the byte 0x41. -/
theorem index_safety_witness :
    (encode_parity_scan 4 (encodeBlock 4 (encode_init [65]))).1
        = xorOfOnes 4 (encodeBlock 4 (encode_init [65]))
      ∧ xorOfOnes 4 (encodeBlock 4 (encode_init [65])) < 4 * 4
      ∧ 4 * 4 ≤ 2 ^ 16
      ∧ (∀ i, (xorOfOnes 4 (encodeBlock 4 (encode_init [65])) >>> i) &&& 1 = 1 →
          i < 16 ∧ (1 <<< i) / 4 < 4 ∧ (1 <<< i) % 4 < 4)
      ∧ (decode_parity_scan 4 (encodeBlock 4 (encode_init [65]))).1
        = syndrome 4 (encodeBlock 4 (encode_init [65]))
      ∧ syndrome 4 (encodeBlock 4 (encode_init [65])) < 4 * 4
      ∧ syndrome 4 (encodeBlock 4 (encode_init [65])) / 4 < 4
      ∧ syndrome 4 (encodeBlock 4 (encode_init [65])) % 4 < 4 :=
  index_safety 4 (by decide) (encodeBlock 4 (encode_init [65]))

/-! ## Claim C17: the error counters of a decode session -/

theorem decode_matrix_parity_flag (d : Nat) (m : Matrix) (errors : Int) (correctable : Bool)
    (h : correctable = false) : (decode_matrix_parity d m errors correctable).2.2 = false := by
  unfold decode_matrix_parity
  by_cases h0 : (decode_parity_scan d m).1 ≠ 0
  · by_cases hp : (((decode_parity_scan d m).2 : Nat) : Int) = m 0 0
    · rw [if_pos h0, if_pos hp]
    · rw [if_pos h0, if_neg hp]
      exact h
  · rw [if_neg h0]
    exact h

theorem decode_matrix_parity_counters (d : Nat) (m : Matrix) (errors : Int) (correctable : Bool)
    (hlo : 0 ≤ errors) (hhi : errors + 2 ≤ INT_MAX) :
    errors ≤ (decode_matrix_parity d m errors correctable).2.1
      ∧ (decode_matrix_parity d m errors correctable).2.1 ≤ errors + 2 := by
  have h1 : toInt32 (errors + 1) = errors + 1 :=
    toInt32_of_range _ (by omega) (by unfold INT_MAX at hhi ⊢; omega)
  have h2 : toInt32 (errors + 2) = errors + 2 := toInt32_of_range _ (by omega) hhi
  unfold decode_matrix_parity
  by_cases h0 : (decode_parity_scan d m).1 ≠ 0
  · by_cases hp : (((decode_parity_scan d m).2 : Nat) : Int) = m 0 0
    · rw [if_pos h0, if_pos hp]
      show errors ≤ toInt32 (errors + 2) ∧ toInt32 (errors + 2) ≤ errors + 2
      rw [h2]
      omega
    · rw [if_pos h0, if_neg hp]
      show errors ≤ toInt32 (errors + 1) ∧ toInt32 (errors + 1) ≤ errors + 2
      rw [h1]
      omega
  · rw [if_neg h0]
    show errors ≤ errors ∧ errors ≤ errors + 2
    omega

theorem decode_parity_session_cons (d : Nat) (m : Matrix) (ms : List Matrix) (s : Int × Bool) :
    decode_parity_session d (m :: ms) s
      = decode_parity_session d ms (decode_matrix_parity d m s.1 s.2).2 := rfl

theorem decode_parity_session_append (d : Nat) (ms1 ms2 : List Matrix) (s : Int × Bool) :
    decode_parity_session d (ms1 ++ ms2) s
      = decode_parity_session d ms2 (decode_parity_session d ms1 s) := by
  unfold decode_parity_session
  rw [List.foldl_append]

theorem decode_parity_session_flag (d : Nat) (ms : List Matrix) (s : Int × Bool)
    (h : s.2 = false) : (decode_parity_session d ms s).2 = false := by
  induction ms generalizing s with
  | nil => exact h
  | cons m ms ih =>
    rw [decode_parity_session_cons]
    exact ih _ (decode_matrix_parity_flag d m s.1 s.2 h)

theorem decode_parity_session_counters (d : Nat) (ms : List Matrix) (s : Int × Bool)
    (hlo : 0 ≤ s.1) (hhi : s.1 + 2 * (ms.length : Int) ≤ INT_MAX) :
    s.1 ≤ (decode_parity_session d ms s).1
      ∧ (decode_parity_session d ms s).1 ≤ s.1 + 2 * (ms.length : Int) := by
  induction ms generalizing s with
  | nil =>
    show s.1 ≤ s.1 ∧ s.1 ≤ s.1 + 2 * ((0 : Nat) : Int)
    omega
  | cons m ms ih =>
    rw [List.length_cons] at hhi ⊢
    push_cast at hhi ⊢
    have h1 := decode_matrix_parity_counters d m s.1 s.2 hlo (by omega)
    have h2 := ih (decode_matrix_parity d m s.1 s.2).2 (by omega) (by omega)
    rw [decode_parity_session_cons]
    omega

theorem decode_loop_counters (d : Nat) (fuel : Nat) (s t : DecState)
    (h : decode_loop d fuel s = some t) :
    (0 ≤ s.errors → s.errors + 2 * (fuel : Int) ≤ INT_MAX → s.errors ≤ t.errors)
      ∧ (s.correctable = false → t.correctable = false) := by
  induction fuel generalizing s with
  | zero =>
    by_cases he : s.input.eof = true
    · rw [decode_loop_stop d 0 s he] at h
      have : s = t := Option.some.inj h
      subst this
      exact ⟨fun _ _ => le_refl _, fun hc => hc⟩
    · simp [decode_loop, he] at h
  | succ fuel ih =>
    by_cases he : s.input.eof = true
    · rw [decode_loop_stop d _ s he] at h
      have : s = t := Option.some.inj h
      subst this
      exact ⟨fun _ _ => le_refl _, fun hc => hc⟩
    · have he2 : s.input.eof = false := by simpa using he
      rw [decode_loop_run d fuel s he2] at h
      have h2 := ih (decode_block d s) h
      constructor
      · intro hlo hhi
        push_cast at hhi
        have h1 := decode_matrix_parity_counters d (decode_matrix_fill d (s.matrix, s.input)).1
          s.errors s.correctable hlo (by omega)
        have h1a : s.errors ≤ (decode_block d s).errors := h1.1
        have h1b : (decode_block d s).errors ≤ s.errors + 2 := h1.2
        have := h2.1 (by omega) (by omega)
        omega
      · intro hc
        exact h2.2 (decode_matrix_parity_flag d _ s.errors s.correctable hc)

/-- The matrix `1 1 / 0 0` is taken for a double error by `decode_matrix_parity`
with `d = 2`. -/
theorem decode_matrix_parity_double_error (errors : Int) (correctable : Bool) :
    decode_matrix_parity 2 (fun i _ => if i = 0 then 1 else 0) errors correctable
      = (fun i _ => if i = 0 then 1 else 0, toInt32 (errors + 2), false) := by
  have hscan : decode_parity_scan 2 (fun i _ => if i = 0 then 1 else 0) = (1, 1) := by decide
  unfold decode_matrix_parity
  simp [hscan]

theorem decode_parity_session_double_error (n : Nat) (e : Int) (c : Bool)
    (he : toInt32 e = e) :
    (decode_parity_session 2 (List.replicate n (fun i _ => if i = 0 then 1 else 0)) (e, c)).1
      = toInt32 (e + 2 * (n : Int)) := by
  induction n generalizing e c with
  | zero =>
    show e = toInt32 (e + 2 * ((0 : Nat) : Int))
    simp [he]
  | succ n ih =>
    rw [List.replicate_succ, decode_parity_session_cons, decode_matrix_parity_double_error]
    show (decode_parity_session 2 _ (toInt32 (e + 2), false)).1 = _
    rw [ih (toInt32 (e + 2)) false (by have := toInt32_add (e + 2) 0; simpa using this),
      toInt32_add]
    push_cast
    congr 1
    ring

/-- C17, counterexample.  With `d = 2`, on the matrix `1 1 / 0 0` every call of
`decode_matrix_parity` adds 2 to the error count.  Starting from `errors = 0`
and `correctable = true`, the count is 2147483646 after `2^30 - 1` calls and
`-2147483648` after one more call: the `int` counter has wrapped and the count
has decreased. -/
theorem error_counter_overflow :
    (decode_parity_session 2
        (List.replicate (2 ^ 30 - 1) (fun i _ => if i = 0 then 1 else 0)) (0, true)).1
        = 2147483646
      ∧ (decode_parity_session 2
          (List.replicate (2 ^ 30 - 1) (fun i _ => if i = 0 then 1 else 0)
            ++ [fun i _ => if i = 0 then 1 else 0]) (0, true)).1
        = -2147483648
      ∧ (decode_matrix_parity 2 (fun i _ => if i = 0 then 1 else 0) 2147483646 false).2.1
        = -2147483648 := by
  have h1 := decode_parity_session_double_error (2 ^ 30 - 1) 0 true (by unfold toInt32; omega)
  have h2 := decode_parity_session_double_error (2 ^ 30 - 1 + 1) 0 true
    (by unfold toInt32; omega)
  rw [List.replicate_succ', ] at h2
  refine ⟨?_, ?_, ?_⟩
  · rw [h1]
    unfold toInt32
    norm_num
  · rw [h2]
    unfold toInt32
    norm_num
  · rw [decode_matrix_parity_double_error]
    show toInt32 (2147483646 + 2) = -2147483648
    unfold toInt32
    norm_num

/-- C17, amended.  Over the calls of `decode_matrix_parity` of one decode
session, on any matrices: a call made with an error count from 0 to
`INT_MAX - 2` leaves a count that is not smaller and at most 2 larger, so over
every sequence of fewer than `2^30` calls that starts from `errors = 0` the
count after more calls is at least the count after fewer calls, and it is
never negative; without any bound on the number of calls, once `correctable`
is false it is false after every later call.  The same holds for every run of
the loop of `decode` that ends. -/
theorem error_counters_monotone_in_range (d : Nat) :
    (∀ (m : Matrix) (errors : Int) (correctable : Bool),
        0 ≤ errors → errors + 2 ≤ INT_MAX →
        errors ≤ (decode_matrix_parity d m errors correctable).2.1
          ∧ (decode_matrix_parity d m errors correctable).2.1 ≤ errors + 2)
      ∧ (∀ ms1 ms2 : List Matrix, 2 * ((ms1 ++ ms2).length : Int) ≤ INT_MAX →
          0 ≤ (decode_parity_session d ms1 (0, true)).1
            ∧ (decode_parity_session d ms1 (0, true)).1
              ≤ (decode_parity_session d (ms1 ++ ms2) (0, true)).1)
      ∧ (∀ (ms1 ms2 : List Matrix) (s : Int × Bool),
          (decode_parity_session d ms1 s).2 = false →
            (decode_parity_session d (ms1 ++ ms2) s).2 = false)
      ∧ (∀ (fuel : Nat) (s t : DecState), decode_loop d fuel s = some t →
          (0 ≤ s.errors → s.errors + 2 * (fuel : Int) ≤ INT_MAX → s.errors ≤ t.errors)
            ∧ (s.correctable = false → t.correctable = false)) := by
  refine ⟨decode_matrix_parity_counters d, ?_, ?_, decode_loop_counters d⟩
  · intro ms1 ms2 hlen
    rw [List.length_append] at hlen
    push_cast at hlen
    have h1 := decode_parity_session_counters d ms1 (0, true) (le_refl _)
      (by show (0 : Int) + 2 * (ms1.length : Int) ≤ INT_MAX; omega)
    have h1a : (0 : Int) ≤ (decode_parity_session d ms1 (0, true)).1 := h1.1
    have h1b : (decode_parity_session d ms1 (0, true)).1 ≤ 0 + 2 * (ms1.length : Int) := h1.2
    rw [decode_parity_session_append]
    have h2 := decode_parity_session_counters d ms2 (decode_parity_session d ms1 (0, true))
      h1a (by omega)
    exact ⟨h1a, h2.1⟩
  · intro ms1 ms2 s h
    rw [decode_parity_session_append]
    exact decode_parity_session_flag d ms2 _ h

/-- C17, amended: the statement at `d = 2` for two calls on the matrix
`1 1 / 0 0`. -/
theorem error_counters_monotone_in_range_witness :
    2 * ((([fun i _ => if i = 0 then 1 else 0] : List Matrix)
          ++ [fun i _ => if i = 0 then 1 else 0]).length : Int) ≤ INT_MAX
      ∧ 0 ≤ (decode_parity_session 2 [fun i _ => if i = 0 then 1 else 0] (0, true)).1
      ∧ (decode_parity_session 2 [fun i _ => if i = 0 then 1 else 0] (0, true)).1
        ≤ (decode_parity_session 2
            ([fun i _ => if i = 0 then 1 else 0] ++ [fun i _ => if i = 0 then 1 else 0])
            (0, true)).1 :=
  ⟨by decide, (error_counters_monotone_in_range 2).2.1 [fun i _ => if i = 0 then 1 else 0]
    [fun i _ => if i = 0 then 1 else 0] (by decide)⟩

/-! ## Claim C19: the length of the encoded text -/

/-- C19.  For every valid dimension `d`, with `P = d*d - 2*log2(d) - 1` data
cells per block, and every input of `n` bytes none of which is 0xFF, `encode`
ends, it writes exactly `8n / P + 1` blocks, and the text it writes has
`8n + (2*log2(d) + 1) * (8n / P + 1)` characters. -/
theorem encoded_length (d : Nat) (hd : validDimension d = true) (input : List Nat)
    (hin : ∀ x ∈ input, x < 255) :
    ∃ blocks text, encode_blocks d input = some blocks
      ∧ encode d input = some text
      ∧ text = blocks.flatten
      ∧ blocks.length = 8 * input.length / (d * d - 2 * Nat.log2 d - 1) + 1
      ∧ text.length
        = 8 * input.length
          + (2 * Nat.log2 d + 1) * (8 * input.length / (d * d - 2 * Nat.log2 d - 1) + 1) := by
  obtain ⟨blocks, hb, hlens⟩ := encode_blocks_lengths d hd input hin
  refine ⟨blocks, blocks.flatten, hb, ?_, rfl, ?_, ?_⟩
  · unfold encode
    rw [hb]
    rfl
  · have h := congrArg List.length hlens
    rw [List.length_map, List.length_append, List.length_replicate] at h
    exact h
  · rw [List.length_flatten, hlens, sum_replicate_append]
    have hdm := Nat.div_add_mod (8 * input.length) (d * d - 2 * Nat.log2 d - 1)
    generalize 8 * input.length / (d * d - 2 * Nat.log2 d - 1) = k at hdm ⊢
    generalize 8 * input.length % (d * d - 2 * Nat.log2 d - 1) = r at hdm ⊢
    generalize d * d - 2 * Nat.log2 d - 1 = P at hdm ⊢
    generalize 2 * Nat.log2 d + 1 = c at hdm ⊢
    generalize 8 * input.length = N at hdm ⊢
    rw [← hdm]
    ring

/-- C19: the statement at the input bytes 0x41, 0x42, 0x43 with `d = 4`: three
blocks and 39 characters. -/
theorem encoded_length_witness :
    ∃ blocks text, encode_blocks 4 [65, 66, 67] = some blocks
      ∧ encode 4 [65, 66, 67] = some text
      ∧ text = blocks.flatten
      ∧ blocks.length = 8 * [65, 66, 67].length / (4 * 4 - 2 * Nat.log2 4 - 1) + 1
      ∧ text.length
        = 8 * [65, 66, 67].length
          + (2 * Nat.log2 4 + 1) * (8 * [65, 66, 67].length / (4 * 4 - 2 * Nat.log2 4 - 1) + 1) :=
  encoded_length 4 (by decide) [65, 66, 67] (by decide)

/-! ## Claims C18 and C12: the parity cells and what they cover -/

theorem and_pred_eq_zero_iff : ∀ x, x < 256 →
    ((x &&& (x - 1)) = 0 ↔ (x = 0 ∨ ∃ k, k < 8 ∧ x = 2 ^ k)) := by
  decide!

theorem validDimension_pow {d : Nat} (h : validDimension d = true) : d = 2 ^ Nat.log2 d := by
  have h1 := validDimension_cases d h
  simp only [List.mem_cons, List.mem_singleton, List.not_mem_nil, or_false] at h1
  rcases h1 with h1 | h1 | h1 | h1 | h1 | h1 | h1 | h1 <;> subst h1 <;> decide!

theorem validDimension_le {d : Nat} (h : validDimension d = true) : d ≤ 256 := by
  have h1 := validDimension_cases d h
  simp only [List.mem_cons, List.mem_singleton, List.not_mem_nil, or_false] at h1
  omega

theorem isSkipped_iff_index (d : Nat) (hd : validDimension d = true) (i j : Nat)
    (hi : i < d) (hj : j < d) :
    isSkipped i j = true ↔ (i * d + j = 0 ∨ ∃ k, i * d + j = 2 ^ k) := by
  have hle := validDimension_le hd
  have hpos := validDimension_pos hd
  constructor
  · intro hs
    unfold isSkipped at hs
    simp only [Bool.or_eq_true, Bool.and_eq_true, beq_iff_eq] at hs
    rcases hs with ⟨h0, hb⟩ | ⟨h0, hb⟩
    · subst h0
      rcases (and_pred_eq_zero_iff j (by omega)).mp hb with h | ⟨k, _, h⟩
      · left
        rw [h]
        simp
      · right
        exact ⟨k, by rw [h]; simp⟩
    · subst h0
      rcases (and_pred_eq_zero_iff i (by omega)).mp hb with h | ⟨k, _, h⟩
      · left
        rw [h]
        simp
      · right
        refine ⟨k + Nat.log2 d, ?_⟩
        rw [pow_add, ← validDimension_pow hd, h]
        simp
  · rintro (h | ⟨k, h⟩)
    · have hij : i = 0 ∧ j = 0 := by
        by_contra hne
        exact cell_index_ne_zero hpos hne h
      rw [hij.1, hij.2]
      exact isSkipped_zero_zero
    · have hlt : 2 ^ k < d * d := by
        rw [← h]
        exact cell_index_lt hi hj
      have hk := pow_lt_sq_lt hd k hlt
      have hsk := pow_cell_skipped hd k hk
      have hdm := @cell_index_div_mod d i j hj
      rw [← h, hdm.1, hdm.2] at hsk
      exact hsk

/-- C18.  For every valid dimension `d` (a power of two with `2 ≤ d ≤ 256`): a
cell `(i, j)` of the matrix is skipped by the data fill exactly when its
linear index `i*d + j` is 0 or a power of two; for every matrix,
`encode_matrix_parity` leaves every cell that the fill does not skip as it is,
and a cell that it changes is the cell `(0,0)` or the cell at the linear index
`2^k` of a bit `k` that is set in the parity it computed. -/
theorem parity_cells_power_of_two (d : Nat) (hd : validDimension d = true) :
    (∀ i j, i < d → j < d →
        (isSkipped i j = true ↔ (i * d + j = 0 ∨ ∃ k, i * d + j = 2 ^ k)))
      ∧ (∀ (m : Matrix) (a b : Nat), isSkipped a b = false →
          encode_matrix_parity d m a b = m a b)
      ∧ (∀ (m : Matrix) (a b : Nat), encode_matrix_parity d m a b ≠ m a b →
          (a = 0 ∧ b = 0)
            ∨ ∃ k, (encode_parity_scan d m).1.testBit k = true ∧ a * d + b = 2 ^ k) := by
  refine ⟨isSkipped_iff_index d hd, encode_matrix_parity_frame d hd, ?_⟩
  intro m a b hne
  by_cases h0 : a = 0 ∧ b = 0
  · exact Or.inl h0
  · right
    have hcell := encode_matrix_parity_cell d m a b h0
    by_cases hex : ∃ i, i < 16 ∧ (encode_parity_scan d m).1.testBit i = true
        ∧ a = 2 ^ i / d ∧ b = 2 ^ i % d
    · obtain ⟨i, _, hbit, ha, hb⟩ := hex
      refine ⟨i, hbit, ?_⟩
      rw [ha, hb]
      exact Nat.div_add_mod' _ _
    · exact absurd (hcell.2 hex) hne

/-- C18: the statement at `d = 4`. -/
theorem parity_cells_power_of_two_witness :
    (∀ i j, i < 4 → j < 4 →
        (isSkipped i j = true ↔ (i * 4 + j = 0 ∨ ∃ k, i * 4 + j = 2 ^ k)))
      ∧ (∀ (m : Matrix) (a b : Nat), isSkipped a b = false →
          encode_matrix_parity 4 m a b = m a b)
      ∧ (∀ (m : Matrix) (a b : Nat), encode_matrix_parity 4 m a b ≠ m a b →
          (a = 0 ∧ b = 0)
            ∨ ∃ k, (encode_parity_scan 4 m).1.testBit k = true ∧ a * 4 + b = 2 ^ k) :=
  parity_cells_power_of_two 4 (by decide)

theorem data_count_bits (d : Nat) (hd : 0 < d) (M E : Matrix) (hM : Filled d M)
    (hE : ∀ a b, isSkipped a b = false → E a b = M a b) (k : Nat) :
    (List.range (d * d)).countP (fun n => ones d M n && n.testBit k)
      = (dataCells d).countP
          (fun c => decide (E c.1 c.2 = 1) && (c.1 * d + c.2).testBit k) := by
  unfold dataCells
  rw [List.countP_filter, cells_eq_range, List.countP_map]
  apply List.countP_congr
  intro n hn
  have hn2 : n < d * d := List.mem_range.mp hn
  have ha : n / d < d := Nat.div_lt_of_lt_mul hn2
  have hb : n % d < d := Nat.mod_lt _ hd
  have hidx : n / d * d + n % d = n := Nat.div_add_mod' _ _
  have hfill := hM (n / d) (n % d) ha hb
  simp only [Function.comp, ones, Matrix.at, hidx]
  cases hs : isSkipped (n / d) (n % d)
  · rw [hE _ _ hs]
    simp
  · rw [hs] at hfill
    simp only [if_true] at hfill
    simp [hfill]

/-- C12.  For every valid dimension `d`, every block built by
`encode_matrix_fill` and `encode_matrix_parity`, and every `k < 2*log2(d)`:
the cell with the linear index `2^k` lies in the matrix, and in the finished
block it holds 1 if the number of data cells that hold 1 and whose linear index
has bit `k` set is odd, and 0 otherwise; the data cells of the finished block
are those that `encode_matrix_fill` left. -/
theorem hamming_parity_coverage (d : Nat) (hd : validDimension d = true) (s : EncState)
    (hb : WellFormed s.buffer) (k : Nat) (hk : k < 2 * Nat.log2 d) :
    2 ^ k / d < d ∧ 2 ^ k % d < d
      ∧ encodeBlock d s (2 ^ k / d) (2 ^ k % d)
        = (if ((dataCells d).countP
                (fun c => decide (encodeBlock d s c.1 c.2 = 1)
                  && (c.1 * d + c.2).testBit k)) % 2 = 1
            then 1 else 0)
      ∧ (∀ c ∈ dataCells d,
          encodeBlock d s c.1 c.2 = (encode_matrix_fill d s).matrix c.1 c.2) := by
  have hpos := validDimension_pos hd
  have hM := (encode_matrix_fill_filled d s hb).2
  have hframe := encode_matrix_parity_frame d hd (encode_matrix_fill d s).matrix
  have hlt : 2 ^ k < d * d := by
    rw [validDimension_sq_pow hd]
    exact Nat.pow_lt_pow_right (by decide) hk
  have hk16 := pow_lt_sq_lt hd k hlt
  have ha : 2 ^ k / d < d := Nat.div_lt_of_lt_mul hlt
  have hb2 : 2 ^ k % d < d := Nat.mod_lt _ hpos
  have h0 : ¬ (2 ^ k / d = 0 ∧ 2 ^ k % d = 0) := by
    intro h
    have := div_mod_zero_iff.mp h
    exact absurd this (Nat.pos_iff_ne_zero.mp (Nat.two_pow_pos k))
  have hsk := pow_cell_skipped hd k hk16
  have hzero : (encode_matrix_fill d s).matrix (2 ^ k / d) (2 ^ k % d) = 0 := by
    have := hM _ _ ha hb2
    rw [hsk] at this
    simpa using this
  have hcell := encode_matrix_parity_cell d (encode_matrix_fill d s).matrix _ _ h0
  have hcount := data_count_bits d hpos (encode_matrix_fill d s).matrix (encodeBlock d s) hM
    hframe k
  have hbit := testBit_xorIdx (ones d (encode_matrix_fill d s).matrix) (d * d) k
  rw [hcount] at hbit
  have hscan : (encode_parity_scan d (encode_matrix_fill d s).matrix).1
      = xorIdx (ones d (encode_matrix_fill d s).matrix) (d * d) := by
    rw [encode_parity_scan_eq]
  rw [hscan] at hcell
  refine ⟨ha, hb2, ?_, ?_⟩
  · by_cases hodd : ((dataCells d).countP
        (fun c => decide (encodeBlock d s c.1 c.2 = 1) && (c.1 * d + c.2).testBit k)) % 2 = 1
    · rw [if_pos hodd]
      apply hcell.1
      refine ⟨k, hk16, ?_, rfl, rfl⟩
      rw [hbit]
      exact decide_eq_true hodd
    · rw [if_neg hodd]
      have : encodeBlock d s (2 ^ k / d) (2 ^ k % d)
          = (encode_matrix_fill d s).matrix (2 ^ k / d) (2 ^ k % d) := by
        apply hcell.2
        rintro ⟨i, _, hbi, hi1, hi2⟩
        have hik : 2 ^ k = 2 ^ i := div_mod_eq_iff.mp ⟨hi1, hi2⟩
        have : k = i := Nat.pow_right_injective (le_refl 2) hik
        subst this
        rw [hbit] at hbi
        exact hodd (of_decide_eq_true hbi)
      rw [this, hzero]
  · intro c hc
    exact hframe c.1 c.2 (by simpa using (mem_dataCells.mp hc).2.2)

/-- C12: the statement at the block of the byte 0x41 with `d = 4` and `k = 2`. -/
theorem hamming_parity_coverage_witness :
    2 ^ 2 / 4 < 4 ∧ 2 ^ 2 % 4 < 4
      ∧ encodeBlock 4 (encode_init [65]) (2 ^ 2 / 4) (2 ^ 2 % 4)
        = (if ((dataCells 4).countP
                (fun c => decide (encodeBlock 4 (encode_init [65]) c.1 c.2 = 1)
                  && (c.1 * 4 + c.2).testBit 2)) % 2 = 1
            then 1 else 0)
      ∧ (∀ c ∈ dataCells 4,
          encodeBlock 4 (encode_init [65]) c.1 c.2
            = (encode_matrix_fill 4 (encode_init [65])).matrix c.1 c.2) :=
  hamming_parity_coverage 4 (by decide) (encode_init [65]) (by decide) 2 (by decide!)

/-! ## Claims C14 and C15: the fill loops at the end of the input -/

/-- For every dimension `d` and every state of the encoder whose unread bytes
are all different from 0xFF: after `encode_matrix_fill` every skipped cell of
the matrix holds 0, and the data cells in row-major order hold the pending
bits (the unread slots of the buffer, then the bits of the unread bytes, most
significant bit first), followed by `PADDING` only once these are used up. -/
theorem fill_without_0xFF (d : Nat) (s : EncState) (hb : WellFormed s.buffer)
    (hf : NoFF s.input) :
    (∀ a b, a < d → b < d → isSkipped a b = true → (encode_matrix_fill d s).matrix a b = 0)
      ∧ dataValues d (encode_matrix_fill d s).matrix
        = (pending s.buffer s.input).take (dataCells d).length
          ++ List.replicate ((dataCells d).length - (pending s.buffer s.input).length) PADDING
      ∧ pending (encode_matrix_fill d s).buffer (encode_matrix_fill d s).input
        = (pending s.buffer s.input).drop (dataCells d).length := by
  have hfill := (encode_matrix_fill_filled d s hb).2
  have hvals := fillCells_values (cells d) (cells_nodup d) s hb hf
  rw [← encode_matrix_fill_eq_fillCells] at hvals
  refine ⟨?_, hvals.1, hvals.2.1⟩
  intro a b ha hb2 hs
  have := hfill a b ha hb2
  rw [hs] at this
  simpa using this

/-- C14, failing input.  With `d = 4` and the input bytes 0xFF, 0x41 the first
data cell is filled with `PADDING` although a byte is still unread, the byte
0xFF contributes none of its bits, and the next eight data cells hold the bits
of 0x41: `buffer_dequeue` stores the byte in a `char` and takes the value `-1`
for `EOF`.  The bits that the two bytes should contribute are listed last. -/
theorem fill_pads_at_0xFF :
    dataValues 4 (encode_matrix_fill 4 (encode_init [255, 65])).matrix
        = [PADDING, 0, 1, 0, 0, 0, 0, 0, 1, PADDING, PADDING]
      ∧ (buffer_dequeue (encode_init [255, 65]).buffer (encode_init [255, 65]).input).1
        = PADDING
      ∧ (buffer_dequeue (encode_init [255, 65]).buffer (encode_init [255, 65]).input).2.2.data
        = [65]
      ∧ (bitsOfByte 255 ++ bitsOfByte 65).take 11 = [1, 1, 1, 1, 1, 1, 1, 1, 0, 1, 0] := by
  decide

/-- C15, failing input.  When every read of `decode_matrix_fill` hits the end
of the input, the meta-parity cell and the parity cells keep the values they
had (here 1) and only the data cell is set to `PADDING`: the two parity loops
do not test `feof`, the data loop does.  And on the text `1111` with `d = 2`
all four reads succeed, yet the data cell `(1,1)` holds `PADDING` and not the
bit 1 that was read: reading the last character sets the end-of-file indicator
and the data loop then overwrites the cell.  `decode` of that text, one
complete block without error, ends with an error count of 1. -/
theorem decode_fill_keeps_parity_cells :
    ((decode_matrix_fill 2 (fun _ _ => 1, File.open [])).1 0 0 = 1
        ∧ (decode_matrix_fill 2 (fun _ _ => 1, File.open [])).1 0 1 = 1
        ∧ (decode_matrix_fill 2 (fun _ _ => 1, File.open [])).1 1 0 = 1
        ∧ (decode_matrix_fill 2 (fun _ _ => 1, File.open [])).1 1 1 = PADDING)
      ∧ ((decode_matrix_fill 2 ( matrix_initialize, File.open "1111".toList)).1 0 0 = 1
        ∧ (decode_matrix_fill 2 ( matrix_initialize, File.open "1111".toList)).1 0 1 = 1
        ∧ (decode_matrix_fill 2 ( matrix_initialize, File.open "1111".toList)).1 1 0 = 1
        ∧ (decode_matrix_fill 2 ( matrix_initialize, File.open "1111".toList)).1 1 1 = PADDING
        ∧ (decode_matrix_fill 2 ( matrix_initialize, File.open "1111".toList)).2.data = []
        ∧ (decode_matrix_fill 2 ( matrix_initialize, File.open "1111".toList)).2.eof = true)
      ∧ decode 2 "1111".toList = some ([], 1, true) := by
  decide!

/-- A block followed by white space: with `d = 2` the first iteration of the
loop of `decode` reads the block `1111` of the text `1111` followed by a line
feed, counts no error and does not reach the end of the text; the second
iteration reads nothing, finds the parity cells of the first block still in
the matrix and counts an error. -/
theorem decode_block_then_newline :
    (decode_block 2 (decode_init "1111\n".toList)).errors = 0
      ∧ (decode_block 2 (decode_init "1111\n".toList)).input.eof = false
      ∧ (decode_block 2 (decode_block 2 (decode_init "1111\n".toList))).matrix 0 0 = 1
      ∧ (decode_block 2 (decode_block 2 (decode_init "1111\n".toList))).matrix 0 1 = 1
      ∧ (decode_block 2 (decode_block 2 (decode_init "1111\n".toList))).matrix 1 0 = 1
      ∧ (decode_block 2 (decode_block 2 (decode_init "1111\n".toList))).errors = 1
      ∧ decode 2 "1111\n".toList = some ([], 1, true) := by
  decide!

end ExtendedHamming
